import Mathlib

/-!
# Triangular-arbitrage pair scanner: breakeven resolver and opportunity selection

A shallow embedding of `internal/ethapi/api_pair.go` (the resolver `pairWorker`
with its helpers `getRois`, `getArbitrageQueryParam`, `resolveROI`, the packed
encoder `EncodePackedBsc`, and the sort-then-filter selection of
`PairCallBatch` / `CallBatch`), followed by theorems about it.

Conventions of the embedding:

* `*big.Int` values are `Int`; a possibly-nil `*big.Int` is `Option Int`.
* Go `int` values that only index or count are `Int`; every product and sum the
  code forms from them is computed in `big.Int`, so nothing wraps.
* A Go call that can return an error or raise a run-time panic returns a
  `GoResult`.
* Byte slices are lists of `Fin 256`; Go strings are `String`.
-/

namespace PairScan

/-! ## Results of Go calls -/

/-- Result of a Go call: a value, a returned `error`, or a run-time panic. -/
inductive GoResult (α : Type) where
  | ok (a : α)
  | error (msg : String)
  | panic
  deriving Repr, DecidableEq

/-- Sequencing of Go calls: an error or a panic ends the computation. -/
def GoResult.bind {α β : Type} (r : GoResult α) (f : α → GoResult β) : GoResult β :=
  match r with
  | .ok a => f a
  | .error e => .error e
  | .panic => .panic

instance : Monad GoResult where
  pure := GoResult.ok
  bind := GoResult.bind

/-- A byte slice. -/
abbrev Bytes := List (Fin 256)

/-! ## Hexadecimal strings (`encoding/hex`, `big.Int.SetString(_, 16)`) -/

/-- The digit table `"0123456789abcdef"` of `encoding/hex`. -/
def hexDigit (n : Nat) : Char :=
  match n with
  | 0 => '0' | 1 => '1' | 2 => '2' | 3 => '3' | 4 => '4' | 5 => '5' | 6 => '6' | 7 => '7'
  | 8 => '8' | 9 => '9' | 10 => 'a' | 11 => 'b' | 12 => 'c' | 13 => 'd' | 14 => 'e'
  | _ => 'f'

/-- The characters of `hex.EncodeToString(b)`: two digits per byte, high nibble first. -/
def hexEncode : Bytes → List Char
  | [] => []
  | b :: bs => hexDigit (b.val / 16) :: hexDigit (b.val % 16) :: hexEncode bs

/-- Value of one base-16 digit as `big.Int.SetString` reads it (both cases), if it is one. -/
def hexVal (c : Char) : Option Nat :=
  if '0' ≤ c ∧ c ≤ '9' then some (c.toNat - '0'.toNat)
  else if 'a' ≤ c ∧ c ≤ 'f' then some (c.toNat - 'a'.toNat + 10)
  else if 'A' ≤ c ∧ c ≤ 'F' then some (c.toNat - 'A'.toNat + 10)
  else none

/-- Left-to-right accumulation of base-16 digits; `none` at the first non-digit. -/
def parseHexFrom : Nat → List Char → Option Nat
  | acc, [] => some acc
  | acc, c :: cs =>
    match hexVal c with
    | some d => parseHexFrom (16 * acc + d) cs
    | none => none

/-- The call `new(big.Int).SetString(s, 16)` on an unsigned digit string: the parsed value, or
`none` for the `(nil, false)` result. The strings passed here are slices of `hex.EncodeToString`
output, which carry no sign and no separators. -/
def SetString16 (s : List Char) : Option Int :=
  match s with
  | [] => none
  | _ => (parseHexFrom 0 s).map Int.ofNat

/-- The Go slice expression `s[lo:hi]` on a string of single-byte characters, for
`lo ≤ hi ≤ len(s)`. -/
def substr (s : List Char) (lo hi : Nat) : List Char :=
  (s.drop lo).take (hi - lo)

/-! ## Search windows -/

/-- The Go struct `ArbitrageQueryParam`. -/
structure ArbitrageQueryParam where
  Start : Int
  End : Int
  Pieces : Int
  deriving Repr, DecidableEq

/-- The function `getArbitrageQueryParam(start, index, step)`: the index is clamped to 9, the new
start is `start + step * index`, the new end is the new start plus `step`, and `Pieces` is 10. -/
def getArbitrageQueryParam (start : Int) (index step : Int) : ArbitrageQueryParam :=
  let index := if index ≥ 10 then 9 else index
  let stepBigInt := step
  let indexBigInt := index
  let startNew := start + stepBigInt * indexBigInt
  let «end» := startNew + stepBigInt
  { Start := startNew, End := «end», Pieces := 10 }

/-- A store of `big.Int` cells; a `*big.Int` is the index of its cell. -/
abbrev BigStore := List Int

/-- The value a pointer refers to. -/
def BigStore.read (h : BigStore) (p : Nat) : Int := h.getD p 0

/-- A fresh cell holding `v` (`big.NewInt(v)`, or `new(big.Int)` as the receiver of an
operation whose result is `v`): the extended store and the new pointer. -/
def BigStore.alloc (h : BigStore) (v : Int) : BigStore × Nat := (h ++ [v], h.length)

/-- The struct `ArbitrageQueryParam` as the code holds it: three pointers. -/
structure ArbitrageQueryParamRef where
  Start : Nat
  End : Nat
  Pieces : Nat
  deriving Repr, DecidableEq

/-- The function `getArbitrageQueryParam` on the store, with `start` a pointer: every
`big.NewInt` and every `new(big.Int)` receiver is a fresh cell, and `Add` and `Mul` read their
arguments and write their receiver only. -/
def getArbitrageQueryParamRef (h : BigStore) (start : Nat) (index step : Int) :
    BigStore × ArbitrageQueryParamRef :=
  let index := if index ≥ 10 then 9 else index
  let (h1, stepBigInt) := h.alloc step
  let (h2, indexBigInt) := h1.alloc index
  let (h3, product) := h2.alloc (h2.read stepBigInt * h2.read indexBigInt)
  let (h4, startNew) := h3.alloc (h3.read start + h3.read product)
  let (h5, «end») := h4.alloc (h4.read startNew + h4.read stepBigInt)
  let (h6, pieces) := h5.alloc 10
  (h6, { Start := startNew, End := «end», Pieces := pieces })

/-- The loop of `resolveROI`, with `remaining` the number of iterations the loop condition
`i < (len(rois)-6)/8` still admits. An index outside the slice or a nil element is a panic. -/
def resolveROILoop (rois : List (Option Int)) : Nat → Nat → GoResult Int
  | 0, i => .ok i
  | remaining + 1, i =>
    match rois[i * 8 + 6]? with
    | none => .panic
    | some none => .panic
    | some (some v) => if v = 0 then .ok i else resolveROILoop rois remaining (i + 1)

/-- The function `resolveROI(rois)`: skip 6 values, group the rest in tuples of 8, return the
index of the first tuple whose first value is zero, or the number of complete tuples when there
is none. The bound `(len(rois)-6)/8` is Go's truncating division. -/
def resolveROI (rois : List (Option Int)) : GoResult Int :=
  resolveROILoop rois (Int.tdiv ((rois.length : Int) - 6) 8).toNat 0

/-! ## Candidates, the oracle and sample decoding -/

/-- The Go struct `pairtypes.Triangle`: a candidate, with its nine addresses as strings. -/
structure Triangle where
  ID : Int
  Token0 : String
  Router0 : String
  Pair0 : String
  Token1 : String
  Router1 : String
  Pair1 : String
  Token2 : String
  Router2 : String
  Pair2 : String
  deriving Repr, DecidableEq

/-- The type `common.Address`: exactly 20 bytes. -/
def Address : Type := { b : Bytes // b.length = 20 }

instance : DecidableEq Address := by unfold Address; infer_instance

/-- The Go struct `pairtypes.ITriangularArbitrageTriangular`. -/
structure ITriangularArbitrageTriangular where
  Token0 : Address
  Router0 : Address
  Pair0 : Address
  Token1 : Address
  Router1 : Address
  Pair1 : Address
  Token2 : Address
  Router2 : Address
  Pair2 : Address

/-- The external collaborators the resolver is linked against: the Keccak-256 digest (always 32
bytes) behind `solsha3.SoliditySHA3` and `common.Address.Hex`, and `common.HexToAddress`. -/
structure Env where
  Keccak256 : Bytes → Bytes
  Keccak256_size : ∀ b, (Keccak256 b).length = 32
  HexToAddress : String → Address

/-- The oracle behind `s.FlagCall`: the reply to the `n`-th call (counted from 0) of one
resolution, for the query `arbitrageQuery(triangular, Start, End, Pieces)`: the returned bytes,
or the error. The call number lets the reply to equal queries differ over time. -/
abbrev Oracle := Nat → ITriangularArbitrageTriangular → ArbitrageQueryParam → Except String Bytes

/-- The decoding half of `getRois`: `lenth = len(roiStr) / 64`, a slice of `lenth - 2` entries
(a negative length makes `make` panic), filled left to right with the words `j = 2 .. lenth-1`,
each read by `SetString(roiStr[64*j:64*(j+1)], 16)`. -/
def decodeRois (call : Bytes) : GoResult (List (Option Int)) :=
  let roiStr := hexEncode call
  let lenth := roiStr.length / 64
  if (lenth : Int) - 2 < 0 then .panic
  else
    .ok ((List.range lenth).filterMap fun j =>
      if j > 1 then some (SetString16 (substr roiStr (64 * j) (64 * (j + 1)))) else none)

/-- The function `getRois`, as the `n`-th oracle call of a resolution: an oracle error is
returned as it is, a reply is decoded into its words after the two header words. -/
def getRois (o : Oracle) (n : Nat) (triangular : ITriangularArbitrageTriangular)
    (param : ArbitrageQueryParam) : GoResult (List (Option Int)) :=
  match o n triangular param with
  | .error err => .error err
  | .ok call => decodeRois call

/-! ## Packed encoding -/

/-- The Go struct `Wei`. -/
structure Wei where
  BitSize : Int
  Data : String
  deriving Repr, DecidableEq

/-- The values `EncodePackedBsc` can be handed in its `[]interface{}` argument: a string, a
non-nil `*Wei`, a `common.Address`, or a value of any other type (named as `%T` prints it). -/
inductive Value where
  | str (s : String)
  | wei (w : Wei)
  | address (a : Address)
  | other (typeName : String)

/-- Big-endian bytes of `n`, `width` of them, the low-order ones when `n` needs more. -/
def beBytes : Nat → Nat → Bytes
  | 0, _ => []
  | width + 1, n => beBytes width (n / 256) ++ [⟨n % 256, Nat.mod_lt _ (by decide)⟩]

/-- The library call `solsha3.Int256(v)` for a `*big.Int` with `0 ≤ v < 2^256`, the range of the
words `getRois` decodes: the 32-byte big-endian encoding of `v`. Values outside that range, which
the resolver never passes, are reduced modulo `2^256`. -/
def Int256 (v : Int) : Bytes := beBytes 32 (v % 2 ^ 256).toNat

/-- The function `getWei(roi, bitSize)`. -/
def getWei (roi : Int) (bitSize : Int) : Wei :=
  { BitSize := bitSize, Data := String.mk (hexEncode (Int256 roi)) }

/-- The library method `common.Address.Hex`: `"0x"`, then the 40 lower-case digits of the
address, a letter digit raised to upper case where the matching nibble of the Keccak-256 digest
of the 40 digits exceeds 7 (EIP-55). -/
def Address.Hex (env : Env) (a : Address) : List Char :=
  let lower := hexEncode a.val
  let hash := env.Keccak256 (lower.map fun c => ⟨c.toNat % 256, Nat.mod_lt _ (by decide)⟩)
  let nibbles := hash.flatMap fun b => [b.val / 16, b.val % 16]
  '0' :: 'x' :: List.zipWith
    (fun c hashByte => if c > '9' ∧ hashByte > 7 then Char.ofNat (c.toNat - 32) else c)
    lower nibbles

/-- The library function `common.BigToAddress(b)`: the low-order 20 bytes of `|b|`. -/
def BigToAddress (b : Int) : Address :=
  ⟨beBytes 20 b.natAbs, by
    generalize b.natAbs = n
    generalize 20 = w
    induction w generalizing n with
    | zero => rfl
    | succ w ih => simp [beBytes, ih]⟩

/-- One iteration of the loop of `EncodePackedBsc`, the type switch on `value`: a string is
appended as it is, a `Wei` by the last `BitSize/4` characters of its `Data`, an address by its
`Hex()` without the leading `0x`; any other type is the error return. A `Wei` whose `Data` is
shorter than `BitSize/4` (or whose `BitSize/4` is negative) makes the slice expression panic. -/
def encodeStep (env : Env) (encoded : String) (value : Value) : GoResult String :=
  match value with
  | .str v => .ok (encoded ++ v)
  | .wei wei =>
    let lo : Int := (wei.Data.length : Int) - Int.tdiv wei.BitSize 4
    if lo < 0 ∨ lo > wei.Data.length then .panic
    else .ok (encoded ++ String.mk (wei.Data.data.drop lo.toNat))
  | .address v =>
    let addrStr := (Address.Hex env v).drop 2
    .ok (encoded ++ String.mk addrStr)
  | .other typeName => .error ("unsupported type: " ++ typeName)

/-- The function `EncodePackedBsc(values)`: the loop over `values` from the empty string; the
error return carries the empty string. -/
def EncodePackedBsc (env : Env) (values : List Value) : GoResult String :=
  values.foldlM (encodeStep env) ""

/-- A value `EncodePackedBsc` encodes without error or panic: a string, an address, or a `Wei`
whose `Data` has at least `BitSize/4` characters (`BitSize/4` not negative). -/
def Value.Encodable : Value → Prop
  | .str _ => True
  | .wei w => 0 ≤ Int.tdiv w.BitSize 4 ∧ Int.tdiv w.BitSize 4 ≤ w.Data.length
  | .address _ => True
  | .other _ => False

/-! ## The resolver `pairWorker` -/

/-- The Go struct `ROI`: an opportunity. -/
structure ROI where
  Triangle : Triangle
  CallData : String
  Profit : Int
  deriving Repr, DecidableEq

/-- A value sent on the `results` channel: a `*ROI`, an `error`, or `nil`. -/
inductive Outcome where
  | roi (r : ROI)
  | error (msg : String)
  | nil
  deriving Repr, DecidableEq

/-- What one run of a worker did: the oracle queries it issued, in order, the values it sent on
the `results` channel, in order, and whether it ended in a run-time panic. -/
structure Run where
  calls : List ArbitrageQueryParam
  pushed : List Outcome
  panicked : Bool
  deriving Repr, DecidableEq

/-- The conversion at the head of `pairWorker`: every address string through
`common.HexToAddress`. -/
def toTriangular (env : Env) (triangle : Triangle) : ITriangularArbitrageTriangular :=
  { Token0 := env.HexToAddress triangle.Token0
    Router0 := env.HexToAddress triangle.Router0
    Pair0 := env.HexToAddress triangle.Pair0
    Token1 := env.HexToAddress triangle.Token1
    Router1 := env.HexToAddress triangle.Router1
    Pair1 := env.HexToAddress triangle.Pair1
    Token2 := env.HexToAddress triangle.Token2
    Router2 := env.HexToAddress triangle.Router2
    Pair2 := env.HexToAddress triangle.Pair2 }

/-- One sampling step of `pairWorker`: `rois, err = getRois(..)` as the `n`-th oracle call,
then, when `err == nil`, `index = resolveROI(rois)`. -/
def sampleIndex (o : Oracle) (n : Nat) (triangular : ITriangularArbitrageTriangular)
    (param : ArbitrageQueryParam) : GoResult Int :=
  match getRois o n triangular param with
  | .error err => .error err
  | .panic => .panic
  | .ok rois => resolveROI rois

/-- The four narrowing stages of `pairWorker` (from the first `getArbitrageQueryParam` to the
computation of `point`): the queries issued, and either `point` or the error or panic that ended
the stages early. -/
def pairWorkerStages (o : Oracle) (triangular : ITriangularArbitrageTriangular) :
    List ArbitrageQueryParam × GoResult Int :=
  let param1 := getArbitrageQueryParam 0 0 10000
  match sampleIndex o 0 triangular param1 with
  | .error err => ([param1], .error err)
  | .panic => ([param1], .panic)
  | .ok index1 =>
  let param2 := getArbitrageQueryParam param1.Start index1 1000
  match sampleIndex o 1 triangular param2 with
  | .error err => ([param1, param2], .error err)
  | .panic => ([param1, param2], .panic)
  | .ok index2 =>
  let param3 := getArbitrageQueryParam param2.Start index2 100
  match sampleIndex o 2 triangular param3 with
  | .error err => ([param1, param2, param3], .error err)
  | .panic => ([param1, param2, param3], .panic)
  | .ok index3 =>
  let param4 := getArbitrageQueryParam param3.Start index3 10
  match sampleIndex o 3 triangular param4 with
  | .error err => ([param1, param2, param3, param4], .error err)
  | .panic => ([param1, param2, param3, param4], .panic)
  | .ok index4 =>
  let point := param4.Start + index4
  ([param1, param2, param3, param4], .ok point)

/-- Dereference of a possibly-nil `*big.Int`: a nil pointer is a panic. -/
def deref (v : Option Int) : GoResult Int :=
  match v with
  | some x => .ok x
  | none => .panic

/-- The element `rois[i]` used as a `*big.Int` value: an index outside the slice is a panic,
and so is a nil element. -/
def roiAt (rois : List (Option Int)) (i : Nat) : GoResult Int :=
  match rois[i]? with
  | some v => deref v
  | none => .panic

/-- The library call `solsha3.SoliditySHA3` on byte-slice arguments: the Keccak-256 digest of
their concatenation. -/
def SoliditySHA3 (env : Env) (data : List Bytes) : Bytes :=
  env.Keccak256 data.flatten

/-- The library call `solsha3.Uint32(big.NewInt(0))`: four zero bytes. -/
def Uint32Zero : Bytes := [0, 0, 0, 0]

/-- The payload assembly of `pairWorker` (from `snapshotsHash` to the call of
`EncodePackedBsc`), on the decoded point sample. -/
def packCallData (env : Env) (triangular : ITriangularArbitrageTriangular)
    (rois : List (Option Int)) : GoResult String := do
  let r3 ← roiAt rois 3
  let r4 ← roiAt rois 4
  let r5 ← roiAt rois 5
  let snapshotsHash := SoliditySHA3 env [Int256 r3, Int256 r4, Int256 r5]
  let subHex := (hexEncode snapshotsHash).take 2
  let r0 ← roiAt rois 0
  let r6 ← roiAt rois 6
  let r1 ← roiAt rois 1
  let r7 ← roiAt rois 7
  let r2 ← roiAt rois 2
  let r10 ← roiAt rois 10
  let r11 ← roiAt rois 11
  let r12 ← roiAt rois 12
  let r13 ← roiAt rois 13
  let parameters : List Value := [
    .str (String.mk (hexEncode Uint32Zero)),
    .str (String.mk subHex),
    .address (BigToAddress r0),
    .wei (getWei r6 96),
    .address (BigToAddress r1),
    .wei (getWei r7 96),
    .address (BigToAddress r2),
    .wei (getWei r10 96),
    .address triangular.Token0,
    .wei (getWei r11 96),
    .address triangular.Pair0,
    .wei (getWei r12 96),
    .address triangular.Token1,
    .wei (getWei r13 96),
    .address triangular.Pair1,
    .address triangular.Token2,
    .address triangular.Pair2]
  EncodePackedBsc env parameters

/-- The function `pairWorker(s, results, triangle)`: four narrowing stages, the test for the
zero point, the exact-point query, the threshold test on `rois[13]`, and the assembly of the
`ROI`. The comparison `rois == nil` is always false for a slice returned by `make`, so the guard
reduces to the bounds check of `rois[13]`, its nil test and the threshold. -/
def pairWorker (env : Env) (o : Oracle) (triangle : Triangle) : Run :=
  let triangular := toTriangular env triangle
  match pairWorkerStages o triangular with
  | (calls, .error err) => { calls := calls, pushed := [.error err], panicked := false }
  | (calls, .panic) => { calls := calls, pushed := [], panicked := true }
  | (calls, .ok point) =>
  if point = 0 then { calls := calls, pushed := [.nil], panicked := false }
  else
  let param : ArbitrageQueryParam := { Start := point, End := point, Pieces := 1 }
  let calls := calls ++ [param]
  match getRois o 4 triangular param with
  | .error err => { calls := calls, pushed := [.error err], panicked := false }
  | .panic => { calls := calls, pushed := [], panicked := true }
  | .ok rois =>
  match rois[13]? with
  | none => { calls := calls, pushed := [], panicked := true }
  | some none => { calls := calls, pushed := [.nil], panicked := false }
  | some (some roi13) =>
  if roi13 < 5000000 then { calls := calls, pushed := [.nil], panicked := false }
  else
  match packCallData env triangular rois with
  | .panic => { calls := calls, pushed := [], panicked := true }
  | .error err => { calls := calls, pushed := [.error err], panicked := false }
  | .ok calldata =>
    { calls := calls
      pushed := [.roi { Triangle := triangle, CallData := calldata, Profit := roi13 }]
      panicked := false }

/-! ## Opportunity selection (`PairCallBatch`, `CallBatch`) -/

/-- The comparison handed to `sort.Slice`: `rois[i].Profit.Cmp(&rois[j].Profit) > 0`. -/
def profitLess (a b : ROI) : Bool := decide (a.Profit > b.Profit)

/-- The library call `sort.Slice(rois, less)` with the profit comparison: what the library
promises of it, a rearrangement of the slice in which no later element is `less` than an
earlier one. The library does not promise to keep equal elements in their order. -/
structure SliceSorter where
  sort : List ROI → List ROI
  perm : ∀ rois, (sort rois).Perm rois
  sorted : ∀ rois, (sort rois).Pairwise fun a b => profitLess b a = false

/-- The three statements `uniquePairs[..] = true` of the filter loop. -/
def markPairs (uniquePairs : List String) (roi : ROI) : List String :=
  roi.Triangle.Pair2 :: roi.Triangle.Pair1 :: roi.Triangle.Pair0 :: uniquePairs

/-- One iteration of the filter loop, on the state `(uniquePairs, filteredROIs)`: an `roi` with
a pair already marked is skipped, any other is appended and its three pairs are marked. -/
def filterStep (st : List String × List ROI) (roi : ROI) : List String × List ROI :=
  if st.1.contains roi.Triangle.Pair0 || st.1.contains roi.Triangle.Pair1
      || st.1.contains roi.Triangle.Pair2 then st
  else (markPairs st.1 roi, st.2 ++ [roi])

/-- The filter loop over the sorted `rois`, from the empty `uniquePairs` map and the empty
`filteredROIs`; the result is `filteredROIs`. -/
def uniquePairsFilter (rois : List ROI) : List ROI :=
  (rois.foldl filterStep ([], [])).2

/-- The selection of `PairCallBatch` and of `CallBatch`: under `if len(rois) > 0`, sort by
profit, then filter. -/
def selectROIs (s : SliceSorter) (rois : List ROI) : List ROI :=
  if rois.length > 0 then uniquePairsFilter (s.sort rois) else []

/-- The three pair addresses of an opportunity. -/
def pairsOf (roi : ROI) : List String :=
  [roi.Triangle.Pair0, roi.Triangle.Pair1, roi.Triangle.Pair2]

/-- Two opportunities share a pair address. -/
def sharesPair (a b : ROI) : Prop := ∃ p ∈ pairsOf a, p ∈ pairsOf b

/-- The state of the filter loop is coherent: the marked pairs are exactly the pair addresses
of the opportunities accepted so far. -/
def FilterInv (st : List String × List ROI) : Prop :=
  ∀ p, p ∈ st.1 ↔ ∃ r ∈ st.2, p ∈ pairsOf r

/-- A sorter that keeps the promise of `sort.Slice`: insertion sort by non-increasing profit. -/
def insertionSorter : SliceSorter where
  sort rois := rois.insertionSort fun a b => b.Profit ≤ a.Profit
  perm rois := List.perm_insertionSort _ rois
  sorted rois := by
    have h := @List.sorted_insertionSort ROI (fun a b => b.Profit ≤ a.Profit) _
      ⟨fun a b => le_total b.Profit a.Profit⟩ ⟨fun a b c hab hbc => le_trans hbc hab⟩ rois
    refine List.Pairwise.imp ?_ h
    intro a b hab
    simp [profitLess, hab]

/-! ## Sample data -/

/-- Opportunity `A`: profit 10, pairs `x`, `y`, `z`. -/
def exampleA : ROI :=
  { Triangle := { ID := 1, Token0 := "t0", Router0 := "r0", Pair0 := "x", Token1 := "t1",
                  Router1 := "r1", Pair1 := "y", Token2 := "t2", Router2 := "r2", Pair2 := "z" }
    CallData := "", Profit := 10 }

/-- Opportunity `B`: profit 8, pairs `y`, `w`, `v`. -/
def exampleB : ROI :=
  { Triangle := { ID := 2, Token0 := "t0", Router0 := "r0", Pair0 := "y", Token1 := "t1",
                  Router1 := "r1", Pair1 := "w", Token2 := "t2", Router2 := "r2", Pair2 := "v" }
    CallData := "", Profit := 8 }

/-- Opportunity `C`: profit 5, pairs `q`, `r`, `s`. -/
def exampleC : ROI :=
  { Triangle := { ID := 3, Token0 := "t0", Router0 := "r0", Pair0 := "q", Token1 := "t1",
                  Router1 := "r1", Pair1 := "r", Token2 := "t2", Router2 := "r2", Pair2 := "s" }
    CallData := "", Profit := 5 }

/-! ## The windows of the four stages, as functions of the offsets found so far -/

/-- The window of the first stage. -/
def window1 : ArbitrageQueryParam := getArbitrageQueryParam 0 0 10000

/-- The window of the second stage, after offset `i1`. -/
def window2 (i1 : Int) : ArbitrageQueryParam := getArbitrageQueryParam window1.Start i1 1000

/-- The window of the third stage, after offsets `i1`, `i2`. -/
def window3 (i1 i2 : Int) : ArbitrageQueryParam :=
  getArbitrageQueryParam (window2 i1).Start i2 100

/-- The window of the fourth stage, after offsets `i1`, `i2`, `i3`. -/
def window4 (i1 i2 i3 : Int) : ArbitrageQueryParam :=
  getArbitrageQueryParam (window3 i1 i2).Start i3 10

/-- The query of the exact-point call. -/
def pointQuery (point : Int) : ArbitrageQueryParam := { Start := point, End := point, Pieces := 1 }

/-- A stand-in for the external collaborators: a digest that is always 32 zero bytes and an
address parser that always yields the zero address. -/
def sampleEnv : Env where
  Keccak256 _ := List.replicate 32 0
  Keccak256_size _ := List.length_replicate 32 0
  HexToAddress _ := ⟨List.replicate 20 0, List.length_replicate 20 0⟩

/-- A candidate. -/
def sampleTriangle : Triangle :=
  { ID := 1, Token0 := "0xa0", Router0 := "0xb0", Pair0 := "0xc0", Token1 := "0xa1",
    Router1 := "0xb1", Pair1 := "0xc1", Token2 := "0xa2", Router2 := "0xb2", Pair2 := "0xc2" }

/-- The 32-byte word of value 0. -/
def zeroWord : Bytes := List.replicate 32 0

/-- The 32-byte word of value 1. -/
def oneWord : Bytes := List.replicate 31 0 ++ [1]

/-- An oracle whose every reply is empty (what a call to an address without code returns). -/
def emptyReplyOracle : Oracle := fun _ _ _ => .ok []

/-- An oracle whose every reply has two header words, six auxiliary words and ten tuples of
eight words, every word of value 1: no representative profit is zero. -/
def allNonzeroOracle : Oracle := fun _ _ _ => .ok (List.replicate 88 oneWord).flatten

/-- An oracle that answers the first two calls with two header words and nothing else, and
fails from the third call on. -/
def failingOracle : Oracle := fun n _ _ =>
  if n < 2 then .ok (List.replicate 2 zeroWord).flatten else .error "execution reverted"

/-- An oracle that leads the four stages to point 1 and answers the point query with a sample
whose profit field, word 13 after the two header words, ends in the three given bytes: the
first three replies have no tuple, the fourth has a non-zero tuple followed by a zero one. -/
def thresholdOracle (b2 b1 b0 : Fin 256) : Oracle := fun n _ _ =>
  if n < 3 then .ok (List.replicate 2 zeroWord).flatten
  else if n = 3 then
    .ok (List.replicate 8 zeroWord ++ [oneWord] ++ List.replicate 15 zeroWord).flatten
  else .ok (List.replicate 15 zeroWord ++ [List.replicate 29 0 ++ [b2, b1, b0]]).flatten

/-- An oracle that is monotone with breakeven `P`: its reply to the window `(Start, End)` has
two header words, six auxiliary words and ten tuples, the first word of tuple `i` being 0 when
`P` lies before the end `Start + (i+1) * ((End - Start) / 10)` of sub-interval `i`, and 1
otherwise. -/
def breakevenOracle (P : Int) : Oracle := fun _ _ q =>
  .ok ((List.replicate 8 zeroWord ++ (List.range 10).flatMap fun i =>
    (if P < q.Start + ((i : Int) + 1) * ((q.End - q.Start) / 10) then zeroWord else oneWord)
      :: List.replicate 7 zeroWord).flatten)

/-- The oracle is monotone with breakeven `P` for the candidate `t`: every query of a window
`(Start, End, 10)` that contains `P` succeeds with at least ten complete tuples, and the
representative profit of tuple `i` (the value at `6 + 8 i`) is zero exactly when sub-interval
`i`, which ends at `Start + (i+1) * ((End - Start) / 10)`, contains `P` or lies after it. -/
def MonotoneWithBreakeven (o : Oracle) (t : ITriangularArbitrageTriangular) (P : Int) : Prop :=
  ∀ (n : Nat) (q : ArbitrageQueryParam), q.Pieces = 10 → q.Start ≤ P → P < q.End →
    ∃ rois, getRois o n t q = .ok rois ∧ 10 ≤ (rois.length - 6) / 8 ∧
      ∀ i : Nat, i < 10 → ∃ v : Int, rois[6 + 8 * i]? = some (some v) ∧
        (v = 0 ↔ P < q.Start + ((i : Int) + 1) * ((q.End - q.Start) / 10))

/-! ## Sample oracles and replies for the point query -/

/-- An oracle whose every reply is two header words and nothing else: every stage finds no
tuple, so every offset is 0 and the point is 0. -/
def zeroPointOracle : Oracle := fun _ _ _ => .ok (List.replicate 2 zeroWord).flatten

/-- An oracle that leads the four stages to point 1 (three replies without a tuple, then a
non-zero tuple followed by a zero one) and answers the point query with the given bytes. -/
def pointReplyOracle (reply : Bytes) : Oracle := fun n _ _ =>
  if n < 3 then .ok (List.replicate 2 zeroWord).flatten
  else if n = 3 then
    .ok (List.replicate 8 zeroWord ++ [oneWord] ++ List.replicate 15 zeroWord).flatten
  else .ok reply

/-- A point reply of two header words and 13 values, all zero: the value at index 13 is
absent. -/
def shortPointReply : Bytes := (List.replicate 15 zeroWord).flatten

/-- The 32-byte word of bytes `0xff`: the two's-complement encoding of -1. -/
def minusOneWord : Bytes := List.replicate 32 255

/-- A point reply of two header words and 14 values whose last one, the profit field, is the
word of -1. -/
def negativeProfitReply : Bytes := (List.replicate 15 zeroWord ++ [minusOneWord]).flatten

/-- The signed 256-bit integer a 32-byte big-endian word encodes in two's complement. -/
def signedWord (w : Bytes) : Int :=
  let u : Nat := w.foldl (fun acc b => 256 * acc + b.val) 0
  if u < 2 ^ 255 then (u : Int) else (u : Int) - 2 ^ 256

/-- The profit an outcome carries, if it is an opportunity. -/
def Outcome.profit : Outcome → Option Int
  | .roi r => some r.Profit
  | _ => none

/-! ## Opportunities of equal profit -/

/-- Opportunity `X`: profit 7, pairs `x0`, `x1`, `k`. -/
def exampleX : ROI :=
  { Triangle := { ID := 4, Token0 := "t0", Router0 := "r0", Pair0 := "x0", Token1 := "t1",
                  Router1 := "r1", Pair1 := "x1", Token2 := "t2", Router2 := "r2", Pair2 := "k" }
    CallData := "", Profit := 7 }

/-- Opportunity `Y`: profit 7 as well, pairs `k`, `y1`, `y2`; it shares `k` with `X`. -/
def exampleY : ROI :=
  { Triangle := { ID := 5, Token0 := "t0", Router0 := "r0", Pair0 := "k", Token1 := "t1",
                  Router1 := "r1", Pair1 := "y1", Token2 := "t2", Router2 := "r2", Pair2 := "y2" }
    CallData := "", Profit := 7 }

/-! ## The candidate index (`paircache`, `pairtypes`) -/

/-- The library type `cmap.ConcurrentMap` with string keys, as far as `Set`, `Get`, `Remove`
and `Count` show it: a finite map, kept as a list of entries with distinct keys. Each of its
operations is atomic. -/
structure ConcurrentMap (V : Type) where
  entries : List (String × V)
  deriving Repr, DecidableEq

/-- The constructor `cmap.New()`: the empty map. -/
def ConcurrentMap.New {V : Type} : ConcurrentMap V := { entries := [] }

/-- The entries after `Set(key, value)`: the entry under `key` is replaced, or a new entry is
added. -/
def setEntry {V : Type} (key : String) (value : V) : List (String × V) → List (String × V)
  | [] => [(key, value)]
  | (k, v) :: rest => if k = key then (key, value) :: rest else (k, v) :: setEntry key value rest

/-- The method `Set(key, value)`. -/
def ConcurrentMap.Set {V : Type} (m : ConcurrentMap V) (key : String) (value : V) :
    ConcurrentMap V :=
  { entries := setEntry key value m.entries }

/-- The method `Get(key)`: the value and `true`, or `none` for `(nil, false)`. -/
def ConcurrentMap.Get {V : Type} (m : ConcurrentMap V) (key : String) : Option V :=
  (m.entries.find? fun e => e.1 = key).map fun e => e.2

/-- The method `Remove(key)`. -/
def ConcurrentMap.Remove {V : Type} (m : ConcurrentMap V) (key : String) : ConcurrentMap V :=
  { entries := m.entries.filter fun e => e.1 ≠ key }

/-- The method `Count()`. -/
def ConcurrentMap.Count {V : Type} (m : ConcurrentMap V) : Nat := m.entries.length

/-- The Go struct `pairtypes.Set`: a set of strings, kept as the keys of a concurrent map. -/
structure IdSet where
  data : ConcurrentMap Unit
  deriving Repr, DecidableEq

/-- The function `NewSet()`. -/
def NewSet : IdSet := { data := ConcurrentMap.New }

/-- The method `(*Set).Add(value)`. -/
def IdSet.Add (s : IdSet) (value : String) : IdSet := { data := s.data.Set value () }

/-- The method `(*Set).Size()`. -/
def IdSet.Size (s : IdSet) : Nat := s.data.Count

/-- The method `(*Set).Remove(value)`. -/
def IdSet.Remove (s : IdSet) (value : String) : IdSet := { data := s.data.Remove value }

/-- The method `(*Set).Contains(value)`. -/
def IdSet.Contains (s : IdSet) (value : String) : Bool := (s.data.Get value).isSome

/-- The Go struct `pairtypes.PairCache`: the forward map from id to candidate, the reverse index
from pair address to the set of ids, and the topic map. -/
structure PairCache where
  TriangleMap : ConcurrentMap Triangle
  PairTriangleMap : ConcurrentMap IdSet
  TopicMap : List (String × String)
  deriving Repr, DecidableEq

/-- The function `NewPairCache()`: two empty maps, and a nil topic map. -/
def NewPairCache : PairCache :=
  { TriangleMap := ConcurrentMap.New, PairTriangleMap := ConcurrentMap.New, TopicMap := [] }

/-- The method `AddTriangle(id, triangle)`. -/
def PairCache.AddTriangle (pc : PairCache) (id : String) (triangle : Triangle) : PairCache :=
  { pc with TriangleMap := pc.TriangleMap.Set id triangle }

/-- The method `AddPairTriangle(pair, id)`: the id is added to the set stored under `pair`
(the set is updated in place), or a new set holding the id is stored. -/
def PairCache.AddPairTriangle (pc : PairCache) (pair : String) (id : String) : PairCache :=
  match pc.PairTriangleMap.Get pair with
  | some set => { pc with PairTriangleMap := pc.PairTriangleMap.Set pair (set.Add id) }
  | none =>
    let newSet := NewSet.Add id
    { pc with PairTriangleMap := pc.PairTriangleMap.Set pair newSet }

/-- The zero value `Triangle{}`. -/
def Triangle.zero : Triangle :=
  { ID := 0, Token0 := "", Router0 := "", Pair0 := "", Token1 := "", Router1 := "", Pair1 := "",
    Token2 := "", Router2 := "", Pair2 := "" }

/-- The method `GetTriangle(id)`. -/
def PairCache.GetTriangle (pc : PairCache) (id : String) : Triangle × Bool :=
  match pc.TriangleMap.Get id with
  | some triangle => (triangle, true)
  | none => (Triangle.zero, false)

/-- The method `GetPairSet(pair)`: the stored set, or a new empty set. -/
def PairCache.GetPairSet (pc : PairCache) (pair : String) : IdSet :=
  match pc.PairTriangleMap.Get pair with
  | some set => set
  | none => NewSet

/-- The method `TriangleMapSize()`. -/
def PairCache.TriangleMapSize (pc : PairCache) : Nat := pc.TriangleMap.Count

/-- The method `PairTriangleMapSize()`. -/
def PairCache.PairTriangleMapSize (pc : PairCache) : Nat := pc.PairTriangleMap.Count

/-- The library call `strconv.FormatInt(id, 10)`. -/
def FormatInt10 (id : Int) : String := toString id

/-- The normalisation `common.HexToAddress(pair).Hex()` of a pair address. -/
def normalizePair (env : Env) (pair : String) : String :=
  String.mk (Address.Hex env (env.HexToAddress pair))

/-- The row of the loop of `fetchTriangleMap` after `StructScan` and the three pair
normalisations. -/
def normalizeRow (env : Env) (row : Triangle) : Triangle :=
  { row with Pair0 := normalizePair env row.Pair0, Pair1 := normalizePair env row.Pair1,
             Pair2 := normalizePair env row.Pair2 }

/-- One iteration of the loop of `fetchTriangleMap`: the shared `pairCache` after the row. -/
def fetchRow (env : Env) (pc : PairCache) (row : Triangle) : PairCache :=
  let triangle := normalizeRow env row
  let id := FormatInt10 triangle.ID
  (((pc.AddTriangle id triangle).AddPairTriangle triangle.Pair0 id).AddPairTriangle
    triangle.Pair1 id).AddPairTriangle triangle.Pair2 id

/-- The function `fetchTriangleMap()` on the shared `pairCache`, for the rows the query
returns (in ascending id order): the rows are inserted one after the other into the maps as
they are; nothing is cleared and no new map is built. -/
def fetchTriangleMap (env : Env) (pc : PairCache) (rows : List Triangle) : PairCache :=
  rows.foldl (fetchRow env) pc

/-! ### The library function `common.HexToAddress` -/

/-- The library call `hex.DecodeString` with its error dropped (`common.Hex2Bytes`): the bytes
of the leading pairs of hexadecimal digits. -/
def Hex2Bytes : List Char → Bytes
  | c1 :: c2 :: rest =>
    match hexVal c1, hexVal c2 with
    | some a, some b => ⟨(16 * a + b) % 256, Nat.mod_lt _ (by decide)⟩ :: Hex2Bytes rest
    | _, _ => []
  | _ => []

/-- The library function `common.FromHex`: an optional `0x` or `0X` is dropped, a string of
odd length gets a leading `0`, and the digits are decoded. -/
def FromHex (s : List Char) : Bytes :=
  let s := match s with
    | '0' :: 'x' :: rest => rest
    | '0' :: 'X' :: rest => rest
    | _ => s
  let s := if s.length % 2 = 1 then '0' :: s else s
  Hex2Bytes s

/-- The library function `common.BytesToAddress`: the last 20 bytes, padded with zero bytes on
the left. -/
def BytesToAddress (b : Bytes) : Address :=
  ⟨List.replicate (20 - (b.drop (b.length - 20)).length) 0 ++ b.drop (b.length - 20), by
    simp only [List.length_append, List.length_replicate, List.length_drop]
    omega⟩

/-- The library function `common.HexToAddress`. -/
def HexToAddress (s : String) : Address := BytesToAddress (FromHex s.data)

/-- An environment for the index: the address parser of the library, and a digest that is
always 32 zero bytes, under which `Hex()` prints every digit in lower case (the sample pair
addresses below have no letter digits, so their `Hex()` does not depend on the digest). -/
def indexEnv : Env where
  Keccak256 _ := List.replicate 32 0
  Keccak256_size _ := List.length_replicate 32 0
  HexToAddress := HexToAddress

/-- A row of the backing table. -/
def sampleRow (id : Int) (pair0 pair1 pair2 : String) : Triangle :=
  { ID := id, Token0 := "0x01", Router0 := "0x02", Pair0 := pair0, Token1 := "0x03",
    Router1 := "0x04", Pair1 := pair1, Token2 := "0x05", Router2 := "0x06", Pair2 := pair2 }

/-- The candidate has `pair` as its `Pair0`, `Pair1` or `Pair2`. -/
def Triangle.hasPair (triangle : Triangle) (pair : String) : Prop :=
  triangle.Pair0 = pair ∨ triangle.Pair1 = pair ∨ triangle.Pair2 = pair

instance (triangle : Triangle) (pair : String) : Decidable (triangle.hasPair pair) := by
  unfold Triangle.hasPair; infer_instance

/-- The index invariant: every id in a set of the reverse index has a candidate in the forward
map, and that candidate has the pair address of the set as `Pair0`, `Pair1` or `Pair2`. -/
def IndexInvariant (pc : PairCache) : Prop :=
  ∀ e ∈ pc.PairTriangleMap.entries, ∀ i ∈ e.2.data.entries,
    ∃ triangle ∈ pc.TriangleMap.Get i.1, triangle.hasPair e.1

instance (pc : PairCache) : Decidable (IndexInvariant pc) := by
  unfold IndexInvariant; infer_instance

/-- The first sample build: one row, id 1, pairs `0x11`, `0x12`, `0x13`. -/
def firstBuild : PairCache :=
  fetchTriangleMap indexEnv NewPairCache [sampleRow 1 "0x11" "0x12" "0x13"]

/-- One call on the index: `AddTriangle(id, triangle)` or `AddPairTriangle(pair, id)`. -/
inductive IndexUpdate where
  | addTriangle (id : String) (triangle : Triangle)
  | addPairTriangle (pair : String) (id : String)
  deriving Repr, DecidableEq

/-- The index after the call. -/
def IndexUpdate.apply (pc : PairCache) : IndexUpdate → PairCache
  | .addTriangle id triangle => pc.AddTriangle id triangle
  | .addPairTriangle pair id => pc.AddPairTriangle pair id

/-- The second sample build: one row, id 2, pairs `0x21`, `0x22`, `0x23`. -/
def secondRow : Triangle := sampleRow 2 "0x21" "0x22" "0x23"

/-- Every entry of the index comes from one of the rows `done`: each id of a reverse-index set
is the id of a row with that pair address, each stored candidate is the normalised form of a
row stored under its id, and every row has a candidate stored under its id. -/
def Provenance (env : Env) (done : List Triangle) (pc : PairCache) : Prop :=
  (∀ e ∈ pc.PairTriangleMap.entries, ∀ i ∈ e.2.data.entries,
      ∃ row ∈ done, FormatInt10 row.ID = i.1 ∧ (normalizeRow env row).hasPair e.1)
  ∧ (∀ id triangle, pc.TriangleMap.Get id = some triangle →
      ∃ row ∈ done, FormatInt10 row.ID = id ∧ triangle = normalizeRow env row)
  ∧ (∀ row ∈ done, (pc.TriangleMap.Get (FormatInt10 row.ID)).isSome = true)

/-! ## The library function `sort.Slice` (pattern-defeating quicksort)

The functions of the Go library file `sort/zsortfunc.go` (Go 1.19 and later) that `sort.Slice`
runs, on a slice of opportunities with the comparison of `PairCallBatch`. -/

/-- The comparison `less(i, j)` on the current contents of the slice. -/
def lessAt (data : List ROI) (i j : Nat) : Bool :=
  match data[i]?, data[j]? with
  | some x, some y => profitLess x y
  | _, _ => false

/-- The exchange `swap(i, j)` of two elements of the slice. -/
def swapAt (data : List ROI) (i j : Nat) : List ROI :=
  match data[i]?, data[j]? with
  | some x, some y => (data.set i y).set j x
  | _, _ => data

/-- The inner loop of `insertionSortLessFunc`, from `j`:
`for ; j > a && less(j, j-1); j-- { swap(j, j-1) }`. -/
def insertionInner (a : Nat) : Nat → List ROI → List ROI
  | 0, data => data
  | j + 1, data =>
    if j + 1 > a ∧ lessAt data (j + 1) j = true then insertionInner a j (swapAt data (j + 1) j)
    else data

/-- The outer loop of `insertionSortLessFunc`, from `i`, with `count` iterations left:
`for ; i < b; i++ { inner loop from i }`. -/
def insertionOuter (a : Nat) : Nat → Nat → List ROI → List ROI
  | 0, _, data => data
  | count + 1, i, data => insertionOuter a count (i + 1) (insertionInner a i data)

/-- The library function `insertionSortLessFunc(data, a, b)`: insertion sort of `data[a:b]`. -/
def insertionSortLessFunc (data : List ROI) (a b : Nat) : List ROI :=
  insertionOuter a (b - (a + 1)) (a + 1) data

/-- The library function `order2LessFunc(data, a, b, swaps)`: the two indices with the one of
the element that is not `less` first; `swaps` counts the exchanges. -/
def order2LessFunc (data : List ROI) (a b swaps : Nat) : Nat × Nat × Nat :=
  if lessAt data b a then (b, a, swaps + 1) else (a, b, swaps)

/-- The library function `medianLessFunc(data, a, b, c, swaps)`: the index of the median of
three elements, and the updated count of exchanges. -/
def medianLessFunc (data : List ROI) (a b c swaps : Nat) : Nat × Nat :=
  let (a, b, swaps) := order2LessFunc data a b swaps
  let (b, _, swaps) := order2LessFunc data b c swaps
  let (_, b, swaps) := order2LessFunc data a b swaps
  (b, swaps)

/-- The library function `choosePivotLessFunc(data, a, b)` for fewer than 50 elements (the
median of three for 8 elements or more, a static pivot below): the pivot index and whether no
exchange was counted (the hint `increasingHint`; with at most three exchanges the hint
`decreasingHint`, which needs twelve, does not occur). -/
def choosePivotLessFunc (data : List ROI) (a b : Nat) : Nat × Bool :=
  let l := b - a
  let i := a + l / 4 * 1
  let j := a + l / 4 * 2
  let k := a + l / 4 * 3
  let (j, swaps) := if l ≥ 8 then medianLessFunc data i j k 0 else (j, 0)
  (j, swaps == 0)

/-- The first scan of `partialInsertionSortLessFunc`, from `i`, with `count` steps left:
`for i < b && !less(i, i-1) { i++ }`. -/
def sortedRunEnd (data : List ROI) (b : Nat) : Nat → Nat → Nat
  | 0, i => i
  | count + 1, i =>
    if i < b ∧ lessAt data i (i - 1) = false then sortedRunEnd data b count (i + 1) else i

/-- The library function `partialInsertionSortLessFunc(data, a, b)` for fewer than 50
elements, where it moves nothing: whether `data[a:b]` is already in order. -/
def partialInsertionSortLessFunc (data : List ROI) (a b : Nat) : Bool :=
  sortedRunEnd data b (b - a) (a + 1) == b

/-- The scan `for i <= j && less(i, a) { i++ }` of `partitionLessFunc`. -/
def scanLess (data : List ROI) (a j : Nat) : Nat → Nat → Nat
  | 0, i => i
  | count + 1, i =>
    if i ≤ j ∧ lessAt data i a = true then scanLess data a j count (i + 1) else i

/-- The scan `for i <= j && !less(j, a) { j-- }` of `partitionLessFunc`. -/
def scanNotLess (data : List ROI) (a i : Nat) : Nat → Nat → Nat
  | 0, j => j
  | count + 1, j =>
    if i ≤ j ∧ lessAt data j a = false then scanNotLess data a i count (j - 1) else j

/-- The closing loop of `partitionLessFunc`: scan up, scan down, stop when the scans have
crossed, otherwise exchange and go on. The result is the slice and the final `j`. -/
def partitionLoop (a : Nat) : Nat → List ROI → Nat → Nat → List ROI × Nat
  | 0, data, _, j => (data, j)
  | count + 1, data, i, j =>
    let i := scanLess data a j data.length i
    let j := scanNotLess data a i data.length j
    if i > j then (data, j)
    else partitionLoop a count (swapAt data i j) (i + 1) (j - 1)

/-- The library function `partitionLessFunc(data, a, b, pivot)`: one quicksort partition of
`data[a:b]`. The result is the slice, the new index of the pivot, and whether the slice was
already partitioned. -/
def partitionLessFunc (data : List ROI) (a b pivot : Nat) : List ROI × Nat × Bool :=
  let data := swapAt data a pivot
  let i := scanLess data a (b - 1) data.length (a + 1)
  let j := scanNotLess data a i data.length (b - 1)
  if i > j then (swapAt data j a, j, true)
  else
    let (data, j) := partitionLoop a data.length (swapAt data i j) (i + 1) (j - 1)
    (swapAt data j a, j, false)

/-- The scan `for i <= j && !less(a, i) { i++ }` of `partitionEqualLessFunc`. -/
def scanNotGreater (data : List ROI) (a j : Nat) : Nat → Nat → Nat
  | 0, i => i
  | count + 1, i =>
    if i ≤ j ∧ lessAt data a i = false then scanNotGreater data a j count (i + 1) else i

/-- The scan `for i <= j && less(a, j) { j-- }` of `partitionEqualLessFunc`. -/
def scanGreater (data : List ROI) (a i : Nat) : Nat → Nat → Nat
  | 0, j => j
  | count + 1, j =>
    if i ≤ j ∧ lessAt data a j = true then scanGreater data a i count (j - 1) else j

/-- The loop of `partitionEqualLessFunc`. The result is the slice and the final `i`. -/
def partitionEqualLoop (a : Nat) : Nat → List ROI → Nat → Nat → List ROI × Nat
  | 0, data, i, _ => (data, i)
  | count + 1, data, i, j =>
    let i := scanNotGreater data a j data.length i
    let j := scanGreater data a i data.length j
    if i > j then (data, i)
    else partitionEqualLoop a count (swapAt data i j) (i + 1) (j - 1)

/-- The library function `partitionEqualLessFunc(data, a, b, pivot)`: the elements equal to
the pivot are moved to the front of `data[a:b]`; the result is the slice and the index after
them. -/
def partitionEqualLessFunc (data : List ROI) (a b pivot : Nat) : List ROI × Nat :=
  let data := swapAt data a pivot
  partitionEqualLoop a data.length data (a + 1) (b - 1)

/-- The library function `pdqsortLessFunc(data, a, b, limit)`, with the flags `wasBalanced` and
`wasPartitioned` of its loop as arguments and `fuel` bounding its iterations and recursive
calls. The model covers the sorts of fewer than 50 elements in which every partition is
balanced: the result is `none` where the library would go on with more than 49 elements (the
ninther pivot and the shifting of `partialInsertionSortLessFunc`) or after an unbalanced
partition (`breakPatternsLessFunc`, the only place where `limit` decreases, so that the
heap-sort fallback for `limit == 0` is not reached and `limit` is left out), and where the
fuel runs out. -/
def pdqsortLessFunc : Nat → List ROI → Nat → Nat → Bool → Bool → Option (List ROI)
  | 0, _, _, _, _, _ => none
  | fuel + 1, data, a, b, wasBalanced, wasPartitioned =>
    let length := b - a
    if length ≤ 12 then some (insertionSortLessFunc data a b)
    else if length ≥ 50 then none
    else if !wasBalanced then none
    else
      let (pivot, increasing) := choosePivotLessFunc data a b
      if wasBalanced && wasPartitioned && increasing
          && partialInsertionSortLessFunc data a b then some data
      else if a > 0 ∧ lessAt data (a - 1) pivot = false then
        let (data, mid) := partitionEqualLessFunc data a b pivot
        pdqsortLessFunc fuel data mid b wasBalanced wasPartitioned
      else
        let (data, mid, alreadyPartitioned) := partitionLessFunc data a b pivot
        let leftLen := mid - a
        let rightLen := b - mid
        let balanceThreshold := length / 8
        if leftLen < rightLen then
          match pdqsortLessFunc fuel data a mid true true with
          | none => none
          | some data =>
            pdqsortLessFunc fuel data (mid + 1) b (decide (leftLen ≥ balanceThreshold))
              alreadyPartitioned
        else
          match pdqsortLessFunc fuel data (mid + 1) b true true with
          | none => none
          | some data =>
            pdqsortLessFunc fuel data a mid (decide (rightLen ≥ balanceThreshold))
              alreadyPartitioned

/-- The library call `sort.Slice(rois, less)` with the profit comparison of `PairCallBatch`:
`pdqsort_func` on the whole slice. -/
def sortSlice (rois : List ROI) : Option (List ROI) :=
  pdqsortLessFunc (rois.length + 1) rois 0 rois.length true true

/-- The opportunities of equal profit stand in `sorted` in the same relative order as in
`batch`: for every profit, the opportunities with that profit form the same list. -/
def KeepsTieOrder (sorted batch : List ROI) : Prop :=
  ∀ p : Int, sorted.filter (fun r => decide (r.Profit = p))
    = batch.filter (fun r => decide (r.Profit = p))

/-- An opportunity with the given id and profit, its pairs named after the id. -/
def numberedROI (id : Int) (profit : Int) : ROI :=
  { Triangle := { ID := id, Token0 := "t0", Router0 := "r0", Pair0 := "a" ++ toString id,
                  Token1 := "t1", Router1 := "r1", Pair1 := "b" ++ toString id, Token2 := "t2",
                  Router2 := "r2", Pair2 := "c" ++ toString id }
    CallData := "", Profit := profit }

/-- A batch of 13 opportunities, ids 0 to 12: the first twelve have profit 5, the last has
profit 9. -/
def tiedBatch : List ROI :=
  (List.range 12).map (fun i => numberedROI i 5) ++ [numberedROI 12 9]

/-- An element inserted into a list that holds a sorted run in reverse (last element first):
it passes every element it is `less` than and stops before the first one it is not. This is
what the inner loop of `insertionSortLessFunc` does to `data[i]`. -/
def insertFromRight (x : ROI) : List ROI → List ROI
  | [] => [x]
  | y :: ys => if profitLess x y = true then y :: insertFromRight x ys else x :: y :: ys

/-! ## What `EncodePackedBsc` returns, value by value -/

/-- The characters one value adds to `encoded` in the loop of `EncodePackedBsc`: a string adds
itself, a `Wei` the last `BitSize/4` characters of its `Data`, an address its `Hex()` without
the leading `0x`; a value of another type adds nothing (the loop returns at it). -/
def Value.packed (env : Env) : Value → String
  | .str v => v
  | .wei w => String.mk (w.Data.data.drop (w.Data.length - (Int.tdiv w.BitSize 4).toNat))
  | .address v => String.mk ((Address.Hex env v).drop 2)
  | .other _ => ""

/-- The concatenation, in list order, of what the values add. -/
def packedConcat (env : Env) (values : List Value) : String :=
  (values.map (Value.packed env)).foldr (fun s rest => s ++ rest) ""

/-- The loop of `EncodePackedBsc` with both results of the Go function, the string and the
error (`none` for `nil`): at a value of an unsupported type the function returns the empty
string and the error, whatever `encoded` holds; after the last value it returns `encoded` and
`nil`. -/
def encodeLoop (env : Env) : String → List Value → GoResult (String × Option String)
  | encoded, [] => .ok (encoded, none)
  | encoded, .str v :: values => encodeLoop env (encoded ++ v) values
  | encoded, .wei wei :: values =>
    let lo : Int := (wei.Data.length : Int) - Int.tdiv wei.BitSize 4
    if lo < 0 ∨ lo > wei.Data.length then .panic
    else encodeLoop env (encoded ++ String.mk (wei.Data.data.drop lo.toNat)) values
  | encoded, .address v :: values =>
    encodeLoop env (encoded ++ String.mk ((Address.Hex env v).drop 2)) values
  | _, .other typeName :: _ => .ok ("", some ("unsupported type: " ++ typeName))

/-- The function `EncodePackedBsc(values)` with its two results `(string, error)`. -/
def EncodePackedBscReturn (env : Env) (values : List Value) : GoResult (String × Option String) :=
  encodeLoop env "" values

/-- The two results `(string, error)` of a Go function whose error return carries the empty
string. -/
def returnPair : GoResult String → GoResult (String × Option String)
  | .ok s => .ok (s, none)
  | .error e => .ok ("", some e)
  | .panic => .panic

/-- The value is of a type the type switch of `EncodePackedBsc` has a case for. -/
def Value.Supported : Value → Prop
  | .other _ => False
  | _ => True

/-- A `Wei` with the negative bit size -4 and empty `Data`: its `Data` has at least
`BitSize/4 = -1` characters. -/
def negativeWei : Wei := { BitSize := -4, Data := "" }

/-- The number a sequence of bytes encodes, most significant byte first. -/
def beValue (b : Bytes) : Nat := b.foldl (fun acc x => 256 * acc + x.val) 0

/-! ## The reverse index as a sequence of calls -/

/-- The keys of a concurrent map, in the order of its entries. -/
def ConcurrentMap.keys {V : Type} (m : ConcurrentMap V) : List String := m.entries.map Prod.fst

/-- A sequence of calls `AddPairTriangle(pair, id)` on the index, in order. -/
def addPairTriangles (pc : PairCache) (adds : List (String × String)) : PairCache :=
  adds.foldl (fun pc a => pc.AddPairTriangle a.1 a.2) pc

/-- The reverse index is as a sequence of `AddPairTriangle` calls leaves it: the keys of the map
are the pairs of the calls, each once, and the keys of the set under a pair are the ids added
under it, each once. -/
def ReverseIndexOf (adds : List (String × String)) (pc : PairCache) : Prop :=
  pc.PairTriangleMap.keys.Nodup
  ∧ (∀ p, p ∈ pc.PairTriangleMap.keys ↔ p ∈ adds.map Prod.fst)
  ∧ (∀ p, (pc.GetPairSet p).data.keys.Nodup)
  ∧ (∀ p id, id ∈ (pc.GetPairSet p).data.keys ↔ (p, id) ∈ adds)

/-! ## The report of `CallBatch` -/

/-- A value stored in `resultMap` (`map[string]interface{}`) by `CallBatch`: an `ROI`, the
string of an error, or `nil`. -/
inductive ReportValue where
  | roi (r : ROI)
  | errorString (s : String)
  | nilValue
  deriving Repr, DecidableEq

/-- The library call `strconv.Itoa(i)` for the counter `i` of the result loop, which starts at
1 and is never negative: the decimal digits of `i`. -/
def Itoa (i : Nat) : String := toString i

/-- The state of the result loop of `CallBatch`: the slice `rois`, the map `resultMap` (a finite
map, kept as the list of its entries in the order the keys were first assigned) and the counter
`i`. -/
structure Collected where
  rois : List ROI
  resultMap : List (String × ReportValue)
  i : Nat
  deriving Repr, DecidableEq

/-- One iteration of the result loop of `CallBatch`, the type switch on `result`: an `*ROI` is
appended to `rois` and stored in the map, an error is stored as its string, and any other value
(the `nil` of a run without opportunity) is stored as it is; then `i += 1`. -/
def collectStep (st : Collected) (result : Outcome) : Collected :=
  let itoa := Itoa st.i
  match result with
  | .roi v =>
    { rois := st.rois ++ [v], resultMap := setEntry itoa (.roi v) st.resultMap, i := st.i + 1 }
  | .error msg =>
    { rois := st.rois, resultMap := setEntry itoa (.errorString msg) st.resultMap, i := st.i + 1 }
  | .nil =>
    { rois := st.rois, resultMap := setEntry itoa .nilValue st.resultMap, i := st.i + 1 }

/-- The result loop of `CallBatch` over the values received from the `results` channel, in
arrival order, from empty `rois`, the empty map and `i := 1`. -/
def collectCallBatch (results : List Outcome) : Collected :=
  results.foldl collectStep { rois := [], resultMap := [], i := 1 }

/-- The value the type switch of `CallBatch` stores for an outcome. -/
def Outcome.reportValue : Outcome → ReportValue
  | .roi v => .roi v
  | .error msg => .errorString msg
  | .nil => .nilValue

/-- Opportunity `L`: profit 20, with the pair `q` as both `Pair0` and `Pair1`. -/
def exampleL : ROI :=
  { Triangle := { ID := 6, Token0 := "t0", Router0 := "r0", Pair0 := "q", Token1 := "t1",
                  Router1 := "r1", Pair1 := "q", Token2 := "t2", Router2 := "r2", Pair2 := "r" }
    CallData := "", Profit := 20 }

/-- The outcome of `getRois` is a sample of ten complete tuples (`(len - 6) / 8 = 10`) none of
which has a zero representative profit, the value at `6 + 8 i`. -/
def TenNonzeroTuples (r : GoResult (List (Option Int))) : Prop :=
  ∃ rois, r = .ok rois ∧ (rois.length - 6) / 8 = 10
    ∧ ∀ i, i < 10 → ∃ v : Int, v ≠ 0 ∧ rois[i * 8 + 6]? = some (some v)

/-! # Theorems -/

/-! ## Windows and the first-zero scan -/

theorem BigStore.alloc_snd (h : BigStore) (v : Int) : (h.alloc v).2 = h.length := rfl

theorem BigStore.length_alloc (h : BigStore) (v : Int) :
    (h.alloc v).1.length = h.length + 1 := by
  simp [BigStore.alloc]

theorem BigStore.read_alloc (h : BigStore) (v : Int) (p : Nat) :
    (h.alloc v).1.read p
      = if p < h.length then h.read p else if p = h.length then v else 0 := by
  unfold BigStore.alloc BigStore.read
  simp only [List.getD_eq_getElem?_getD]
  by_cases hp : p < h.length
  · simp [hp, List.getElem?_append_left hp]
  · by_cases hq : p = h.length
    · subst hq; simp
    · have : h.length < p := by omega
      simp [hp, hq, List.getElem?_append_right (Nat.le_of_lt this)]
      rw [List.getElem?_eq_none]
      · rfl
      · simp; omega

/-- The window `getArbitrageQueryParam` builds, with the clamp written as a minimum. -/
theorem getArbitrageQueryParam_clamped (start index step : Int) :
    getArbitrageQueryParam start index step
      = { Start := start + step * min index 9, End := start + step * min index 9 + step,
          Pieces := 10 } := by
  have hmin : (if index ≥ 10 then (9 : Int) else index) = min index 9 := by
    split <;> omega
  simp only [getArbitrageQueryParam, hmin]

/-- C9 (window construction). For every `start`, `index` and `step`,
`getArbitrageQueryParam(start, index, step)` has `Start = start + step * min(index, 9)`,
`End = Start + step` and `Pieces = 10`, so `End - Start = step`; and run on a store in which
`start` is a pointer to an existing cell, it leaves every existing cell, the cell of `start`
among them, as it was, and returns pointers to cells holding these three values. -/
theorem getArbitrageQueryParam_window (start index step : Int) :
    (getArbitrageQueryParam start index step).Start = start + step * min index 9
    ∧ (getArbitrageQueryParam start index step).End
        = (getArbitrageQueryParam start index step).Start + step
    ∧ (getArbitrageQueryParam start index step).Pieces = 10
    ∧ (getArbitrageQueryParam start index step).End
        - (getArbitrageQueryParam start index step).Start = step
    ∧ ∀ (h : BigStore) (ptr : Nat), ptr < h.length → h.read ptr = start →
        (∀ q, q < h.length → (getArbitrageQueryParamRef h ptr index step).1.read q = h.read q)
        ∧ (getArbitrageQueryParamRef h ptr index step).1.read
            (getArbitrageQueryParamRef h ptr index step).2.Start
            = (getArbitrageQueryParam start index step).Start
        ∧ (getArbitrageQueryParamRef h ptr index step).1.read
            (getArbitrageQueryParamRef h ptr index step).2.End
            = (getArbitrageQueryParam start index step).End
        ∧ (getArbitrageQueryParamRef h ptr index step).1.read
            (getArbitrageQueryParamRef h ptr index step).2.Pieces
            = (getArbitrageQueryParam start index step).Pieces := by
  have hmin : (if index ≥ 10 then (9 : Int) else index) = min index 9 := by
    split <;> omega
  refine ⟨?_, ?_, ?_, ?_, ?_⟩
  · simp only [getArbitrageQueryParam, hmin]
  · simp only [getArbitrageQueryParam]
  · simp only [getArbitrageQueryParam]
  · simp only [getArbitrageQueryParam]; ring
  · intro h ptr hptr hread
    simp only [getArbitrageQueryParamRef, getArbitrageQueryParam, hmin]
    refine ⟨?_, ?_, ?_, ?_⟩
    · intro q hq
      have : q < h.length + 1 := by omega
      have : q < h.length + 1 + 1 := by omega
      have : q < h.length + 1 + 1 + 1 := by omega
      have : q < h.length + 1 + 1 + 1 + 1 := by omega
      have : q < h.length + 1 + 1 + 1 + 1 + 1 := by omega
      simp [BigStore.read_alloc, BigStore.length_alloc, BigStore.alloc_snd, *]
    · have : ptr < h.length + 1 := by omega
      have : ptr < h.length + 1 + 1 := by omega
      have : ptr < h.length + 1 + 1 + 1 := by omega
      simp [BigStore.read_alloc, BigStore.length_alloc, BigStore.alloc_snd, *]
    · have : ptr < h.length + 1 := by omega
      have : ptr < h.length + 1 + 1 := by omega
      have : ptr < h.length + 1 + 1 + 1 := by omega
      have : h.length < h.length + 1 + 1 := by omega
      have : h.length < h.length + 1 + 1 + 1 := by omega
      simp [BigStore.read_alloc, BigStore.length_alloc, BigStore.alloc_snd, *]
    · simp [BigStore.read_alloc, BigStore.length_alloc, BigStore.alloc_snd]

/-- C9 at `start = 9000` held in cell 1 of a two-cell store, `index = 12`, `step = 100`: the
window is `[9900, 10000]` with 10 pieces and cell 1 still holds 9000. -/
theorem getArbitrageQueryParam_window_witness :
    (getArbitrageQueryParam 9000 12 100).Start = 9900
    ∧ (getArbitrageQueryParam 9000 12 100).End = 10000
    ∧ (getArbitrageQueryParamRef [7, 9000] 1 12 100).1.read 1 = 9000
    ∧ (getArbitrageQueryParamRef [7, 9000] 1 12 100).1.read
        (getArbitrageQueryParamRef [7, 9000] 1 12 100).2.Start = 9900 :=
  ⟨by decide, by decide,
    ((getArbitrageQueryParam_window 9000 12 100).2.2.2.2 [7, 9000] 1 (by decide) rfl).1 1
      (by decide),
    ((getArbitrageQueryParam_window 9000 12 100).2.2.2.2 [7, 9000] 1 (by decide) rfl).2.1.trans
      (by decide)⟩

/-- The loop of `resolveROI` stops at the first tuple whose first value is zero. -/
theorem resolveROILoop_found (rois : List (Option Int)) :
    ∀ (k remaining i : Nat), k < remaining →
      (∀ j, j < k → ∃ v : Int, v ≠ 0 ∧ rois[(i + j) * 8 + 6]? = some (some v)) →
      rois[(i + k) * 8 + 6]? = some (some 0) →
      resolveROILoop rois remaining i = .ok ((i + k : Nat) : Int) := by
  intro k
  induction k with
  | zero =>
    intro remaining i hk _ hz
    obtain ⟨r, rfl⟩ : ∃ r, remaining = r + 1 := ⟨remaining - 1, by omega⟩
    simp only [Nat.add_zero] at hz
    simp [resolveROILoop, hz]
  | succ k ih =>
    intro remaining i hk hnz hz
    obtain ⟨r, rfl⟩ : ∃ r, remaining = r + 1 := ⟨remaining - 1, by omega⟩
    obtain ⟨v, hv, hget⟩ := hnz 0 (by omega)
    simp only [Nat.add_zero] at hget
    have hrec := ih r (i + 1) (by omega)
      (fun j hj => by
        obtain ⟨w, hw, hg⟩ := hnz (j + 1) (by omega)
        exact ⟨w, hw, by rw [show i + 1 + j = i + (j + 1) by omega]; exact hg⟩)
      (by rw [show i + 1 + k = i + (k + 1) by omega]; exact hz)
    rw [show i + 1 + k = i + (k + 1) by omega] at hrec
    simp [resolveROILoop, hget, hv, hrec]

/-- Without a zero first value the loop of `resolveROI` runs to its bound. -/
theorem resolveROILoop_none (rois : List (Option Int)) :
    ∀ (remaining i : Nat),
      (∀ j, j < remaining → ∃ v : Int, v ≠ 0 ∧ rois[(i + j) * 8 + 6]? = some (some v)) →
      resolveROILoop rois remaining i = .ok ((i + remaining : Nat) : Int) := by
  intro remaining
  induction remaining with
  | zero => intro i _; simp [resolveROILoop]
  | succ r ih =>
    intro i hnz
    obtain ⟨v, hv, hget⟩ := hnz 0 (by omega)
    simp only [Nat.add_zero] at hget
    have hrec := ih (i + 1) (fun j hj => by
        obtain ⟨w, hw, hg⟩ := hnz (j + 1) (by omega)
        exact ⟨w, hw, by rw [show i + 1 + j = i + (j + 1) by omega]; exact hg⟩)
    rw [show i + 1 + r = i + (r + 1) by omega] at hrec
    simp [resolveROILoop, hget, hv, hrec]

/-- The truncating bound `(len(rois)-6)/8`, as a count of iterations. -/
theorem resolveROI_bound (rois : List (Option Int)) :
    (Int.tdiv ((rois.length : Int) - 6) 8).toNat = (rois.length - 6) / 8 := by
  by_cases h : 6 ≤ rois.length
  · rw [Int.tdiv_eq_ediv (by omega) (by omega)]
    omega
  · have h1 : rois.length - 6 = 0 := by omega
    rw [h1]
    have hz : Int.tdiv ((rois.length : Int) - 6) 8 = 0 := by
      have e : (rois.length : Int) - 6 = -(6 - (rois.length : Int)) := by omega
      rw [e, Int.neg_tdiv, Int.tdiv_eq_zero_of_lt (by omega) (by omega)]
      rfl
    rw [hz]
    rfl

/-- C7 (first-zero scan). For every sample vector `vals`, if tuple `i` is complete
(`i < (len - 6) / 8`), its first value `vals[6 + 8 i]` is zero and no earlier tuple has a zero
first value, then `resolveROI` returns `i`. -/
theorem resolveROI_first_zero (vals : List Int) (i : Nat)
    (hcomplete : i < (vals.length - 6) / 8)
    (hzero : vals[6 + 8 * i]? = some 0)
    (hfirst : ∀ j, j < i → vals[6 + 8 * j]? ≠ some 0) :
    resolveROI (vals.map some) = .ok (i : Int) := by
  unfold resolveROI
  rw [resolveROI_bound, List.length_map]
  have := resolveROILoop_found (vals.map some) i ((vals.length - 6) / 8) 0 hcomplete
    (fun j hj => by
      have hlt : 6 + 8 * j < vals.length := by omega
      refine ⟨vals[6 + 8 * j], ?_, ?_⟩
      · intro h0
        exact hfirst j hj (by rw [List.getElem?_eq_getElem hlt, h0])
      · rw [show (0 + j) * 8 + 6 = 6 + 8 * j by omega, List.getElem?_map,
          List.getElem?_eq_getElem hlt]
        rfl)
    (by rw [show (0 + i) * 8 + 6 = 6 + 8 * i by omega, List.getElem?_map, hzero]; rfl)
  simpa using this

/-- C7 on a vector of 6 auxiliary values and three tuples whose first values are 4, 0, 0: the
scan returns 1. -/
theorem resolveROI_first_zero_witness :
    resolveROI (List.map some
      [9, 9, 9, 9, 9, 9, 4, 1, 1, 1, 1, 1, 1, 1, 0, 1, 1, 1, 1, 1, 1, 1, 0, 1, 1, 1, 1, 1, 1, 1])
      = .ok 1 :=
  resolveROI_first_zero
    [9, 9, 9, 9, 9, 9, 4, 1, 1, 1, 1, 1, 1, 1, 0, 1, 1, 1, 1, 1, 1, 1, 0, 1, 1, 1, 1, 1, 1, 1]
    1 (by decide) (by decide) (by intro j hj; interval_cases j; decide)

/-! ## Opportunity selection -/

theorem filterStep_conflict (st : List String × List ROI) (x : ROI) (hinv : FilterInv st) :
    (st.1.contains x.Triangle.Pair0 || st.1.contains x.Triangle.Pair1
      || st.1.contains x.Triangle.Pair2) = true ↔ ∃ r ∈ st.2, sharesPair x r := by
  have hc : ∀ (l : List String) (a : String), l.contains a = true ↔ a ∈ l := by
    intro l a; simp
  simp only [Bool.or_eq_true, hc]
  constructor
  · rintro ((h | h) | h)
    · obtain ⟨r, hr, hp⟩ := (hinv _).1 h
      exact ⟨r, hr, _, by simp [pairsOf], hp⟩
    · obtain ⟨r, hr, hp⟩ := (hinv _).1 h
      exact ⟨r, hr, _, by simp [pairsOf], hp⟩
    · obtain ⟨r, hr, hp⟩ := (hinv _).1 h
      exact ⟨r, hr, _, by simp [pairsOf], hp⟩
  · rintro ⟨r, hr, p, hpx, hpr⟩
    have hm : p ∈ st.1 := (hinv p).2 ⟨r, hr, hpr⟩
    simp only [pairsOf, List.mem_cons, List.mem_singleton, List.not_mem_nil, or_false] at hpx
    rcases hpx with rfl | rfl | rfl
    · exact Or.inl (Or.inl hm)
    · exact Or.inl (Or.inr hm)
    · exact Or.inr hm

theorem filterStep_of_conflict (st : List String × List ROI) (x : ROI) (hinv : FilterInv st)
    (h : ∃ r ∈ st.2, sharesPair x r) : filterStep st x = st := by
  unfold filterStep
  rw [if_pos ((filterStep_conflict st x hinv).2 h)]

theorem filterStep_of_free (st : List String × List ROI) (x : ROI) (hinv : FilterInv st)
    (h : ¬ ∃ r ∈ st.2, sharesPair x r) :
    filterStep st x = (markPairs st.1 x, st.2 ++ [x]) := by
  unfold filterStep
  rw [if_neg (fun hc => h ((filterStep_conflict st x hinv).1 hc))]

theorem filterStep_inv (st : List String × List ROI) (x : ROI) (hinv : FilterInv st) :
    FilterInv (filterStep st x) := by
  by_cases h : ∃ r ∈ st.2, sharesPair x r
  · rw [filterStep_of_conflict st x hinv h]; exact hinv
  · rw [filterStep_of_free st x hinv h]
    intro p
    simp only [markPairs, List.mem_cons, List.mem_append, List.mem_singleton, List.not_mem_nil,
      or_false]
    constructor
    · rintro (h2 | h1 | h0 | hm)
      · exact ⟨x, Or.inr rfl, by simp [pairsOf, h2]⟩
      · exact ⟨x, Or.inr rfl, by simp [pairsOf, h1]⟩
      · exact ⟨x, Or.inr rfl, by simp [pairsOf, h0]⟩
      · obtain ⟨r, hr, hp⟩ := (hinv p).1 hm
        exact ⟨r, Or.inl hr, hp⟩
    · rintro ⟨r, hr | rfl, hp⟩
      · exact Or.inr (Or.inr (Or.inr ((hinv p).2 ⟨r, hr, hp⟩)))
      · simp only [pairsOf, List.mem_cons, List.mem_singleton, List.not_mem_nil, or_false] at hp
        rcases hp with h | h | h
        · exact Or.inr (Or.inr (Or.inl h))
        · exact Or.inr (Or.inl h)
        · exact Or.inl h

theorem foldl_filterStep_inv (l : List ROI) :
    ∀ st, FilterInv st → FilterInv (l.foldl filterStep st) := by
  induction l with
  | nil => intro st h; exact h
  | cons x l ih => intro st h; exact ih _ (filterStep_inv st x h)

theorem filterInv_init : FilterInv ([], []) := by
  intro p; simp

/-- Appending one opportunity to the scanned list. -/
theorem uniquePairsFilter_snoc (pre : List ROI) (x : ROI) :
    ((∃ r ∈ uniquePairsFilter pre, sharesPair x r) →
        uniquePairsFilter (pre ++ [x]) = uniquePairsFilter pre)
    ∧ ((¬ ∃ r ∈ uniquePairsFilter pre, sharesPair x r) →
        uniquePairsFilter (pre ++ [x]) = uniquePairsFilter pre ++ [x]) := by
  have hinv := foldl_filterStep_inv pre _ filterInv_init
  unfold uniquePairsFilter
  rw [List.foldl_append]
  simp only [List.foldl_cons, List.foldl_nil]
  constructor
  · intro h; rw [filterStep_of_conflict _ x hinv h]
  · intro h; rw [filterStep_of_free _ x hinv h]

theorem sharesPair_symm {a b : ROI} (h : sharesPair a b) : sharesPair b a := by
  obtain ⟨p, ha, hb⟩ := h
  exact ⟨p, hb, ha⟩

/-- The accepted list never loses an element as the scan goes on. -/
theorem foldl_filterStep_extends (l : List ROI) :
    ∀ st, st.2 <+: (l.foldl filterStep st).2 := by
  induction l with
  | nil => intro st; exact List.prefix_refl _
  | cons x l ih =>
    intro st
    refine List.IsPrefix.trans ?_ (ih _)
    unfold filterStep
    split
    · exact List.prefix_refl _
    · exact List.prefix_append _ _

theorem uniquePairsFilter_extends (pre post : List ROI) :
    uniquePairsFilter pre <+: uniquePairsFilter (pre ++ post) := by
  unfold uniquePairsFilter
  rw [List.foldl_append]
  exact foldl_filterStep_extends post _

/-- The accepted opportunities are pairwise free of shared pair addresses. -/
theorem uniquePairsFilter_pairwise (l : List ROI) :
    (uniquePairsFilter l).Pairwise fun a b => ¬ sharesPair a b := by
  induction l using List.reverseRecOn with
  | nil => simp [uniquePairsFilter]
  | append_singleton pre x ih =>
    by_cases h : ∃ r ∈ uniquePairsFilter pre, sharesPair x r
    · rw [(uniquePairsFilter_snoc pre x).1 h]; exact ih
    · rw [(uniquePairsFilter_snoc pre x).2 h, List.pairwise_append]
      refine ⟨ih, List.pairwise_singleton _ _, ?_⟩
      intro a ha b hb hs
      simp only [List.mem_singleton] at hb
      subst hb
      exact h ⟨a, ha, sharesPair_symm hs⟩

/-- C2 (resource-disjoint selection). For every sorter and every batch, in the list selected by
the sort-then-filter of `PairCallBatch` / `CallBatch`, the opportunities at two different
positions have no pair address in common: no `Pair0`, `Pair1` or `Pair2` of the one equals a
`Pair0`, `Pair1` or `Pair2` of the other. -/
theorem selectROIs_resource_disjoint (s : SliceSorter) (rois : List ROI) :
    (selectROIs s rois).Pairwise fun a b =>
      ∀ p ∈ [a.Triangle.Pair0, a.Triangle.Pair1, a.Triangle.Pair2],
        ∀ q ∈ [b.Triangle.Pair0, b.Triangle.Pair1, b.Triangle.Pair2], p ≠ q := by
  unfold selectROIs
  split
  · refine (uniquePairsFilter_pairwise (s.sort rois)).imp ?_
    intro a b hab p hp q hq hpq
    exact hab ⟨p, hp, hpq ▸ hq⟩
  · exact List.Pairwise.nil

/-- Any sorter puts the three sample opportunities in the order `A`, `B`, `C`. -/
theorem sort_example (s : SliceSorter) (batch : List ROI)
    (hb : batch.Perm [exampleA, exampleB, exampleC]) :
    s.sort batch = [exampleA, exampleB, exampleC] := by
  have hp : (s.sort batch).Perm [exampleA, exampleB, exampleC] := (s.perm batch).trans hb
  have hs : ((s.sort batch).map ROI.Profit).Sorted (· ≥ ·) := by
    rw [List.Sorted, List.pairwise_map]
    refine (s.sorted batch).imp ?_
    intro a b hab
    simpa [profitLess] using hab
  have hmap : (s.sort batch).map ROI.Profit = [10, 8, 5] :=
    List.eq_of_perm_of_sorted (hp.map ROI.Profit) hs (by decide)
  have hmem : ∀ r ∈ s.sort batch, r = exampleA ∨ r = exampleB ∨ r = exampleC := by
    intro r hr
    simpa using hp.mem_iff.1 hr
  obtain ⟨a, b, c, hl⟩ := List.length_eq_three.1 hp.length_eq
  rw [hl] at hmap hmem ⊢
  simp only [List.map_cons, List.map_nil, List.cons.injEq, and_true] at hmap
  obtain ⟨ha, hb', hc⟩ := hmap
  have h1 : a = exampleA := by
    rcases hmem a (by simp) with h | h | h <;> subst h <;>
      first | rfl | (exact absurd ha (by decide))
  have h2 : b = exampleB := by
    rcases hmem b (by simp) with h | h | h <;> subst h <;>
      first | rfl | (exact absurd hb' (by decide))
  have h3 : c = exampleC := by
    rcases hmem c (by simp) with h | h | h <;> subst h <;>
      first | rfl | (exact absurd hc (by decide))
  rw [h1, h2, h3]

/-- C3 (greedy accept rule). Let the profit-sorted batch be `pre ++ x :: post`. Then `x` is
accepted (appended to the list accepted from `pre`) exactly when it shares no pair address with
an opportunity accepted from `pre`, and it is discarded (the accepted list stays as it was)
exactly when it shares one; what is accepted up to `x` is an initial segment of the final
selection; a discarded `x` shares a pair address with an opportunity of the final selection that
was accepted before it; and for the batch `A`, `B`, `C` of the sample, in any arrival order, the
selection is `[A, C]`. -/
theorem greedy_accept_rule (s : SliceSorter) (rois pre post : List ROI) (x : ROI)
    (hscan : s.sort rois = pre ++ x :: post) :
    (uniquePairsFilter (pre ++ [x]) = uniquePairsFilter pre ++ [x]
        ↔ ¬ ∃ r ∈ uniquePairsFilter pre, sharesPair x r)
    ∧ (uniquePairsFilter (pre ++ [x]) = uniquePairsFilter pre
        ↔ ∃ r ∈ uniquePairsFilter pre, sharesPair x r)
    ∧ uniquePairsFilter (pre ++ [x]) <+: selectROIs s rois
    ∧ ((∃ r ∈ uniquePairsFilter pre, sharesPair x r) →
        ∃ r ∈ selectROIs s rois, r ∈ uniquePairsFilter pre ∧ sharesPair x r)
    ∧ ∀ batch : List ROI, batch.Perm [exampleA, exampleB, exampleC] →
        selectROIs s batch = [exampleA, exampleC] := by
  have hsel : selectROIs s rois = uniquePairsFilter (pre ++ x :: post) := by
    have hlen : rois.length > 0 := by
      have := (s.perm rois).length_eq
      rw [hscan] at this
      simp at this
      omega
    simp [selectROIs, hlen, hscan]
  have hpre : uniquePairsFilter (pre ++ [x]) <+: selectROIs s rois := by
    rw [hsel, show pre ++ x :: post = (pre ++ [x]) ++ post by simp]
    exact uniquePairsFilter_extends _ _
  have hne : uniquePairsFilter pre ≠ uniquePairsFilter pre ++ [x] := by
    intro h
    have := congrArg List.length h
    simp at this
  refine ⟨?_, ?_, hpre, ?_, ?_⟩
  · constructor
    · intro h hc
      rw [(uniquePairsFilter_snoc pre x).1 hc] at h
      exact hne h
    · exact (uniquePairsFilter_snoc pre x).2
  · constructor
    · intro h
      by_contra hc
      rw [(uniquePairsFilter_snoc pre x).2 hc] at h
      exact hne h.symm
    · exact (uniquePairsFilter_snoc pre x).1
  · rintro ⟨r, hr, hs⟩
    refine ⟨r, ?_, hr, hs⟩
    exact hpre.subset ((uniquePairsFilter_extends pre [x]).subset hr)
  · intro batch hb
    have hlen : batch.length > 0 := by rw [hb.length_eq]; decide
    simp only [selectROIs, hlen, if_true, sort_example s batch hb]
    decide

/-- C3 on the sample batch arriving as `C, B, A`, sorted by insertion sort into `A, B, C`, at
the position of `B` (after `A`, before `C`): `B` shares `y` with the accepted `A`, so the list
accepted from `A, B` is `[A]`, and the selection is `[A, C]`. -/
theorem greedy_accept_rule_witness :
    insertionSorter.sort [exampleC, exampleB, exampleA] = [exampleA] ++ exampleB :: [exampleC]
    ∧ uniquePairsFilter ([exampleA] ++ [exampleB]) = uniquePairsFilter [exampleA]
    ∧ (∃ r ∈ selectROIs insertionSorter [exampleC, exampleB, exampleA],
        r ∈ uniquePairsFilter [exampleA] ∧ sharesPair exampleB r)
    ∧ selectROIs insertionSorter [exampleC, exampleB, exampleA] = [exampleA, exampleC] :=
  have h := greedy_accept_rule insertionSorter [exampleC, exampleB, exampleA] [exampleA]
    [exampleC] exampleB (by decide)
  have hshare : ∃ r ∈ uniquePairsFilter [exampleA], sharesPair exampleB r :=
    ⟨exampleA, by decide, "y", by decide, by decide⟩
  ⟨by decide, h.2.1.2 hshare, h.2.2.2.1 hshare,
    h.2.2.2.2 [exampleC, exampleB, exampleA] (by decide)⟩

/-! ## Hexadecimal strings and sample decoding -/

theorem hexVal_hexDigit (n : Nat) (h : n < 16) : hexVal (hexDigit n) = some n := by
  interval_cases n <;> decide

theorem hexEncode_length (b : Bytes) : (hexEncode b).length = 2 * b.length := by
  induction b with
  | nil => rfl
  | cons x xs ih => simp [hexEncode, ih]; omega

theorem hexEncode_append (a b : Bytes) : hexEncode (a ++ b) = hexEncode a ++ hexEncode b := by
  induction a with
  | nil => rfl
  | cons x xs ih => simp [hexEncode, ih]

/-- Every character of `hex.EncodeToString` output is a digit of the table. -/
theorem hexEncode_digits (b : Bytes) : ∀ c ∈ hexEncode b, ∃ n, n < 16 ∧ c = hexDigit n := by
  induction b with
  | nil => intro c hc; cases hc
  | cons x xs ih =>
    intro c hc
    simp only [hexEncode, List.mem_cons] at hc
    rcases hc with rfl | rfl | hc
    · exact ⟨x.val / 16, by omega, rfl⟩
    · exact ⟨x.val % 16, by omega, rfl⟩
    · exact ih c hc

theorem parseHexFrom_digits (cs : List Char) :
    ∀ acc, (∀ c ∈ cs, ∃ n, n < 16 ∧ c = hexDigit n) → ∃ v, parseHexFrom acc cs = some v := by
  induction cs with
  | nil => intro acc _; exact ⟨acc, rfl⟩
  | cons c cs ih =>
    intro acc h
    obtain ⟨n, hn, rfl⟩ := h c (by simp)
    simp only [parseHexFrom, hexVal_hexDigit n hn]
    exact ih _ (fun c hc => h c (by simp [hc]))

theorem SetString16_digits (cs : List Char) (hne : cs ≠ [])
    (h : ∀ c ∈ cs, ∃ n, n < 16 ∧ c = hexDigit n) : ∃ v : Int, SetString16 cs = some v := by
  obtain ⟨v, hv⟩ := parseHexFrom_digits cs 0 h
  cases cs with
  | nil => exact absurd rfl hne
  | cons c cs => exact ⟨(v : Int), by simp [SetString16, hv]⟩

theorem substr_length (s : List Char) (lo hi : Nat) (h : hi ≤ s.length) :
    (substr s lo hi).length = hi - lo := by
  simp [substr]; omega

theorem substr_mem (s : List Char) (lo hi : Nat) : ∀ c ∈ substr s lo hi, c ∈ s := by
  intro c hc
  exact List.mem_of_mem_drop (List.mem_of_mem_take hc)

/-- Every word `getRois` decodes is a non-nil integer. -/
theorem decodeRois_some (call : Bytes) (rois : List (Option Int))
    (h : decodeRois call = .ok rois) : ∀ x ∈ rois, ∃ v : Int, x = some v := by
  unfold decodeRois at h
  simp only at h
  split at h
  · cases h
  · injection h with h
    subst h
    intro x hx
    simp only [List.mem_filterMap, List.mem_range] at hx
    obtain ⟨j, hj, hx⟩ := hx
    split at hx
    · injection hx with hx
      subst hx
      apply SetString16_digits
      · intro hnil
        have hl := substr_length (hexEncode call) (64 * j) (64 * (j + 1)) (by
          have := Nat.div_mul_le_self (hexEncode call).length 64
          have : (j + 1) * 64 ≤ (hexEncode call).length / 64 * 64 :=
            Nat.mul_le_mul_right 64 hj
          omega)
        rw [hnil] at hl
        simp at hl
        omega
      · intro c hc
        exact hexEncode_digits call c (substr_mem _ _ _ c hc)
    · cases hx

theorem flatten_length_words (ws : List Bytes) (h32 : ∀ w ∈ ws, w.length = 32) :
    ws.flatten.length = 32 * ws.length := by
  induction ws with
  | nil => rfl
  | cons w ws ih =>
    simp only [List.flatten_cons, List.length_append, List.length_cons]
    rw [ih (fun x hx => h32 x (by simp [hx])), h32 w (by simp)]
    omega

/-- The `j`-th 64-character slice of the hex string of a reply made of 32-byte words is the hex
string of the `j`-th word. -/
theorem substr_hexEncode_flatten (ws : List Bytes) (h32 : ∀ w ∈ ws, w.length = 32) :
    ∀ (j : Nat) (hj : j < ws.length),
      substr (hexEncode ws.flatten) (64 * j) (64 * (j + 1)) = hexEncode ws[j] := by
  induction ws with
  | nil => intro j hj; simp at hj
  | cons w ws ih =>
    intro j hj
    have hw : (hexEncode w).length = 64 := by
      rw [hexEncode_length, h32 w (by simp)]
    cases j with
    | zero =>
      simp only [substr, List.flatten_cons, hexEncode_append, Nat.mul_zero, List.drop_zero,
        Nat.zero_add, Nat.mul_one, Nat.sub_zero, List.getElem_cons_zero]
      rw [List.take_append_of_le_length (by omega), List.take_of_length_le (by omega)]
    | succ j =>
      have := ih (fun x hx => h32 x (by simp [hx])) j (by simpa using hj)
      simp only [substr] at this ⊢
      simp only [List.flatten_cons, hexEncode_append, List.getElem_cons_succ]
      rw [show 64 * (j + 1) = (hexEncode w).length + 64 * j by omega, List.drop_append]
      rw [show 64 * (j + 1 + 1) - ((hexEncode w).length + 64 * j) = 64 * (j + 1) - 64 * j by omega]
      exact this

theorem filterMap_range_skip2 {α : Type} (f : Nat → α) (n : Nat) :
    (List.range (n + 2)).filterMap (fun j => if j > 1 then some (f j) else none)
      = (List.range n).map fun k => f (k + 2) := by
  induction n with
  | zero => rfl
  | succ n ih =>
    rw [List.range_succ, List.filterMap_append, ih, List.range_succ (n := n), List.map_append]
    simp

/-- Decoding a reply made of at least two 32-byte words: the words after the two header words,
each read from its own hex string. -/
theorem decodeRois_flatten (ws : List Bytes) (h32 : ∀ w ∈ ws, w.length = 32)
    (h2 : 2 ≤ ws.length) :
    decodeRois ws.flatten = .ok ((ws.drop 2).map fun w => SetString16 (hexEncode w)) := by
  have hlen : (hexEncode ws.flatten).length / 64 = ws.length := by
    rw [hexEncode_length, flatten_length_words ws h32]
    omega
  obtain ⟨n, hn⟩ : ∃ n, ws.length = n + 2 := ⟨ws.length - 2, by omega⟩
  unfold decodeRois
  simp only [hlen]
  rw [if_neg (by omega), hn, filterMap_range_skip2]
  congr 1
  apply List.ext_getElem
  · simp [hn]
  · intro k h1 h2'
    have hk : k < n := by simpa using h1
    simp only [List.getElem_map, List.getElem_range, List.getElem_drop]
    rw [substr_hexEncode_flatten ws h32 (k + 2) (by omega)]
    simp only [Nat.add_comm k 2]

/-! ## The resolver: case lemmas -/

@[simp] theorem GoResult.ok_bind {α β : Type} (a : α) (f : α → GoResult β) :
    (GoResult.ok a >>= f) = f a := rfl

@[simp] theorem GoResult.pure_eq {α : Type} (a : α) : (pure a : GoResult α) = .ok a := rfl

theorem beBytes_length (w n : Nat) : (beBytes w n).length = w := by
  induction w generalizing n with
  | zero => rfl
  | succ w ih => simp [beBytes, ih]

theorem getWei_Data_length (roi bitSize : Int) : (getWei roi bitSize).Data.length = 64 := by
  simp [getWei, String.length, hexEncode_length, Int256, beBytes_length]

theorem encodeStep_getWei96 (env : Env) (encoded : String) (roi : Int) :
    encodeStep env encoded (.wei (getWei roi 96))
      = .ok (encoded ++ String.mk ((getWei roi 96).Data.data.drop 40)) := by
  have hl := getWei_Data_length roi 96
  have hb : (getWei roi 96).BitSize = 96 := rfl
  simp only [encodeStep, hl, hb]
  have : Int.tdiv 96 4 = 24 := by decide
  rw [this]
  simp

theorem roiAt_ok (rois : List (Option Int)) (hsome : ∀ x ∈ rois, ∃ v : Int, x = some v)
    (i : Nat) (hi : i < rois.length) : ∃ v : Int, roiAt rois i = .ok v := by
  obtain ⟨v, hv⟩ := hsome rois[i] (List.getElem_mem _)
  exact ⟨v, by simp [roiAt, List.getElem?_eq_getElem hi, hv, deref]⟩

theorem encodeStep_ok (env : Env) (encoded : String) (v : Value) (h : v.Encodable) :
    ∃ s, encodeStep env encoded v = .ok s := by
  cases v with
  | str s => exact ⟨_, rfl⟩
  | wei w =>
    obtain ⟨h1, h2⟩ := h
    simp only [encodeStep]
    rw [if_neg (by omega)]
    exact ⟨_, rfl⟩
  | address a => exact ⟨_, rfl⟩
  | other n => exact absurd h id

theorem foldlM_encodeStep_ok (env : Env) (values : List Value) :
    ∀ encoded, (∀ v ∈ values, v.Encodable) →
      ∃ s, values.foldlM (encodeStep env) encoded = GoResult.ok s := by
  induction values with
  | nil => intro encoded _; exact ⟨encoded, rfl⟩
  | cons v vs ih =>
    intro encoded h
    obtain ⟨s, hs⟩ := encodeStep_ok env encoded v (h v (by simp))
    obtain ⟨s', hs'⟩ := ih s (fun x hx => h x (by simp [hx]))
    refine ⟨s', ?_⟩
    rw [List.foldlM_cons]
    show (encodeStep env encoded v).bind _ = _
    rw [hs]
    exact hs'


/-- On a sample of at least 14 non-nil values the payload assembly succeeds. -/
theorem packCallData_ok (env : Env) (t : ITriangularArbitrageTriangular)
    (rois : List (Option Int)) (hsome : ∀ x ∈ rois, ∃ v : Int, x = some v)
    (hlen : 14 ≤ rois.length) : ∃ calldata, packCallData env t rois = .ok calldata := by
  obtain ⟨r0, h0⟩ := roiAt_ok rois hsome 0 (by omega)
  obtain ⟨r1, h1⟩ := roiAt_ok rois hsome 1 (by omega)
  obtain ⟨r2, h2⟩ := roiAt_ok rois hsome 2 (by omega)
  obtain ⟨r3, h3⟩ := roiAt_ok rois hsome 3 (by omega)
  obtain ⟨r4, h4⟩ := roiAt_ok rois hsome 4 (by omega)
  obtain ⟨r5, h5⟩ := roiAt_ok rois hsome 5 (by omega)
  obtain ⟨r6, h6⟩ := roiAt_ok rois hsome 6 (by omega)
  obtain ⟨r7, h7⟩ := roiAt_ok rois hsome 7 (by omega)
  obtain ⟨r10, h10⟩ := roiAt_ok rois hsome 10 (by omega)
  obtain ⟨r11, h11⟩ := roiAt_ok rois hsome 11 (by omega)
  obtain ⟨r12, h12⟩ := roiAt_ok rois hsome 12 (by omega)
  obtain ⟨r13, h13⟩ := roiAt_ok rois hsome 13 (by omega)
  have hw : ∀ r : Int, (Value.wei (getWei r 96)).Encodable := by
    intro r
    have hl := getWei_Data_length r 96
    have hb : (getWei r 96).BitSize = 96 := rfl
    have h24 : Int.tdiv 96 4 = 24 := by decide
    simp only [Value.Encodable, hl, hb, h24]
    omega
  simp only [packCallData, h0, h1, h2, h3, h4, h5, h6, h7, h10, h11, h12, h13,
    GoResult.ok_bind, EncodePackedBsc]
  apply foldlM_encodeStep_ok
  intro v hv
  simp only [List.mem_cons, List.mem_singleton, List.not_mem_nil, or_false] at hv
  rcases hv with h | h | h | h | h | h | h | h | h | h | h | h | h | h | h | h | h <;>
    subst h <;> first | exact hw _ | trivial

theorem resolveROILoop_ne_error (rois : List (Option Int)) (msg : String) :
    ∀ (remaining i : Nat), resolveROILoop rois remaining i ≠ .error msg := by
  intro remaining
  induction remaining with
  | zero => intro i; simp [resolveROILoop]
  | succ r ih =>
    intro i
    unfold resolveROILoop
    split
    · simp
    · simp
    · split
      · simp
      · exact ih _

theorem decodeRois_ne_error (call : Bytes) (msg : String) : decodeRois call ≠ .error msg := by
  unfold decodeRois
  simp only
  split <;> simp

theorem getRois_error_iff (o : Oracle) (n : Nat) (t : ITriangularArbitrageTriangular)
    (p : ArbitrageQueryParam) (msg : String) :
    getRois o n t p = .error msg ↔ o n t p = .error msg := by
  unfold getRois
  split
  · rename_i err h
    rw [h]
    simp
  · rename_i call h
    rw [h]
    constructor
    · intro h'; exact absurd h' (decodeRois_ne_error _ _)
    · intro h'; cases h'

theorem sampleIndex_error_iff (o : Oracle) (n : Nat) (t : ITriangularArbitrageTriangular)
    (p : ArbitrageQueryParam) (msg : String) :
    sampleIndex o n t p = .error msg ↔ o n t p = .error msg := by
  rw [← getRois_error_iff]
  unfold sampleIndex
  split
  · rename_i err h
    rw [h]
    simp
  · rename_i h
    rw [h]
    simp
  · rename_i rois h
    rw [h]
    constructor
    · intro h'; exact absurd h' (resolveROILoop_ne_error _ _ _ _)
    · intro h'; cases h'

theorem pairWorkerStages_error1 (o : Oracle) (t : ITriangularArbitrageTriangular)
    (msg : String)
    (h1 : sampleIndex o 0 t (window1) = .error msg) :
    pairWorkerStages o t = ([window1], .error msg) := by
  simp only [window1, window2, window3, window4] at *
  simp [pairWorkerStages, h1]

theorem pairWorkerStages_panic1 (o : Oracle) (t : ITriangularArbitrageTriangular)
   
    (h1 : sampleIndex o 0 t (window1) = .panic) :
    pairWorkerStages o t = ([window1], .panic) := by
  simp only [window1, window2, window3, window4] at *
  simp [pairWorkerStages, h1]

theorem pairWorkerStages_error2 (o : Oracle) (t : ITriangularArbitrageTriangular)
    (i1 : Int) (msg : String)
    (h1 : sampleIndex o 0 t (window1) = .ok i1)
    (h2 : sampleIndex o 1 t (window2 i1) = .error msg) :
    pairWorkerStages o t = ([window1, window2 i1], .error msg) := by
  simp only [window1, window2, window3, window4] at *
  simp [pairWorkerStages, h1, h2]

theorem pairWorkerStages_panic2 (o : Oracle) (t : ITriangularArbitrageTriangular)
    (i1 : Int)
    (h1 : sampleIndex o 0 t (window1) = .ok i1)
    (h2 : sampleIndex o 1 t (window2 i1) = .panic) :
    pairWorkerStages o t = ([window1, window2 i1], .panic) := by
  simp only [window1, window2, window3, window4] at *
  simp [pairWorkerStages, h1, h2]

theorem pairWorkerStages_error3 (o : Oracle) (t : ITriangularArbitrageTriangular)
    (i1 i2 : Int) (msg : String)
    (h1 : sampleIndex o 0 t (window1) = .ok i1)
    (h2 : sampleIndex o 1 t (window2 i1) = .ok i2)
    (h3 : sampleIndex o 2 t (window3 i1 i2) = .error msg) :
    pairWorkerStages o t = ([window1, window2 i1, window3 i1 i2], .error msg) := by
  simp only [window1, window2, window3, window4] at *
  simp [pairWorkerStages, h1, h2, h3]

theorem pairWorkerStages_panic3 (o : Oracle) (t : ITriangularArbitrageTriangular)
    (i1 i2 : Int)
    (h1 : sampleIndex o 0 t (window1) = .ok i1)
    (h2 : sampleIndex o 1 t (window2 i1) = .ok i2)
    (h3 : sampleIndex o 2 t (window3 i1 i2) = .panic) :
    pairWorkerStages o t = ([window1, window2 i1, window3 i1 i2], .panic) := by
  simp only [window1, window2, window3, window4] at *
  simp [pairWorkerStages, h1, h2, h3]

theorem pairWorkerStages_error4 (o : Oracle) (t : ITriangularArbitrageTriangular)
    (i1 i2 i3 : Int) (msg : String)
    (h1 : sampleIndex o 0 t (window1) = .ok i1)
    (h2 : sampleIndex o 1 t (window2 i1) = .ok i2)
    (h3 : sampleIndex o 2 t (window3 i1 i2) = .ok i3)
    (h4 : sampleIndex o 3 t (window4 i1 i2 i3) = .error msg) :
    pairWorkerStages o t = ([window1, window2 i1, window3 i1 i2, window4 i1 i2 i3], .error msg) := by
  simp only [window1, window2, window3, window4] at *
  simp [pairWorkerStages, h1, h2, h3, h4]

theorem pairWorkerStages_panic4 (o : Oracle) (t : ITriangularArbitrageTriangular)
    (i1 i2 i3 : Int)
    (h1 : sampleIndex o 0 t (window1) = .ok i1)
    (h2 : sampleIndex o 1 t (window2 i1) = .ok i2)
    (h3 : sampleIndex o 2 t (window3 i1 i2) = .ok i3)
    (h4 : sampleIndex o 3 t (window4 i1 i2 i3) = .panic) :
    pairWorkerStages o t = ([window1, window2 i1, window3 i1 i2, window4 i1 i2 i3], .panic) := by
  simp only [window1, window2, window3, window4] at *
  simp [pairWorkerStages, h1, h2, h3, h4]

theorem pairWorkerStages_ok (o : Oracle) (t : ITriangularArbitrageTriangular)
    (i1 i2 i3 i4 : Int)
    (h1 : sampleIndex o 0 t (window1) = .ok i1)
    (h2 : sampleIndex o 1 t (window2 i1) = .ok i2)
    (h3 : sampleIndex o 2 t (window3 i1 i2) = .ok i3)
    (h4 : sampleIndex o 3 t (window4 i1 i2 i3) = .ok i4) :
    pairWorkerStages o t
      = ([window1, window2 i1, window3 i1 i2, window4 i1 i2 i3], .ok ((window4 i1 i2 i3).Start + i4)) := by
  simp only [window1, window2, window3, window4] at *
  simp [pairWorkerStages, h1, h2, h3, h4]

theorem pairWorker_of_stages_error (env : Env) (o : Oracle) (triangle : Triangle)
    (calls : List ArbitrageQueryParam) (msg : String)
    (h : pairWorkerStages o (toTriangular env triangle) = (calls, .error msg)) :
    pairWorker env o triangle = { calls := calls, pushed := [.error msg], panicked := false } := by
  simp [pairWorker, h]

theorem pairWorker_of_stages_panic (env : Env) (o : Oracle) (triangle : Triangle)
    (calls : List ArbitrageQueryParam)
    (h : pairWorkerStages o (toTriangular env triangle) = (calls, .panic)) :
    pairWorker env o triangle = { calls := calls, pushed := [], panicked := true } := by
  simp [pairWorker, h]

theorem pairWorker_of_point_zero (env : Env) (o : Oracle) (triangle : Triangle)
    (calls : List ArbitrageQueryParam)
    (h : pairWorkerStages o (toTriangular env triangle) = (calls, .ok 0)) :
    pairWorker env o triangle = { calls := calls, pushed := [.nil], panicked := false } := by
  simp [pairWorker, h]

theorem pairWorker_of_point_error (env : Env) (o : Oracle) (triangle : Triangle)
    (calls : List ArbitrageQueryParam) (point : Int) (msg : String)
    (h : pairWorkerStages o (toTriangular env triangle) = (calls, .ok point))
    (hp : point ≠ 0)
    (hg : getRois o 4 (toTriangular env triangle) (pointQuery point) = .error msg) :
    pairWorker env o triangle
      = { calls := calls ++ [pointQuery point], pushed := [.error msg], panicked := false } := by
  simp only [pointQuery] at hg
  simp [pairWorker, h, hp, hg, pointQuery]

theorem pairWorker_of_point_panic (env : Env) (o : Oracle) (triangle : Triangle)
    (calls : List ArbitrageQueryParam) (point : Int)
    (h : pairWorkerStages o (toTriangular env triangle) = (calls, .ok point))
    (hp : point ≠ 0)
    (hg : getRois o 4 (toTriangular env triangle) (pointQuery point) = .panic) :
    pairWorker env o triangle
      = { calls := calls ++ [pointQuery point], pushed := [], panicked := true } := by
  simp only [pointQuery] at hg
  simp [pairWorker, h, hp, hg, pointQuery]

/-- The part of `pairWorker` after a successful point query: the threshold test and the
assembly of the `ROI`. -/
theorem pairWorker_of_point_sample (env : Env) (o : Oracle) (triangle : Triangle)
    (calls : List ArbitrageQueryParam) (point : Int) (rois : List (Option Int))
    (h : pairWorkerStages o (toTriangular env triangle) = (calls, .ok point))
    (hp : point ≠ 0)
    (hg : getRois o 4 (toTriangular env triangle) (pointQuery point) = .ok rois) :
    pairWorker env o triangle =
      match rois[13]? with
      | none => { calls := calls ++ [pointQuery point], pushed := [], panicked := true }
      | some none => { calls := calls ++ [pointQuery point], pushed := [.nil], panicked := false }
      | some (some roi13) =>
        if roi13 < 5000000 then
          { calls := calls ++ [pointQuery point], pushed := [.nil], panicked := false }
        else
          match packCallData env (toTriangular env triangle) rois with
          | .panic => { calls := calls ++ [pointQuery point], pushed := [], panicked := true }
          | .error err =>
            { calls := calls ++ [pointQuery point], pushed := [.error err], panicked := false }
          | .ok calldata =>
            { calls := calls ++ [pointQuery point]
              pushed := [.roi { Triangle := triangle, CallData := calldata, Profit := roi13 }]
              panicked := false } := by
  simp only [pointQuery] at hg
  simp only [pairWorker, h, hp, hg, pointQuery, if_false]

theorem pairWorker_calls_of_point_sample (env : Env) (o : Oracle) (triangle : Triangle)
    (calls : List ArbitrageQueryParam) (point : Int) (rois : List (Option Int))
    (h : pairWorkerStages o (toTriangular env triangle) = (calls, .ok point))
    (hp : point ≠ 0)
    (hg : getRois o 4 (toTriangular env triangle) (pointQuery point) = .ok rois) :
    (pairWorker env o triangle).calls = calls ++ [pointQuery point] := by
  rw [pairWorker_of_point_sample env o triangle calls point rois h hp hg]
  split
  · rfl
  · rfl
  · split
    · rfl
    · split <;> rfl

/-- C6 (abort on first oracle failure). If the `k`-th oracle call of a resolution (counted from
0; `q` is the query it issues) fails with error `e`, then `pairWorker` sends exactly that error
and nothing else on the results channel, the failed call is its last oracle call (no retry, no
further query), it does not panic, and it sends no opportunity. -/
theorem pairWorker_abort_on_failure (env : Env) (o : Oracle) (triangle : Triangle)
    (k : Nat) (q : ArbitrageQueryParam) (e : String)
    (hq : (pairWorker env o triangle).calls[k]? = some q)
    (hfail : o k (toTriangular env triangle) q = .error e) :
    (pairWorker env o triangle).pushed = [.error e]
    ∧ (pairWorker env o triangle).calls.length = k + 1
    ∧ (pairWorker env o triangle).panicked = false
    ∧ ∀ r, Outcome.roi r ∉ (pairWorker env o triangle).pushed := by
  have hs := fun n p => sampleIndex_error_iff o n (toTriangular env triangle) p e
  have hg := fun n p => getRois_error_iff o n (toTriangular env triangle) p e
  revert hq
  rcases h1 : sampleIndex o 0 (toTriangular env triangle) (window1) with
    i1 | e1 | _
  · rcases h2 : sampleIndex o 1 (toTriangular env triangle) (window2 i1) with
      i2 | e2 | _
    · rcases h3 : sampleIndex o 2 (toTriangular env triangle) (window3 i1 i2) with
        i3 | e3 | _
      · rcases h4 : sampleIndex o 3 (toTriangular env triangle) (window4 i1 i2 i3) with
          i4 | e4 | _
        · have hst := pairWorkerStages_ok o (toTriangular env triangle) i1 i2 i3 i4 h1 h2 h3 h4
          by_cases hp : (window4 i1 i2 i3).Start + i4 = 0
          · rw [hp] at hst
            rw [pairWorker_of_point_zero env o triangle _ hst]
            intro hq
            match k, hq, hfail with
            | 0, hq, hfail =>
              simp at hq; subst hq
              rw [← hs, h1] at hfail; cases hfail
            | 1, hq, hfail =>
              simp at hq; subst hq
              rw [← hs, h2] at hfail; cases hfail
            | 2, hq, hfail =>
              simp at hq; subst hq
              rw [← hs, h3] at hfail; cases hfail
            | 3, hq, hfail =>
              simp at hq; subst hq
              rw [← hs, h4] at hfail; cases hfail
            | k + 4, hq, hfail => simp at hq
          · rcases h5 : getRois o 4 (toTriangular env triangle)
                (pointQuery ((window4 i1 i2 i3).Start + i4)) with rois | e5 | _
            · rw [pairWorker_calls_of_point_sample env o triangle _ _ rois hst hp h5]
              intro hq
              match k, hq, hfail with
              | 0, hq, hfail =>
                simp at hq; subst hq
                rw [← hs, h1] at hfail; cases hfail
              | 1, hq, hfail =>
                simp at hq; subst hq
                rw [← hs, h2] at hfail; cases hfail
              | 2, hq, hfail =>
                simp at hq; subst hq
                rw [← hs, h3] at hfail; cases hfail
              | 3, hq, hfail =>
                simp at hq; subst hq
                rw [← hs, h4] at hfail; cases hfail
              | 4, hq, hfail =>
                simp at hq; subst hq
                rw [← hg, h5] at hfail; cases hfail
              | k + 5, hq, hfail => simp at hq
            · rw [pairWorker_of_point_error env o triangle _ _ e5 hst hp h5]
              intro hq
              match k, hq, hfail with
              | 0, hq, hfail =>
                simp at hq; subst hq
                rw [← hs, h1] at hfail; cases hfail
              | 1, hq, hfail =>
                simp at hq; subst hq
                rw [← hs, h2] at hfail; cases hfail
              | 2, hq, hfail =>
                simp at hq; subst hq
                rw [← hs, h3] at hfail; cases hfail
              | 3, hq, hfail =>
                simp at hq; subst hq
                rw [← hs, h4] at hfail; cases hfail
              | 4, hq, hfail =>
                simp at hq; subst hq
                rw [← hg, h5] at hfail; cases hfail
                simp
              | k + 5, hq, hfail => simp at hq
            · rw [pairWorker_of_point_panic env o triangle _ _ hst hp h5]
              intro hq
              match k, hq, hfail with
              | 0, hq, hfail =>
                simp at hq; subst hq
                rw [← hs, h1] at hfail; cases hfail
              | 1, hq, hfail =>
                simp at hq; subst hq
                rw [← hs, h2] at hfail; cases hfail
              | 2, hq, hfail =>
                simp at hq; subst hq
                rw [← hs, h3] at hfail; cases hfail
              | 3, hq, hfail =>
                simp at hq; subst hq
                rw [← hs, h4] at hfail; cases hfail
              | 4, hq, hfail =>
                simp at hq; subst hq
                rw [← hg, h5] at hfail; cases hfail
              | k + 5, hq, hfail => simp at hq
        · rw [pairWorker_of_stages_error env o triangle _ e4
            (pairWorkerStages_error4 o _ i1 i2 i3 e4 h1 h2 h3 h4)]
          intro hq
          match k, hq, hfail with
          | 0, hq, hfail =>
            simp at hq; subst hq
            rw [← hs, h1] at hfail; cases hfail
          | 1, hq, hfail =>
            simp at hq; subst hq
            rw [← hs, h2] at hfail; cases hfail
          | 2, hq, hfail =>
            simp at hq; subst hq
            rw [← hs, h3] at hfail; cases hfail
          | 3, hq, hfail =>
            simp at hq; subst hq
            rw [← hs, h4] at hfail; cases hfail
            simp
          | k + 4, hq, hfail => simp at hq
        · rw [pairWorker_of_stages_panic env o triangle _
            (pairWorkerStages_panic4 o _ i1 i2 i3 h1 h2 h3 h4)]
          intro hq
          match k, hq, hfail with
          | 0, hq, hfail =>
            simp at hq; subst hq
            rw [← hs, h1] at hfail; cases hfail
          | 1, hq, hfail =>
            simp at hq; subst hq
            rw [← hs, h2] at hfail; cases hfail
          | 2, hq, hfail =>
            simp at hq; subst hq
            rw [← hs, h3] at hfail; cases hfail
          | 3, hq, hfail =>
            simp at hq; subst hq
            rw [← hs, h4] at hfail; cases hfail
          | k + 4, hq, hfail => simp at hq
      · rw [pairWorker_of_stages_error env o triangle _ e3
          (pairWorkerStages_error3 o _ i1 i2 e3 h1 h2 h3)]
        intro hq
        match k, hq, hfail with
        | 0, hq, hfail =>
          simp at hq; subst hq
          rw [← hs, h1] at hfail; cases hfail
        | 1, hq, hfail =>
          simp at hq; subst hq
          rw [← hs, h2] at hfail; cases hfail
        | 2, hq, hfail =>
          simp at hq; subst hq
          rw [← hs, h3] at hfail; cases hfail
          simp
        | k + 3, hq, hfail => simp at hq
      · rw [pairWorker_of_stages_panic env o triangle _
          (pairWorkerStages_panic3 o _ i1 i2 h1 h2 h3)]
        intro hq
        match k, hq, hfail with
        | 0, hq, hfail =>
          simp at hq; subst hq
          rw [← hs, h1] at hfail; cases hfail
        | 1, hq, hfail =>
          simp at hq; subst hq
          rw [← hs, h2] at hfail; cases hfail
        | 2, hq, hfail =>
          simp at hq; subst hq
          rw [← hs, h3] at hfail; cases hfail
        | k + 3, hq, hfail => simp at hq
    · rw [pairWorker_of_stages_error env o triangle _ e2
        (pairWorkerStages_error2 o _ i1 e2 h1 h2)]
      intro hq
      match k, hq, hfail with
      | 0, hq, hfail =>
        simp at hq; subst hq
        rw [← hs, h1] at hfail; cases hfail
      | 1, hq, hfail =>
        simp at hq; subst hq
        rw [← hs, h2] at hfail; cases hfail
        simp
      | k + 2, hq, hfail => simp at hq
    · rw [pairWorker_of_stages_panic env o triangle _
        (pairWorkerStages_panic2 o _ i1 h1 h2)]
      intro hq
      match k, hq, hfail with
      | 0, hq, hfail =>
        simp at hq; subst hq
        rw [← hs, h1] at hfail; cases hfail
      | 1, hq, hfail =>
        simp at hq; subst hq
        rw [← hs, h2] at hfail; cases hfail
      | k + 2, hq, hfail => simp at hq
  · rw [pairWorker_of_stages_error env o triangle _ e1
      (pairWorkerStages_error1 o _  e1 h1)]
    intro hq
    match k, hq, hfail with
    | 0, hq, hfail =>
      simp at hq; subst hq
      rw [← hs, h1] at hfail; cases hfail
      simp
    | k + 1, hq, hfail => simp at hq
  · rw [pairWorker_of_stages_panic env o triangle _
      (pairWorkerStages_panic1 o _  h1)]
    intro hq
    match k, hq, hfail with
    | 0, hq, hfail =>
      simp at hq; subst hq
      rw [← hs, h1] at hfail; cases hfail
    | k + 1, hq, hfail => simp at hq

/-! ## The resolver: threshold, convergence and narrowing -/

theorem getRois_some (o : Oracle) (n : Nat) (t : ITriangularArbitrageTriangular)
    (q : ArbitrageQueryParam) (rois : List (Option Int)) (h : getRois o n t q = .ok rois) :
    ∀ x ∈ rois, ∃ v : Int, x = some v := by
  unfold getRois at h
  split at h
  · cases h
  · exact decodeRois_some _ _ h

/-- C5 (inclusive threshold). When the four stages resolve to a non-zero `point` and the point
query succeeds with a sample whose value at index 13 (after the two header words) is `p`, then
`pairWorker` sends an opportunity if and only if `p ≥ 5000000`; for `p ≥ 5000000` the
opportunity carries the candidate and the profit `p`, for `p < 5000000` the one outcome sent is
`nil` (no opportunity); in both cases the run does not panic. In particular `p = 5000000` is
accepted and `p = 4999999` is not. -/
theorem pairWorker_threshold (env : Env) (o : Oracle) (triangle : Triangle)
    (calls : List ArbitrageQueryParam) (point : Int) (rois : List (Option Int)) (p : Int)
    (hstages : pairWorkerStages o (toTriangular env triangle) = (calls, .ok point))
    (hpoint : point ≠ 0)
    (hsample : getRois o 4 (toTriangular env triangle) (pointQuery point) = .ok rois)
    (hprofit : rois[13]? = some (some p)) :
    ((∃ r, (pairWorker env o triangle).pushed = [.roi r]) ↔ 5000000 ≤ p)
    ∧ (5000000 ≤ p → ∃ calldata, (pairWorker env o triangle).pushed
          = [.roi { Triangle := triangle, CallData := calldata, Profit := p }])
    ∧ (p < 5000000 → (pairWorker env o triangle).pushed = [.nil])
    ∧ (pairWorker env o triangle).panicked = false := by
  have hlen : 14 ≤ rois.length := by
    by_contra hc
    rw [List.getElem?_eq_none (by omega)] at hprofit
    cases hprofit
  obtain ⟨calldata, hpack⟩ := packCallData_ok env (toTriangular env triangle) rois
    (getRois_some o 4 _ _ rois hsample) hlen
  rw [pairWorker_of_point_sample env o triangle calls point rois hstages hpoint hsample]
  simp only [hprofit, hpack]
  by_cases hp : p < 5000000
  · simp only [if_pos hp]
    refine ⟨⟨?_, fun h => absurd h (by omega)⟩, fun h => absurd h (by omega), fun _ => trivial, trivial⟩
    rintro ⟨r, hr⟩
    simp at hr
  · simp only [if_neg hp]
    exact ⟨⟨fun _ => by omega, fun _ => ⟨_, rfl⟩⟩, fun _ => ⟨calldata, rfl⟩,
      fun h => absurd h hp, trivial⟩

set_option maxRecDepth 100000 in
/-- C5 at the boundary: against an oracle that leads the stages to point 1, a point sample with
profit field 5000000 (bytes `4c 4b 40`) yields an opportunity, and one with profit field
4999999 (bytes `4c 4b 3f`) yields `nil`. -/
theorem pairWorker_threshold_witness :
    (∃ r, (pairWorker sampleEnv (thresholdOracle 76 75 64) sampleTriangle).pushed = [.roi r])
    ∧ (pairWorker sampleEnv (thresholdOracle 76 75 63) sampleTriangle).pushed = [.nil] :=
  have h1 := pairWorker_threshold sampleEnv (thresholdOracle 76 75 64) sampleTriangle
    [window1, window2 0, window3 0 0, window4 0 0 0] 1
    ((List.replicate 13 zeroWord ++ [List.replicate 29 0 ++ [76, 75, 64]]).map
      fun w => SetString16 (hexEncode w)) 5000000
    (by decide!) (by decide) (by decide!) (by decide!)
  have h2 := pairWorker_threshold sampleEnv (thresholdOracle 76 75 63) sampleTriangle
    [window1, window2 0, window3 0 0, window4 0 0 0] 1
    ((List.replicate 13 zeroWord ++ [List.replicate 29 0 ++ [76, 75, 63]]).map
      fun w => SetString16 (hexEncode w)) 4999999
    (by decide!) (by decide) (by decide!) (by decide!)
  ⟨h1.1.2 (by decide), h2.2.2.1 (by decide)⟩

/-- A Go call yields a value, returns an error, or panics. -/
theorem GoResult.trichotomy {α : Type} (r : GoResult α) :
    (∃ a, r = .ok a) ∨ (∃ e, r = .error e) ∨ r = .panic := by
  cases r with
  | ok a => exact Or.inl ⟨a, rfl⟩
  | error e => exact Or.inr (Or.inl ⟨e, rfl⟩)
  | panic => exact Or.inr (Or.inr rfl)

/-- The oracle queries of one run of `pairWorker`: the first stage's window alone when its
sampling does not yield an offset; otherwise the windows of the stages reached, each built from
the offsets found before it; and after four offsets the exact-point query, unless the point is
zero. -/
theorem pairWorker_calls_cases (env : Env) (o : Oracle) (triangle : Triangle) :
    (
        (pairWorker env o triangle).calls = [window1] ∧
        ∀ i : Int, sampleIndex o 0 (toTriangular env triangle) (window1) ≠ .ok i)
    ∨ (∃ i1 : Int, 
        sampleIndex o 0 (toTriangular env triangle) (window1) = .ok i1 ∧
        (pairWorker env o triangle).calls = [window1, window2 i1] ∧
        ∀ i : Int, sampleIndex o 1 (toTriangular env triangle) (window2 i1) ≠ .ok i)
    ∨ (∃ i1 i2 : Int, 
        sampleIndex o 0 (toTriangular env triangle) (window1) = .ok i1 ∧
        sampleIndex o 1 (toTriangular env triangle) (window2 i1) = .ok i2 ∧
        (pairWorker env o triangle).calls = [window1, window2 i1, window3 i1 i2] ∧
        ∀ i : Int, sampleIndex o 2 (toTriangular env triangle) (window3 i1 i2) ≠ .ok i)
    ∨ (∃ i1 i2 i3 : Int, 
        sampleIndex o 0 (toTriangular env triangle) (window1) = .ok i1 ∧
        sampleIndex o 1 (toTriangular env triangle) (window2 i1) = .ok i2 ∧
        sampleIndex o 2 (toTriangular env triangle) (window3 i1 i2) = .ok i3 ∧
        (pairWorker env o triangle).calls = [window1, window2 i1, window3 i1 i2, window4 i1 i2 i3] ∧
        ∀ i : Int, sampleIndex o 3 (toTriangular env triangle) (window4 i1 i2 i3) = .ok i →
          (window4 i1 i2 i3).Start + i = 0)
    ∨ (∃ i1 i2 i3 i4 : Int,
        sampleIndex o 0 (toTriangular env triangle) (window1) = .ok i1 ∧
        sampleIndex o 1 (toTriangular env triangle) (window2 i1) = .ok i2 ∧
        sampleIndex o 2 (toTriangular env triangle) (window3 i1 i2) = .ok i3 ∧
        sampleIndex o 3 (toTriangular env triangle) (window4 i1 i2 i3) = .ok i4 ∧
        (window4 i1 i2 i3).Start + i4 ≠ 0 ∧
        (pairWorker env o triangle).calls =
          [window1, window2 i1, window3 i1 i2, window4 i1 i2 i3,
            pointQuery ((window4 i1 i2 i3).Start + i4)]) := by
  rcases GoResult.trichotomy (sampleIndex o 0 (toTriangular env triangle) (window1)) with
    ⟨i1, h1⟩ | ⟨e1, h1⟩ | h1
  · rcases GoResult.trichotomy (sampleIndex o 1 (toTriangular env triangle) (window2 i1)) with
      ⟨i2, h2⟩ | ⟨e2, h2⟩ | h2
    · rcases GoResult.trichotomy (sampleIndex o 2 (toTriangular env triangle) (window3 i1 i2)) with
        ⟨i3, h3⟩ | ⟨e3, h3⟩ | h3
      · rcases GoResult.trichotomy (sampleIndex o 3 (toTriangular env triangle) (window4 i1 i2 i3)) with
          ⟨i4, h4⟩ | ⟨e4, h4⟩ | h4
        · have hst := pairWorkerStages_ok o (toTriangular env triangle) i1 i2 i3 i4 h1 h2 h3 h4
          by_cases hp : (window4 i1 i2 i3).Start + i4 = 0
          · right; right; right; left
            refine ⟨i1, i2, i3, h1, h2, h3, ?_, fun i hi => by rw [h4] at hi; cases hi; exact hp⟩
            rw [hp] at hst
            rw [pairWorker_of_point_zero env o triangle _ hst]
          · right; right; right; right
            refine ⟨i1, i2, i3, i4, h1, h2, h3, h4, hp, ?_⟩
            rcases GoResult.trichotomy (getRois o 4 (toTriangular env triangle)
                (pointQuery ((window4 i1 i2 i3).Start + i4))) with
              ⟨rois, h5⟩ | ⟨e5, h5⟩ | h5
            · rw [pairWorker_calls_of_point_sample env o triangle _ _ rois hst hp h5]
              rfl
            · rw [pairWorker_of_point_error env o triangle _ _ e5 hst hp h5]
              rfl
            · rw [pairWorker_of_point_panic env o triangle _ _ hst hp h5]
              rfl
        · right; right; right; left
          exact ⟨i1, i2, i3, h1, h2, h3, by
            rw [pairWorker_of_stages_error env o triangle _ e4
              (pairWorkerStages_error4 o _ i1 i2 i3 e4 h1 h2 h3 h4)], fun i hi => by rw [h4] at hi; cases hi⟩
        · right; right; right; left
          exact ⟨i1, i2, i3, h1, h2, h3, by
            rw [pairWorker_of_stages_panic env o triangle _
              (pairWorkerStages_panic4 o _ i1 i2 i3 h1 h2 h3 h4)], fun i hi => by rw [h4] at hi; cases hi⟩
      · right; right; left
        exact ⟨i1, i2, h1, h2, by
          rw [pairWorker_of_stages_error env o triangle _ e3
            (pairWorkerStages_error3 o _ i1 i2 e3 h1 h2 h3)], fun i hi => by rw [h3] at hi; cases hi⟩
      · right; right; left
        exact ⟨i1, i2, h1, h2, by
          rw [pairWorker_of_stages_panic env o triangle _
            (pairWorkerStages_panic3 o _ i1 i2 h1 h2 h3)], fun i hi => by rw [h3] at hi; cases hi⟩
    · right; left
      exact ⟨i1, h1, by
        rw [pairWorker_of_stages_error env o triangle _ e2
          (pairWorkerStages_error2 o _ i1 e2 h1 h2)], fun i hi => by rw [h2] at hi; cases hi⟩
    · right; left
      exact ⟨i1, h1, by
        rw [pairWorker_of_stages_panic env o triangle _
          (pairWorkerStages_panic2 o _ i1 h1 h2)], fun i hi => by rw [h2] at hi; cases hi⟩
  · left
    exact ⟨by
      rw [pairWorker_of_stages_error env o triangle _ e1
        (pairWorkerStages_error1 o _  e1 h1)], fun i hi => by rw [h1] at hi; cases hi⟩
  · left
    exact ⟨by
      rw [pairWorker_of_stages_panic env o triangle _
        (pairWorkerStages_panic1 o _  h1)], fun i hi => by rw [h1] at hi; cases hi⟩

/-- One sampling step against an oracle that is monotone with breakeven `P`, on a window of
width `10 * w` that contains `P`: the offset is the index of the sub-interval of width `w` that
contains `P`. -/
theorem sampleIndex_of_monotone (o : Oracle) (t : ITriangularArbitrageTriangular) (P : Int)
    (hmono : MonotoneWithBreakeven o t P) (n : Nat) (q : ArbitrageQueryParam) (w : Int)
    (hpieces : q.Pieces = 10) (hw : 0 < w) (hwidth : q.End - q.Start = 10 * w)
    (hlo : q.Start ≤ P) (hhi : P < q.End) :
    sampleIndex o n t q = .ok ((P - q.Start) / w) := by
  obtain ⟨rois, hget, hten, hpat⟩ := hmono n q hpieces hlo hhi
  have hsub : (q.End - q.Start) / 10 = w := by rw [hwidth]; omega
  simp only [hsub] at hpat
  -- the index of the sub-interval containing `P`
  have hi0 : 0 ≤ (P - q.Start) / w := Int.ediv_nonneg (by omega) (by omega)
  have hmul : (P - q.Start) / w * w ≤ P - q.Start := Int.ediv_mul_le _ (by omega)
  have hlt : P - q.Start < ((P - q.Start) / w + 1) * w :=
    Int.lt_ediv_add_one_mul_self _ hw
  have hi10 : (P - q.Start) / w < 10 := by
    by_contra hc
    have : 10 * w ≤ (P - q.Start) / w * w := Int.mul_le_mul_of_nonneg_right (by omega) (by omega)
    omega
  obtain ⟨k, hk⟩ : ∃ k : Nat, (P - q.Start) / w = (k : Int) :=
    ⟨((P - q.Start) / w).toNat, by omega⟩
  rw [hk] at hmul hlt hi10 ⊢
  have hk10 : k < 10 := by omega
  unfold sampleIndex
  rw [hget]
  simp only
  unfold resolveROI
  rw [resolveROI_bound]
  have := resolveROILoop_found rois k ((rois.length - 6) / 8) 0 (by omega)
    (fun j hj => by
      obtain ⟨v, hv, hz⟩ := hpat j (by omega)
      refine ⟨v, ?_, by rw [show (0 + j) * 8 + 6 = 6 + 8 * j by omega]; exact hv⟩
      intro h0
      have hP := hz.1 h0
      have : ((j : Int) + 1) * w ≤ (k : Int) * w :=
        Int.mul_le_mul_of_nonneg_right (by omega) (by omega)
      omega)
    (by
      obtain ⟨v, hv, hz⟩ := hpat k hk10
      have h0 : v = 0 := hz.2 (by omega)
      rw [show (0 + k) * 8 + 6 = 6 + 8 * k by omega, hv, h0])
  simpa using this

theorem pairWorker_calls_of_point (env : Env) (o : Oracle) (triangle : Triangle)
    (calls : List ArbitrageQueryParam) (point : Int)
    (h : pairWorkerStages o (toTriangular env triangle) = (calls, .ok point))
    (hp : point ≠ 0) :
    (pairWorker env o triangle).calls = calls ++ [pointQuery point] := by
  rcases GoResult.trichotomy (getRois o 4 (toTriangular env triangle) (pointQuery point)) with
    ⟨rois, h5⟩ | ⟨e5, h5⟩ | h5
  · exact pairWorker_calls_of_point_sample env o triangle _ _ rois h hp h5
  · rw [pairWorker_of_point_error env o triangle _ _ e5 h hp h5]
  · rw [pairWorker_of_point_panic env o triangle _ _ h hp h5]

theorem getArbitrageQueryParam_of_lt (start index step : Int) (h : index < 10) :
    getArbitrageQueryParam start index step
      = { Start := start + step * index, End := start + step * index + step, Pieces := 10 } := by
  simp only [getArbitrageQueryParam]
  rw [if_neg (by omega)]

/-- The four stages against an oracle that is monotone with breakeven `P`, `0 ≤ P < 10000`:
the offsets are the four decimal digits of `P`, and the point is `P`. -/
theorem pairWorkerStages_of_monotone (o : Oracle) (t : ITriangularArbitrageTriangular) (P : Int)
    (hP0 : 0 ≤ P) (hP : P < 10000) (hmono : MonotoneWithBreakeven o t P) :
    pairWorkerStages o t
      = ([window1, window2 (P / 1000), window3 (P / 1000) (P % 1000 / 100),
          window4 (P / 1000) (P % 1000 / 100) (P % 100 / 10)], .ok P) := by
  have e2 : window2 (P / 1000) = ⟨1000 * (P / 1000), 1000 * (P / 1000) + 1000, 10⟩ := by
    rw [window2, getArbitrageQueryParam_of_lt _ _ _ (by omega)]
    simp [window1, getArbitrageQueryParam]
  have e3 : window3 (P / 1000) (P % 1000 / 100)
      = ⟨P / 100 * 100, P / 100 * 100 + 100, 10⟩ := by
    rw [window3, getArbitrageQueryParam_of_lt _ _ _ (by omega), e2]
    simp only [ArbitrageQueryParam.mk.injEq, and_true]
    constructor <;> omega
  have e4 : window4 (P / 1000) (P % 1000 / 100) (P % 100 / 10)
      = ⟨P / 10 * 10, P / 10 * 10 + 10, 10⟩ := by
    rw [window4, getArbitrageQueryParam_of_lt _ _ _ (by omega), e3]
    simp only [ArbitrageQueryParam.mk.injEq, and_true]
    constructor <;> omega
  have h1 := sampleIndex_of_monotone o t P hmono 0 window1 1000 rfl (by decide) (by decide)
    (by simpa [window1, getArbitrageQueryParam] using hP0)
    (by simpa [window1, getArbitrageQueryParam] using hP)
  rw [show (P - window1.Start) / 1000 = P / 1000 by simp [window1, getArbitrageQueryParam]] at h1
  have h2 := sampleIndex_of_monotone o t P hmono 1 (window2 (P / 1000)) 100
    (by rw [e2]) (by decide) (by rw [e2]; simp) (by rw [e2]; simp only; omega)
    (by rw [e2]; simp only; omega)
  rw [show (P - (window2 (P / 1000)).Start) / 100 = P % 1000 / 100 by
    rw [e2]; simp only; omega] at h2
  have h3 := sampleIndex_of_monotone o t P hmono 2 (window3 (P / 1000) (P % 1000 / 100)) 10
    (by rw [e3]) (by decide) (by rw [e3]; simp) (by rw [e3]; simp only; omega)
    (by rw [e3]; simp only; omega)
  rw [show (P - (window3 (P / 1000) (P % 1000 / 100)).Start) / 10 = P % 100 / 10 by
    rw [e3]; simp only; omega] at h3
  have h4 := sampleIndex_of_monotone o t P hmono 3
    (window4 (P / 1000) (P % 1000 / 100) (P % 100 / 10)) 1
    (by rw [e4]) (by decide) (by rw [e4]; simp) (by rw [e4]; simp only; omega)
    (by rw [e4]; simp only; omega)
  rw [pairWorkerStages_ok o t _ _ _ _ h1 h2 h3 h4]
  congr 2
  rw [e4]
  simp only
  omega

/-- C1 (convergence). For every breakeven point `P` with `0 ≤ P < 10000` and every oracle that
is monotone with breakeven `P`, the four narrowing stages succeed and the point they compute is
exactly `P`; when `P ≠ 0` the fifth oracle call is the exact-point query at `P`, and when
`P = 0` the run ends after four calls with the outcome `nil`. -/
theorem pairWorker_converges (env : Env) (o : Oracle) (triangle : Triangle) (P : Int)
    (hP0 : 0 ≤ P) (hP : P < 10000)
    (hmono : MonotoneWithBreakeven o (toTriangular env triangle) P) :
    (∃ calls, pairWorkerStages o (toTriangular env triangle) = (calls, .ok P))
    ∧ (P ≠ 0 → (pairWorker env o triangle).calls[4]? = some (pointQuery P))
    ∧ (P = 0 → (pairWorker env o triangle).pushed = [.nil]
        ∧ (pairWorker env o triangle).calls.length = 4) := by
  have hst := pairWorkerStages_of_monotone o _ P hP0 hP hmono
  refine ⟨⟨_, hst⟩, ?_, ?_⟩
  · intro hne
    rw [pairWorker_calls_of_point env o triangle _ P hst hne]
    rfl
  · intro h0
    subst h0
    rw [pairWorker_of_point_zero env o triangle _ hst]
    exact ⟨rfl, rfl⟩




theorem SetString16_zeroWord : SetString16 (hexEncode zeroWord) = some 0 := by decide

theorem SetString16_oneWord : SetString16 (hexEncode oneWord) = some 1 := by decide

/-- The sample oracle with breakeven `P` is monotone with breakeven `P`. -/
theorem breakevenOracle_monotone (t : ITriangularArbitrageTriangular) (P : Int) :
    MonotoneWithBreakeven (breakevenOracle P) t P := by
  intro n q _ _ _
  have hr : List.range 10 = [0, 1, 2, 3, 4, 5, 6, 7, 8, 9] := by decide
  have hdec := decodeRois_flatten
    (List.replicate 8 zeroWord ++ (List.range 10).flatMap fun i =>
      (if P < q.Start + ((i : Int) + 1) * ((q.End - q.Start) / 10) then zeroWord else oneWord)
        :: List.replicate 7 zeroWord)
    (by
      intro w hw
      simp only [List.mem_append, List.mem_replicate, List.mem_flatMap, List.mem_cons] at hw
      rcases hw with ⟨_, rfl⟩ | ⟨i, _, rfl | ⟨_, rfl⟩⟩
      · rfl
      · split <;> rfl
      · rfl)
    (by simp)
  refine ⟨_, hdec, by rw [hr]; simp [List.flatMap], ?_⟩
  intro i hi
  refine ⟨if P < q.Start + ((i : Int) + 1) * ((q.End - q.Start) / 10) then 0 else 1, ?_, ?_⟩
  · rw [List.getElem?_map]
    have hw : ∀ c : Prop, [Decidable c] →
        SetString16 (hexEncode (if c then zeroWord else oneWord))
          = some (if c then (0 : Int) else 1) := by
      intro c _
      split
      · exact SetString16_zeroWord
      · exact SetString16_oneWord
    rw [← hw, hr]
    interval_cases i <;> rfl
  · split <;> simp [*]

/-- C1 at `P = 4207` against the sample oracle with that breakeven: the stages resolve the
point 4207 and the fifth call queries it. -/
theorem pairWorker_converges_witness :
    (∃ calls, pairWorkerStages (breakevenOracle 4207) (toTriangular sampleEnv sampleTriangle)
      = (calls, .ok 4207))
    ∧ (pairWorker sampleEnv (breakevenOracle 4207) sampleTriangle).calls[4]?
        = some (pointQuery 4207) :=
  have h := pairWorker_converges sampleEnv (breakevenOracle 4207) sampleTriangle 4207
    (by decide) (by decide) (breakevenOracle_monotone _ 4207)
  ⟨h.1, h.2.1 (by decide)⟩


/-- Two successive window queries of a run, the first with offset `i`: the second is the next
stage's window built from that offset. -/
theorem pairWorker_calls_step (env : Env) (o : Oracle) (triangle : Triangle)
    (k : Nat) (q q' : ArbitrageQueryParam) (i : Int) (hk : k < 3)
    (hq : (pairWorker env o triangle).calls[k]? = some q)
    (hq' : (pairWorker env o triangle).calls[k + 1]? = some q')
    (hi : sampleIndex o k (toTriangular env triangle) q = .ok i) :
    (k = 0 ∧ q = window1 ∧ q' = window2 i)
    ∨ (k = 1 ∧ ∃ i1 : Int, q = window2 i1 ∧ q' = window3 i1 i)
    ∨ (k = 2 ∧ ∃ i1 i2 : Int, q = window3 i1 i2 ∧ q' = window4 i1 i2 i) := by
  rcases pairWorker_calls_cases env o triangle with
    ⟨hc, _⟩ | ⟨i1, h1, hc, _⟩ | ⟨i1, i2, h1, h2, hc, _⟩ | ⟨i1, i2, i3, h1, h2, h3, hc, _⟩
    | ⟨i1, i2, i3, i4, h1, h2, h3, h4, _, hc⟩
  · rw [hc] at hq'
    simp at hq'
  · rw [hc] at hq hq'
    match k, hk, hq, hq', hi with
    | 0, _, hq, hq', hi =>
      simp at hq hq'
      subst hq; subst hq'
      rw [h1] at hi; cases hi
      exact Or.inl ⟨rfl, rfl, rfl⟩
    | 1, _, hq, hq', hi => simp at hq'
    | 2, _, hq, hq', hi => simp at hq'
  · rw [hc] at hq hq'
    match k, hk, hq, hq', hi with
    | 0, _, hq, hq', hi =>
      simp at hq hq'
      subst hq; subst hq'
      rw [h1] at hi; cases hi
      exact Or.inl ⟨rfl, rfl, rfl⟩
    | 1, _, hq, hq', hi =>
      simp at hq hq'
      subst hq; subst hq'
      rw [h2] at hi; cases hi
      exact Or.inr (Or.inl ⟨rfl, i1, rfl, rfl⟩)
    | 2, _, hq, hq', hi => simp at hq'
  · rw [hc] at hq hq'
    match k, hk, hq, hq', hi with
    | 0, _, hq, hq', hi =>
      simp at hq hq'
      subst hq; subst hq'
      rw [h1] at hi; cases hi
      exact Or.inl ⟨rfl, rfl, rfl⟩
    | 1, _, hq, hq', hi =>
      simp at hq hq'
      subst hq; subst hq'
      rw [h2] at hi; cases hi
      exact Or.inr (Or.inl ⟨rfl, i1, rfl, rfl⟩)
    | 2, _, hq, hq', hi =>
      simp at hq hq'
      subst hq; subst hq'
      rw [h3] at hi; cases hi
      exact Or.inr (Or.inr ⟨rfl, i1, i2, rfl, rfl⟩)
  · rw [hc] at hq hq'
    match k, hk, hq, hq', hi with
    | 0, _, hq, hq', hi =>
      simp at hq hq'
      subst hq; subst hq'
      rw [h1] at hi; cases hi
      exact Or.inl ⟨rfl, rfl, rfl⟩
    | 1, _, hq, hq', hi =>
      simp at hq hq'
      subst hq; subst hq'
      rw [h2] at hi; cases hi
      exact Or.inr (Or.inl ⟨rfl, i1, rfl, rfl⟩)
    | 2, _, hq, hq', hi =>
      simp at hq hq'
      subst hq; subst hq'
      rw [h3] at hi; cases hi
      exact Or.inr (Or.inr ⟨rfl, i1, i2, rfl, rfl⟩)

/-- C10, as amended (narrowing step). When the `k`-th window query of a run (`k = 0, 1, 2`)
is `q`, with offset `i`, and a further window query `q'` follows, then `q` has the stage width
`w = End - Start = 10000 / 10^k`, and the next window begins at
`Start' = Start + (w / 10) * min(i, 9)` and ends at `End' = Start' + w / 10`. -/
theorem pairWorker_narrowing (env : Env) (o : Oracle) (triangle : Triangle)
    (k : Nat) (q q' : ArbitrageQueryParam) (i : Int) (hk : k < 3)
    (hq : (pairWorker env o triangle).calls[k]? = some q)
    (hq' : (pairWorker env o triangle).calls[k + 1]? = some q')
    (hi : sampleIndex o k (toTriangular env triangle) q = .ok i) :
    q.End - q.Start = 10000 / 10 ^ k
    ∧ q'.Start = q.Start + (q.End - q.Start) / 10 * min i 9
    ∧ q'.End = q'.Start + (q.End - q.Start) / 10 := by
  have key : ∀ (s j step : Int),
      (getArbitrageQueryParam s j step).Start = s + step * min j 9
      ∧ (getArbitrageQueryParam s j step).End = s + step * min j 9 + step := by
    intro s j step
    rw [getArbitrageQueryParam_clamped]
    exact ⟨rfl, rfl⟩
  rcases pairWorker_calls_step env o triangle k q q' i hk hq hq' hi with
    ⟨rfl, rfl, rfl⟩ | ⟨rfl, i1, rfl, rfl⟩ | ⟨rfl, i1, i2, rfl, rfl⟩
  · have h2 := key window1.Start i 1000
    have e1 : window1.Start = 0 := rfl
    have e2 : window1.End = 10000 := rfl
    simp only [window2, e1, e2] at *
    refine ⟨by norm_num, ?_, ?_⟩ <;> omega
  · have h2 := key window1.Start i1 1000
    have h3 := key (window2 i1).Start i 100
    have hw : (window2 i1).End - (window2 i1).Start = 1000 := by
      simp only [window2]; omega
    rw [hw]
    simp only [window3]
    refine ⟨by norm_num, ?_, ?_⟩ <;> omega
  · have h3 := key (window2 i1).Start i2 100
    have h4 := key (window3 i1 i2).Start i 10
    have hw : (window3 i1 i2).End - (window3 i1 i2).Start = 100 := by
      simp only [window3]; omega
    rw [hw]
    simp only [window4]
    refine ⟨by norm_num, ?_, ?_⟩ <;> omega


set_option maxRecDepth 1000000 in
/-- C8, as stated, fails: against an oracle whose four stage replies hold ten tuples with no
zero representative profit, the windows start at 0, 9000, 9900 and 9990, but the scan of the
last stage returns 10 and this offset is used as it is, not the index 9 of the last sub-step:
the resolved point is `9990 + 10 = 10000`, not 9999, and the exact-point query is issued at
10000. -/
theorem pairWorker_all_nonzero_point :
    pairWorkerStages allNonzeroOracle (toTriangular sampleEnv sampleTriangle)
      = ([⟨0, 10000, 10⟩, ⟨9000, 10000, 10⟩, ⟨9900, 10000, 10⟩, ⟨9990, 10000, 10⟩], .ok 10000)
    ∧ sampleIndex allNonzeroOracle 3 (toTriangular sampleEnv sampleTriangle) ⟨9990, 10000, 10⟩
      = .ok 10
    ∧ (pairWorker sampleEnv allNonzeroOracle sampleTriangle).calls[4]?
      = some ⟨10000, 10000, 1⟩
    ∧ (pairWorker sampleEnv allNonzeroOracle sampleTriangle).calls[4]?
      ≠ some ⟨9999, 9999, 1⟩ := by
  decide!

set_option maxRecDepth 1000000 in
/-- C10, as amended, at the first stage of the run against the all-nonzero oracle: from the
window `[0, 10000]` with offset 10 the next window is `[9000, 10000]`. -/
theorem pairWorker_narrowing_witness :
    (window2 10).Start = 0 + (10000 - 0) / 10 * min 10 9
    ∧ (window2 10).End = (window2 10).Start + (10000 - 0) / 10 :=
  (pairWorker_narrowing sampleEnv allNonzeroOracle sampleTriangle 0 window1 (window2 10) 10
    (by decide) (by decide!) (by decide!) (by decide!)).2

set_option maxRecDepth 1000000 in
/-- C10 as stated fails: it is not the case that every window query `q` with offset `i` is
followed by a window beginning at `Start + w * i` and ending `w` later, `w` the width of `q`.
Against the all-nonzero oracle the first window `[0, 10000]` has offset 10 and is followed by
`[9000, 10000]`, not by a window beginning at 100000. -/
theorem narrowing_as_specified_counterexample :
    ¬ ∀ (env : Env) (o : Oracle) (triangle : Triangle) (k : Nat)
        (q q' : ArbitrageQueryParam) (i : Int), k < 3 →
        (pairWorker env o triangle).calls[k]? = some q →
        (pairWorker env o triangle).calls[k + 1]? = some q' →
        sampleIndex o k (toTriangular env triangle) q = .ok i →
        q'.Start = q.Start + (q.End - q.Start) * i ∧ q'.End = q'.Start + (q.End - q.Start) := by
  intro h
  have h0 := h sampleEnv allNonzeroOracle sampleTriangle 0 ⟨0, 10000, 10⟩ ⟨9000, 10000, 10⟩ 10
    (by decide) (by decide!) (by decide!) (by decide!)
  revert h0
  decide

set_option maxRecDepth 1000000 in
/-- C4 (exactly one outcome per candidate), evaluated at an empty reply. When the first oracle
call returns no bytes and no error, `getRois` computes the slice length `0 - 2` and `make`
panics: the run ends after one query having sent nothing on the results channel. -/
theorem pairWorker_empty_reply :
    pairWorker sampleEnv emptyReplyOracle sampleTriangle
      = { calls := [⟨0, 10000, 10⟩], pushed := [], panicked := true } := by
  decide!

set_option maxRecDepth 1000000 in
/-- C6 against an oracle that fails at its third call (`k = 2`, query `[0, 100]`): the outcome
is that error and the run made three calls. -/
theorem pairWorker_abort_on_failure_witness :
    (pairWorker sampleEnv failingOracle sampleTriangle).pushed = [.error "execution reverted"]
    ∧ (pairWorker sampleEnv failingOracle sampleTriangle).calls.length = 3 :=
  have h := pairWorker_abort_on_failure sampleEnv failingOracle sampleTriangle 2 ⟨0, 100, 10⟩
    "execution reverted" (by decide!) rfl
  ⟨h.1, h.2.1⟩

/-! ## The call budget, the zero point and the point reply -/

/-- The widths and piece counts of the four stage windows. -/
theorem window_shapes (i1 i2 i3 : Int) :
    (window1.Pieces = 10 ∧ window1.End - window1.Start = 10000)
    ∧ ((window2 i1).Pieces = 10 ∧ (window2 i1).End - (window2 i1).Start = 1000)
    ∧ ((window3 i1 i2).Pieces = 10 ∧ (window3 i1 i2).End - (window3 i1 i2).Start = 100)
    ∧ ((window4 i1 i2 i3).Pieces = 10
        ∧ (window4 i1 i2 i3).End - (window4 i1 i2 i3).Start = 10) := by
  simp only [window1, window2, window3, window4, getArbitrageQueryParam_clamped]
  refine ⟨⟨trivial, by norm_num⟩, ⟨trivial, by ring⟩, ⟨trivial, by ring⟩, ⟨trivial, by ring⟩⟩

/-- The oracle calls of one run: at most five; the calls numbered 0 to 3 are window queries
with 10 pieces and widths 10000, 1000, 100, 10 in that order; a call numbered 4 is an
exact-point query (`Pieces = 1`, `End = Start`); and a run that neither panics nor sends an
error makes all four window queries. -/
theorem pairWorker_call_bounds (env : Env) (o : Oracle) (triangle : Triangle) :
    (pairWorker env o triangle).calls.length ≤ 5
    ∧ (∀ (k : Nat) (q : ArbitrageQueryParam), k < 4 →
        (pairWorker env o triangle).calls[k]? = some q →
        q.Pieces = 10 ∧ q.End - q.Start = 10000 / 10 ^ k)
    ∧ (∀ q : ArbitrageQueryParam, (pairWorker env o triangle).calls[4]? = some q →
        q.Pieces = 1 ∧ q.End = q.Start)
    ∧ ((pairWorker env o triangle).panicked = false →
        (∀ e, Outcome.error e ∉ (pairWorker env o triangle).pushed) →
        4 ≤ (pairWorker env o triangle).calls.length) := by
  have hw := window_shapes
  rcases pairWorker_calls_cases env o triangle with
    ⟨hc, hne⟩ | ⟨i1, h1, hc, hne⟩ | ⟨i1, i2, h1, h2, hc, hne⟩
    | ⟨i1, i2, i3, h1, h2, h3, hc, _⟩ | ⟨i1, i2, i3, i4, h1, h2, h3, h4, _, hc⟩
  · refine ⟨by rw [hc]; simp, ?_, by rw [hc]; simp, ?_⟩
    · intro k q hk hq
      rw [hc] at hq
      match k, hk, hq with
      | 0, _, hq => simp at hq; subst hq; exact ⟨rfl, by norm_num [window1, getArbitrageQueryParam]⟩
      | k + 1, _, hq => simp at hq
    · intro hp he
      exfalso
      rcases GoResult.trichotomy (sampleIndex o 0 (toTriangular env triangle) window1) with
        ⟨i, hi⟩ | ⟨e, hi⟩ | hi
      · exact hne i hi
      · rw [pairWorker_of_stages_error env o triangle _ e (pairWorkerStages_error1 o _ e hi)] at he
        exact he e (by simp)
      · rw [pairWorker_of_stages_panic env o triangle _ (pairWorkerStages_panic1 o _ hi)] at hp
        cases hp
  · refine ⟨by rw [hc]; simp, ?_, by rw [hc]; simp, ?_⟩
    · intro k q hk hq
      rw [hc] at hq
      match k, hk, hq with
      | 0, _, hq => simp at hq; subst hq; exact ⟨rfl, by norm_num [window1, getArbitrageQueryParam]⟩
      | 1, _, hq => simp at hq; subst hq; exact ⟨rfl, by rw [(hw i1 0 0).2.1.2]; norm_num⟩
      | k + 2, _, hq => simp at hq
    · intro hp he
      exfalso
      rcases GoResult.trichotomy (sampleIndex o 1 (toTriangular env triangle) (window2 i1)) with
        ⟨i, hi⟩ | ⟨e, hi⟩ | hi
      · exact hne i hi
      · rw [pairWorker_of_stages_error env o triangle _ e
          (pairWorkerStages_error2 o _ i1 e h1 hi)] at he
        exact he e (by simp)
      · rw [pairWorker_of_stages_panic env o triangle _
          (pairWorkerStages_panic2 o _ i1 h1 hi)] at hp
        cases hp
  · refine ⟨by rw [hc]; simp, ?_, by rw [hc]; simp, ?_⟩
    · intro k q hk hq
      rw [hc] at hq
      match k, hk, hq with
      | 0, _, hq => simp at hq; subst hq; exact ⟨rfl, by norm_num [window1, getArbitrageQueryParam]⟩
      | 1, _, hq => simp at hq; subst hq; exact ⟨rfl, by rw [(hw i1 0 0).2.1.2]; norm_num⟩
      | 2, _, hq => simp at hq; subst hq; exact ⟨rfl, by rw [(hw i1 i2 0).2.2.1.2]; norm_num⟩
      | k + 3, _, hq => simp at hq
    · intro hp he
      exfalso
      rcases GoResult.trichotomy
        (sampleIndex o 2 (toTriangular env triangle) (window3 i1 i2)) with
        ⟨i, hi⟩ | ⟨e, hi⟩ | hi
      · exact hne i hi
      · rw [pairWorker_of_stages_error env o triangle _ e
          (pairWorkerStages_error3 o _ i1 i2 e h1 h2 hi)] at he
        exact he e (by simp)
      · rw [pairWorker_of_stages_panic env o triangle _
          (pairWorkerStages_panic3 o _ i1 i2 h1 h2 hi)] at hp
        cases hp
  · refine ⟨by rw [hc]; simp, ?_, by rw [hc]; simp, fun _ _ => by rw [hc]; simp⟩
    intro k q hk hq
    rw [hc] at hq
    match k, hk, hq with
    | 0, _, hq => simp at hq; subst hq; exact ⟨rfl, by norm_num [window1, getArbitrageQueryParam]⟩
    | 1, _, hq => simp at hq; subst hq; exact ⟨rfl, by rw [(hw i1 0 0).2.1.2]; norm_num⟩
    | 2, _, hq => simp at hq; subst hq; exact ⟨rfl, by rw [(hw i1 i2 0).2.2.1.2]; norm_num⟩
    | 3, _, hq => simp at hq; subst hq; exact ⟨rfl, by rw [(hw i1 i2 i3).2.2.2.2]; norm_num⟩
  · refine ⟨by rw [hc]; simp, ?_, ?_, fun _ _ => by rw [hc]; simp⟩
    · intro k q hk hq
      rw [hc] at hq
      match k, hk, hq with
      | 0, _, hq => simp at hq; subst hq; exact ⟨rfl, by norm_num [window1, getArbitrageQueryParam]⟩
      | 1, _, hq => simp at hq; subst hq; exact ⟨rfl, by rw [(hw i1 0 0).2.1.2]; norm_num⟩
      | 2, _, hq => simp at hq; subst hq; exact ⟨rfl, by rw [(hw i1 i2 0).2.2.1.2]; norm_num⟩
      | 3, _, hq => simp at hq; subst hq; exact ⟨rfl, by rw [(hw i1 i2 i3).2.2.2.2]; norm_num⟩
    · intro q hq
      rw [hc] at hq
      simp at hq
      subst hq
      exact ⟨rfl, rfl⟩

/-- No word is recovered as a negative value: `SetString(_, 16)` reads the digits of a word as
an unsigned number. -/
theorem getRois_nonneg (o : Oracle) (n : Nat) (t : ITriangularArbitrageTriangular)
    (q : ArbitrageQueryParam) (rois : List (Option Int)) (h : getRois o n t q = .ok rois) :
    ∀ v : Int, some v ∈ rois → 0 ≤ v := by
  unfold getRois at h
  split at h
  · cases h
  · unfold decodeRois at h
    simp only at h
    split at h
    · cases h
    · injection h with h
      subst h
      intro v hv
      simp only [List.mem_filterMap, List.mem_range] at hv
      obtain ⟨j, _, hx⟩ := hv
      split at hx
      · injection hx with hx
        unfold SetString16 at hx
        split at hx
        · cases hx
        · simp only [Option.map_eq_some'] at hx
          obtain ⟨m, _, hm⟩ := hx
          rw [← hm]
          exact Int.ofNat_nonneg m
      · cases hx

set_option maxRecDepth 1000000 in
/-- C11, the failing run: the oracle answers the first window query with an empty reply and no
error (no oracle call fails); `pairWorker` then makes this one window query only, not four, and
panics in `getRois`. -/
theorem pairWorker_budget_empty_reply :
    emptyReplyOracle 0 (toTriangular sampleEnv sampleTriangle) ⟨0, 10000, 10⟩ = .ok []
    ∧ (pairWorker sampleEnv emptyReplyOracle sampleTriangle).calls = [⟨0, 10000, 10⟩]
    ∧ (pairWorker sampleEnv emptyReplyOracle sampleTriangle).pushed = []
    ∧ (pairWorker sampleEnv emptyReplyOracle sampleTriangle).panicked = true := by
  refine ⟨rfl, ?_, ?_, ?_⟩ <;> decide!

/-- C12 (degenerate point): when the four stages resolve to point 0, with `calls` the oracle
calls they made, `pairWorker` sends the single outcome `nil` (no opportunity) and makes no
further oracle call: its calls are the four window queries of the stages, each with 10 pieces,
and no exact-point query; the run does not panic. -/
theorem pairWorker_zero_point (env : Env) (o : Oracle) (triangle : Triangle)
    (calls : List ArbitrageQueryParam)
    (hstages : pairWorkerStages o (toTriangular env triangle) = (calls, .ok 0)) :
    (pairWorker env o triangle).pushed = [.nil]
    ∧ (pairWorker env o triangle).calls = calls
    ∧ calls.length = 4
    ∧ (∀ q ∈ (pairWorker env o triangle).calls, q.Pieces = 10)
    ∧ (pairWorker env o triangle).panicked = false := by
  rw [pairWorker_of_point_zero env o triangle calls hstages]
  have hshape : calls.length = 4 ∧ ∀ q ∈ calls, q.Pieces = 10 := by
    unfold pairWorkerStages at hstages
    simp only at hstages
    split at hstages
    · cases hstages
    · cases hstages
    · split at hstages
      · cases hstages
      · cases hstages
      · split at hstages
        · cases hstages
        · cases hstages
        · split at hstages
          · cases hstages
          · cases hstages
          · injection hstages with h1 h2
            subst h1
            refine ⟨rfl, ?_⟩
            intro q hq
            simp only [List.mem_cons, List.mem_singleton, List.not_mem_nil, or_false] at hq
            rcases hq with rfl | rfl | rfl | rfl <;> rfl
  exact ⟨rfl, rfl, hshape.1, hshape.2, rfl⟩

set_option maxRecDepth 1000000 in
/-- C12, an instance: against the oracle whose replies hold no tuple, every offset is 0, the
point is 0, and the run is four window queries at start 0 and the outcome `nil`. -/
theorem pairWorker_zero_point_witness :
    (pairWorker sampleEnv zeroPointOracle sampleTriangle).pushed = [.nil]
    ∧ (pairWorker sampleEnv zeroPointOracle sampleTriangle).calls
        = [⟨0, 10000, 10⟩, ⟨0, 1000, 10⟩, ⟨0, 100, 10⟩, ⟨0, 10, 10⟩] :=
  have h := pairWorker_zero_point sampleEnv zeroPointOracle sampleTriangle
    [⟨0, 10000, 10⟩, ⟨0, 1000, 10⟩, ⟨0, 100, 10⟩, ⟨0, 10, 10⟩] (by decide!)
  ⟨h.1, h.2.1⟩

set_option maxRecDepth 1000000 in
/-- C13, the failing run: the stages resolve to point 1 and the point query succeeds with a
reply of two header words and 13 values, so the value at index 13 is absent; `getRois` returns
the 13 values, and `pairWorker` panics at `rois[13]` and sends no outcome at all, not the
outcome `nil` (no opportunity). -/
theorem pairWorker_short_point_reply :
    pairWorkerStages (pointReplyOracle shortPointReply) (toTriangular sampleEnv sampleTriangle)
      = ([⟨0, 10000, 10⟩, ⟨0, 1000, 10⟩, ⟨0, 100, 10⟩, ⟨0, 10, 10⟩], .ok 1)
    ∧ getRois (pointReplyOracle shortPointReply) 4 (toTriangular sampleEnv sampleTriangle)
        ⟨1, 1, 1⟩ = .ok (List.replicate 13 (some 0))
    ∧ pairWorker sampleEnv (pointReplyOracle shortPointReply) sampleTriangle
      = { calls := [⟨0, 10000, 10⟩, ⟨0, 1000, 10⟩, ⟨0, 100, 10⟩, ⟨0, 10, 10⟩, ⟨1, 1, 1⟩],
          pushed := [], panicked := true } := by
  decide!

set_option maxRecDepth 1000000 in
/-- C14, the failing input: the word of 32 bytes `0xff` encodes -1 as a signed 256-bit integer,
but `getRois` recovers it as 2^256 - 1; a point reply whose profit field is that word makes
`pairWorker` send an opportunity with profit 2^256 - 1, although the profit -1 is below the
threshold 5000000. -/
theorem getRois_unsigned_word :
    signedWord minusOneWord = -1
    ∧ decodeRois (List.replicate 2 zeroWord ++ [minusOneWord]).flatten
      = .ok [some 115792089237316195423570985008687907853269984665640564039457584007913129639935]
    ∧ getRois (pointReplyOracle negativeProfitReply) 4
        (toTriangular sampleEnv sampleTriangle) ⟨1, 1, 1⟩
      = .ok (List.replicate 13 (some 0) ++
          [some 115792089237316195423570985008687907853269984665640564039457584007913129639935])
    ∧ (pairWorker sampleEnv (pointReplyOracle negativeProfitReply) sampleTriangle).pushed.map
        Outcome.profit
      = [some 115792089237316195423570985008687907853269984665640564039457584007913129639935]
      := by
  decide!

/-! ## Order of the selection -/

/-- The accepted opportunities are some of the scanned ones, in the order of the scan. -/
theorem uniquePairsFilter_sublist (l : List ROI) : (uniquePairsFilter l).Sublist l := by
  induction l using List.reverseRecOn with
  | nil => simp [uniquePairsFilter]
  | append_singleton pre x ih =>
    by_cases h : ∃ r ∈ uniquePairsFilter pre, sharesPair x r
    · rw [(uniquePairsFilter_snoc pre x).1 h]
      exact ih.trans (List.sublist_append_left _ _)
    · rw [(uniquePairsFilter_snoc pre x).2 h]
      exact List.Sublist.append ih (List.Sublist.refl _)

/-- An opportunity shares a pair address with itself. -/
theorem sharesPair_self (a : ROI) : sharesPair a a :=
  ⟨a.Triangle.Pair0, by simp [pairsOf], by simp [pairsOf]⟩

/-- No opportunity is accepted twice. -/
theorem uniquePairsFilter_nodup (l : List ROI) : (uniquePairsFilter l).Nodup := by
  refine (uniquePairsFilter_pairwise l).imp ?_
  intro a b hab heq
  exact hab (heq ▸ sharesPair_self a)

/-- C15 (profit-descending output): for every batch and every sorter that keeps the promise of
`sort.Slice`, the selected list is a sub-list of the sorted batch, hence a part of the batch
(every selected opportunity is an element of the input, with no more occurrences than there),
no opportunity is selected twice, and the profits of the selected list are in non-increasing
order. -/
theorem selectROIs_profit_descending (s : SliceSorter) (rois : List ROI) :
    (selectROIs s rois).Sublist (s.sort rois)
    ∧ (selectROIs s rois).Subperm rois
    ∧ (∀ r ∈ selectROIs s rois, r ∈ rois)
    ∧ (selectROIs s rois).Nodup
    ∧ (selectROIs s rois).Pairwise (fun a b => b.Profit ≤ a.Profit) := by
  have hsub : (selectROIs s rois).Sublist (s.sort rois) := by
    unfold selectROIs
    split
    · exact uniquePairsFilter_sublist _
    · exact List.nil_sublist _
  have hperm : (selectROIs s rois).Subperm rois :=
    hsub.subperm.trans (s.perm rois).subperm
  refine ⟨hsub, hperm, fun r hr => hperm.subset hr, ?_, ?_⟩
  · unfold selectROIs
    split
    · exact uniquePairsFilter_nodup _
    · exact List.nodup_nil
  · refine ((s.sorted rois).sublist hsub).imp ?_
    intro a b hab
    simpa [profitLess] using hab

/-- Two arrangements of opportunities with pairwise distinct profits, both in non-increasing
profit order, are equal. -/
theorem sorted_unique_of_distinct_profits (l₁ l₂ : List ROI) (hp : l₁.Perm l₂)
    (h₁ : l₁.Pairwise fun a b => profitLess b a = false)
    (h₂ : l₂.Pairwise fun a b => profitLess b a = false)
    (hd : (l₂.map ROI.Profit).Nodup) : l₁ = l₂ := by
  have hs : ∀ l : List ROI, (l.Pairwise fun a b => profitLess b a = false) →
      (l.map ROI.Profit).Sorted (· ≥ ·) := by
    intro l hl
    rw [List.Sorted, List.pairwise_map]
    refine hl.imp ?_
    intro a b hab
    simpa [profitLess] using hab
  have hmap : l₁.map ROI.Profit = l₂.map ROI.Profit :=
    List.eq_of_perm_of_sorted (hp.map ROI.Profit) (hs l₁ h₁) (hs l₂ h₂)
  apply List.ext_getElem hp.length_eq
  intro i hi₁ hi₂
  have hmem : l₁[i] ∈ l₂ := hp.subset (List.getElem_mem _)
  have hf : l₁[i].Profit = l₂[i].Profit := by
    have := congrArg (fun l => l[i]?) hmap
    simpa [List.getElem?_map, List.getElem?_eq_getElem hi₁, List.getElem?_eq_getElem hi₂]
      using this
  exact List.inj_on_of_nodup_map hd hmem (List.getElem_mem _) hf

/-- C17 (as amended): for every batch of opportunities with pairwise distinct profits and every
permutation of it (the order in which the outcomes arrived), sorting and greedy selection
produce the same selected list. -/
theorem selectROIs_order_independent (s : SliceSorter) (batch arrival : List ROI)
    (hperm : arrival.Perm batch) (hdistinct : (batch.map ROI.Profit).Nodup) :
    selectROIs s arrival = selectROIs s batch := by
  have hsort : s.sort arrival = s.sort batch := by
    apply sorted_unique_of_distinct_profits _ _ _ (s.sorted arrival) (s.sorted batch)
    · exact ((s.perm batch).map ROI.Profit).nodup_iff.2 hdistinct
    · exact ((s.perm arrival).trans hperm).trans (s.perm batch).symm
  unfold selectROIs
  rw [hsort, hperm.length_eq]

/-- C17, an instance: the batch `A`, `B`, `C` (profits 10, 8, 5) and its arrival order
`C`, `A`, `B`. -/
theorem selectROIs_order_independent_witness :
    selectROIs insertionSorter [exampleC, exampleA, exampleB]
      = selectROIs insertionSorter [exampleA, exampleB, exampleC] :=
  selectROIs_order_independent insertionSorter [exampleA, exampleB, exampleC]
    [exampleC, exampleA, exampleB] (by decide) (by decide)

set_option maxRecDepth 100000 in
/-- C17, as stated, fails: `X` and `Y` have the same profit 7 and share the pair `k`. The sort
leaves either arrival order as it is (by the library function on these inputs, and by the
insertion sorter), so the arrival order `X`, `Y` selects `X` and the arrival order `Y`, `X`
selects `Y`: the selected list depends on the order of arrival. -/
theorem selectROIs_order_dependent_counterexample :
    sortSlice [exampleX, exampleY] = some [exampleX, exampleY]
    ∧ sortSlice [exampleY, exampleX] = some [exampleY, exampleX]
    ∧ uniquePairsFilter [exampleX, exampleY] = [exampleX]
    ∧ uniquePairsFilter [exampleY, exampleX] = [exampleY]
    ∧ ¬ ∀ (s : SliceSorter) (batch arrival : List ROI), arrival.Perm batch →
        selectROIs s arrival = selectROIs s batch := by
  refine ⟨by decide, by decide, by decide, by decide, ?_⟩
  intro h
  have h0 := h insertionSorter [exampleX, exampleY] [exampleY, exampleX] (by decide)
  revert h0
  decide

/-! ## The sort of the library -/

theorem getElem?_append_cons_length {α : Type} (l1 : List α) (x : α) (l2 : List α) :
    (l1 ++ x :: l2)[l1.length]? = some x := by
  rw [List.getElem?_append_right (Nat.le_refl _)]
  simp

theorem getElem?_append_cons_succ {α : Type} (l1 : List α) (y x : α) (l2 : List α) :
    (l1 ++ y :: x :: l2)[l1.length + 1]? = some x := by
  rw [List.getElem?_append_right (by omega)]
  simp

theorem lessAt_adjacent (l1 : List ROI) (y x : ROI) (l2 : List ROI) :
    lessAt (l1 ++ y :: x :: l2) (l1.length + 1) l1.length = profitLess x y := by
  simp only [lessAt, getElem?_append_cons_succ, getElem?_append_cons_length]

theorem swapAt_adjacent (l1 : List ROI) (y x : ROI) (l2 : List ROI) :
    swapAt (l1 ++ y :: x :: l2) (l1.length + 1) l1.length = l1 ++ x :: y :: l2 := by
  simp only [swapAt, getElem?_append_cons_succ, getElem?_append_cons_length]
  rw [List.set_append_right _ _ (by omega)]
  simp only [Nat.add_sub_cancel_left, List.set_cons_succ, List.set_cons_zero]
  rw [List.set_append_right _ _ (by omega)]
  simp

/-- The inner loop of the insertion sort, started at the element after a run `pre`. -/
theorem insertionInner_eq (pre : List ROI) :
    ∀ (x : ROI) (rest : List ROI),
      insertionInner 0 pre.length (pre ++ x :: rest)
        = (insertFromRight x pre.reverse).reverse ++ rest := by
  induction pre using List.reverseRecOn with
  | nil => intro x rest; simp [insertionInner, insertFromRight]
  | append_singleton pre y ih =>
    intro x rest
    simp only [List.length_append, List.length_singleton, List.append_assoc,
      List.singleton_append, List.reverse_append, List.reverse_singleton]
    rw [insertionInner]
    simp only [lessAt_adjacent, swapAt_adjacent, insertFromRight]
    by_cases h : profitLess x y = true
    · simp only [h, and_true, if_true, Nat.succ_pos, gt_iff_lt, Nat.zero_lt_succ]
      rw [ih x (y :: rest)]
      simp
    · simp only [h, and_false, if_false]
      simp

/-- The outer loop of the insertion sort, with the run `pre` done and `rest` to do. -/
theorem insertionOuter_eq (rest : List ROI) :
    ∀ (pre : List ROI),
      insertionOuter 0 rest.length pre.length (pre ++ rest)
        = (rest.foldl (fun acc x => insertFromRight x acc) pre.reverse).reverse := by
  induction rest with
  | nil => intro pre; simp [insertionOuter]
  | cons x rest ih =>
    intro pre
    simp only [List.length_cons, insertionOuter, List.foldl_cons]
    rw [insertionInner_eq pre x rest]
    have hlen : pre.length + 1 = ((insertFromRight x pre.reverse).reverse).length := by
      have : ∀ l : List ROI, (insertFromRight x l).length = l.length + 1 := by
        intro l
        induction l with
        | nil => rfl
        | cons y ys ihl => simp only [insertFromRight]; split <;> simp [ihl]
      simp [this]
    rw [hlen, ih]
    simp

/-- The insertion sort of a whole slice. -/
theorem insertionSortLessFunc_eq (batch : List ROI) :
    insertionSortLessFunc batch 0 batch.length
      = (batch.foldl (fun acc x => insertFromRight x acc) []).reverse := by
  cases batch with
  | nil => rfl
  | cons x rest =>
    have := insertionOuter_eq rest [x]
    simpa [insertionSortLessFunc, insertFromRight] using this

theorem insertFromRight_perm (x : ROI) (l : List ROI) : (insertFromRight x l).Perm (x :: l) := by
  induction l with
  | nil => exact List.Perm.refl _
  | cons y ys ih =>
    simp only [insertFromRight]
    split
    · exact (ih.cons y).trans (List.Perm.swap x y ys)
    · exact List.Perm.refl _

theorem insertFromRight_sorted (x : ROI) (l : List ROI)
    (h : l.Pairwise fun a b => a.Profit ≤ b.Profit) :
    (insertFromRight x l).Pairwise fun a b => a.Profit ≤ b.Profit := by
  induction l with
  | nil => simp [insertFromRight]
  | cons y ys ih =>
    rw [List.pairwise_cons] at h
    simp only [insertFromRight]
    split
    · rename_i hlt
      rw [List.pairwise_cons]
      refine ⟨?_, ih h.2⟩
      intro z hz
      rcases List.mem_cons.1 ((insertFromRight_perm x ys).subset hz) with rfl | hzy
      · have : y.Profit < z.Profit := by simpa [profitLess] using hlt
        omega
      · exact h.1 z hzy
    · rename_i hge
      have hxy : x.Profit ≤ y.Profit := by simpa [profitLess] using hge
      rw [List.pairwise_cons]
      refine ⟨?_, List.pairwise_cons.2 h⟩
      intro z hz
      rcases List.mem_cons.1 hz with rfl | hz
      · exact hxy
      · exact le_trans hxy (h.1 z hz)

theorem insertFromRight_filter (x : ROI) (p : Int) (l : List ROI) :
    (insertFromRight x l).filter (fun r => decide (r.Profit = p))
      = (x :: l).filter (fun r => decide (r.Profit = p)) := by
  induction l with
  | nil => rfl
  | cons y ys ih =>
    simp only [insertFromRight]
    split
    · rename_i hlt
      have hne : y.Profit < x.Profit := by simpa [profitLess] using hlt
      rw [List.filter_cons, ih]
      by_cases hy : y.Profit = p
      · have hx : ¬ x.Profit = p := by omega
        simp [List.filter_cons, hy, hx]
      · simp [List.filter_cons, hy]
    · rfl

/-- C16 (as amended): on a batch of at most 12 opportunities, which `sort.Slice` sorts by
insertion sort, the sort returns a permutation of the batch in non-increasing profit order in
which opportunities of equal profit stand in the same relative order as in the batch. -/
theorem sortSlice_stable_short (batch : List ROI) (hshort : batch.length ≤ 12) :
    ∃ sorted, sortSlice batch = some sorted
      ∧ sorted.Perm batch
      ∧ sorted.Pairwise (fun a b => b.Profit ≤ a.Profit)
      ∧ KeepsTieOrder sorted batch := by
  refine ⟨(batch.foldl (fun acc x => insertFromRight x acc) []).reverse, ?_, ?_, ?_, ?_⟩
  · unfold sortSlice pdqsortLessFunc
    simp only [Nat.sub_zero]
    rw [if_pos hshort, insertionSortLessFunc_eq]
  · have : ∀ (l acc : List ROI),
        (l.foldl (fun acc x => insertFromRight x acc) acc).Perm (l.reverse ++ acc) := by
      intro l
      induction l with
      | nil => intro acc; exact List.Perm.refl _
      | cons x xs ih =>
        intro acc
        simp only [List.foldl_cons, List.reverse_cons, List.append_assoc, List.singleton_append]
        exact (ih _).trans (List.Perm.append_left _ (insertFromRight_perm x acc))
    have h := this batch []
    simp only [List.append_nil] at h
    exact (List.reverse_perm _).trans (h.trans (List.reverse_perm _))
  · rw [List.pairwise_reverse]
    have : ∀ (l acc : List ROI), (acc.Pairwise fun a b => a.Profit ≤ b.Profit) →
        (l.foldl (fun acc x => insertFromRight x acc) acc).Pairwise
          fun a b => a.Profit ≤ b.Profit := by
      intro l
      induction l with
      | nil => intro acc h; exact h
      | cons x xs ih => intro acc h; exact ih _ (insertFromRight_sorted x acc h)
    exact this batch [] List.Pairwise.nil
  · intro p
    have : ∀ (l acc : List ROI),
        (l.foldl (fun acc x => insertFromRight x acc) acc).filter
            (fun r => decide (r.Profit = p))
          = (l.filter (fun r => decide (r.Profit = p))).reverse
            ++ acc.filter (fun r => decide (r.Profit = p)) := by
      intro l
      induction l with
      | nil => intro acc; simp
      | cons x xs ih =>
        intro acc
        simp only [List.foldl_cons]
        rw [ih, insertFromRight_filter]
        by_cases hx : x.Profit = p <;> simp [List.filter_cons, hx]
    rw [List.filter_reverse, this batch []]
    simp

set_option maxRecDepth 1000000 in
/-- C16, an instance: the batch `Y`, `C`, `X`, `A` with the equal profits of `Y` and `X`. -/
theorem sortSlice_stable_short_witness :
    ∃ sorted, sortSlice [exampleY, exampleC, exampleX, exampleA] = some sorted
      ∧ KeepsTieOrder sorted [exampleY, exampleC, exampleX, exampleA] :=
  (sortSlice_stable_short [exampleY, exampleC, exampleX, exampleA]
    (show [exampleY, exampleC, exampleX, exampleA].length ≤ 12 by decide)).imp
    fun _ h => ⟨h.1, h.2.2.2⟩

set_option maxRecDepth 1000000 in
/-- C16, as stated, fails: on the batch of 13 opportunities with ids 0 to 12, of which the
first twelve have profit 5 and the last has profit 9, `sort.Slice` returns the ids in the order
12, 6, 2, 3, 4, 5, 0, 7, 8, 9, 10, 11, 1: the equal-profit opportunities 6 and 1 have left
their places, so the opportunities of profit 5 are not in the order of the batch. -/
theorem sortSlice_unstable_counterexample :
    sortSlice tiedBatch
      = some ([12, 6, 2, 3, 4, 5, 0, 7, 8, 9, 10, 11, 1].map fun i =>
          numberedROI i (if i = 12 then 9 else 5))
    ∧ ¬ KeepsTieOrder
        ([12, 6, 2, 3, 4, 5, 0, 7, 8, 9, 10, 11, 1].map fun i =>
          numberedROI i (if i = 12 then 9 else 5)) tiedBatch := by
  refine ⟨by decide!, ?_⟩
  intro h
  have h0 := h 5
  revert h0
  decide!

/-! ## The candidate index -/

theorem find?_setEntry {V : Type} (key : String) (value : V) (key' : String) :
    ∀ l : List (String × V),
      ((setEntry key value l).find? fun e => e.1 = key')
        = if key' = key then some (key, value) else l.find? fun e => e.1 = key' := by
  intro l
  induction l with
  | nil =>
    by_cases h : key' = key
    · simp [setEntry, h]
    · have : ¬ key = key' := fun h' => h h'.symm
      simp [setEntry, h, this]
  | cons e rest ih =>
    obtain ⟨k, v⟩ := e
    simp only [setEntry]
    by_cases hk : k = key
    · subst hk
      by_cases h : key' = k
      · subst h; simp
      · have : ¬ k = key' := fun h' => h h'.symm
        simp [h, this]
    · simp only [hk, if_false, List.find?_cons]
      by_cases h : k = key'
      · subst h
        have : ¬ k = key := hk
        simp [this]
      · simp only [h, decide_False, ih]

/-- `Get` after `Set`: the new value under the key, the old values elsewhere. -/
theorem ConcurrentMap.Get_Set {V : Type} (m : ConcurrentMap V) (key : String) (value : V)
    (key' : String) :
    (m.Set key value).Get key' = if key' = key then some value else m.Get key' := by
  simp only [ConcurrentMap.Get, ConcurrentMap.Set, find?_setEntry]
  split <;> rfl

theorem mem_setEntry {V : Type} (key : String) (value : V) (e : String × V) :
    ∀ l : List (String × V), e ∈ setEntry key value l → e = (key, value) ∨ e ∈ l := by
  intro l
  induction l with
  | nil => intro h; simpa [setEntry] using h
  | cons x rest ih =>
    obtain ⟨k, v⟩ := x
    intro h
    simp only [setEntry] at h
    split at h
    · rcases List.mem_cons.1 h with h | h
      · exact Or.inl h
      · exact Or.inr (List.mem_cons_of_mem _ h)
    · rcases List.mem_cons.1 h with h | h
      · exact Or.inr (h ▸ List.mem_cons_self _ _)
      · rcases ih h with h | h
        · exact Or.inl h
        · exact Or.inr (List.mem_cons_of_mem _ h)

/-- A value that `Get` returns is the value of an entry. -/
theorem ConcurrentMap.mem_of_Get {V : Type} (m : ConcurrentMap V) (key : String) (value : V)
    (h : m.Get key = some value) : (key, value) ∈ m.entries := by
  simp only [ConcurrentMap.Get, Option.map_eq_some'] at h
  obtain ⟨e, he, hv⟩ := h
  have hk := List.find?_some he
  have hm := List.mem_of_find?_eq_some he
  simp only [decide_eq_true_eq] at hk
  obtain ⟨k, v⟩ := e
  simp only at hk hv
  subst hk; subst hv
  exact hm

/-- `Contains` after `Add`. -/
theorem IdSet.Contains_Add (s : IdSet) (value value' : String) :
    (s.Add value).Contains value' = (decide (value' = value) || s.Contains value') := by
  simp only [IdSet.Contains, IdSet.Add, ConcurrentMap.Get_Set]
  by_cases h : value' = value <;> simp [h]

/-- `AddTriangle` does not touch the reverse index. -/
theorem PairCache.GetPairSet_AddTriangle (pc : PairCache) (id : String) (triangle : Triangle)
    (pair : String) : (pc.AddTriangle id triangle).GetPairSet pair = pc.GetPairSet pair := rfl

/-- `GetTriangle` after `AddTriangle`. -/
theorem PairCache.GetTriangle_AddTriangle (pc : PairCache) (id : String) (triangle : Triangle)
    (id' : String) :
    (pc.AddTriangle id triangle).GetTriangle id'
      = if id' = id then (triangle, true) else pc.GetTriangle id' := by
  simp only [PairCache.GetTriangle, PairCache.AddTriangle, ConcurrentMap.Get_Set]
  by_cases h : id' = id
  · simp only [h, if_true]
  · simp only [h, if_false]

/-- `AddPairTriangle` does not touch the forward map. -/
theorem PairCache.TriangleMap_AddPairTriangle (pc : PairCache) (pair id : String) :
    (pc.AddPairTriangle pair id).TriangleMap = pc.TriangleMap := by
  unfold PairCache.AddPairTriangle
  split <;> rfl

theorem PairCache.GetTriangle_AddPairTriangle (pc : PairCache) (pair id id' : String) :
    (pc.AddPairTriangle pair id).GetTriangle id' = pc.GetTriangle id' := by
  simp only [PairCache.GetTriangle, PairCache.TriangleMap_AddPairTriangle]

/-- `GetPairSet` after `AddPairTriangle`: the id is added to the set under `pair`, the other
sets stay. -/
theorem PairCache.GetPairSet_AddPairTriangle (pc : PairCache) (pair id pair' : String) :
    (pc.AddPairTriangle pair id).GetPairSet pair'
      = if pair' = pair then (pc.GetPairSet pair).Add id else pc.GetPairSet pair' := by
  unfold PairCache.AddPairTriangle PairCache.GetPairSet
  cases h : pc.PairTriangleMap.Get pair with
  | none =>
    simp only [ConcurrentMap.Get_Set]
    by_cases hp : pair' = pair
    · simp [hp]
    · simp [hp]
  | some set =>
    simp only [ConcurrentMap.Get_Set]
    by_cases hp : pair' = pair
    · simp [hp]
    · simp [hp]

/-- Membership in a reverse-index set after `AddPairTriangle`. -/
theorem PairCache.Contains_AddPairTriangle (pc : PairCache) (pair id pair' id' : String) :
    ((pc.AddPairTriangle pair id).GetPairSet pair').Contains id'
      = ((decide (pair' = pair) && decide (id' = id)) || (pc.GetPairSet pair').Contains id') := by
  rw [PairCache.GetPairSet_AddPairTriangle]
  by_cases hp : pair' = pair
  · subst hp
    simp [IdSet.Contains_Add]
  · simp [hp]

/-- The normalisation keeps the id of the row. -/
theorem normalizeRow_ID (env : Env) (row : Triangle) : (normalizeRow env row).ID = row.ID := rfl

/-- `GetTriangle` after one row of `fetchTriangleMap`. -/
theorem GetTriangle_fetchRow (env : Env) (pc : PairCache) (row : Triangle) (id : String) :
    (fetchRow env pc row).GetTriangle id
      = if id = FormatInt10 row.ID then (normalizeRow env row, true) else pc.GetTriangle id := by
  simp only [fetchRow, PairCache.GetTriangle_AddPairTriangle, PairCache.GetTriangle_AddTriangle,
    normalizeRow_ID]

/-- Membership in a reverse-index set after one row of `fetchTriangleMap`. -/
theorem Contains_fetchRow (env : Env) (pc : PairCache) (row : Triangle) (pair id : String) :
    ((fetchRow env pc row).GetPairSet pair).Contains id = true
      ↔ (id = FormatInt10 row.ID ∧ (normalizeRow env row).hasPair pair)
        ∨ (pc.GetPairSet pair).Contains id = true := by
  simp only [fetchRow, PairCache.Contains_AddPairTriangle, PairCache.GetPairSet_AddTriangle,
    normalizeRow_ID, Triangle.hasPair, Bool.or_eq_true, Bool.and_eq_true, decide_eq_true_eq]
  constructor
  · rintro (⟨hp, hi⟩ | ⟨hp, hi⟩ | ⟨hp, hi⟩ | h)
    · exact Or.inl ⟨hi, Or.inr (Or.inr hp.symm)⟩
    · exact Or.inl ⟨hi, Or.inr (Or.inl hp.symm)⟩
    · exact Or.inl ⟨hi, Or.inl hp.symm⟩
    · exact Or.inr h
  · rintro (⟨hi, hp | hp | hp⟩ | h)
    · exact Or.inr (Or.inr (Or.inl ⟨hp.symm, hi⟩))
    · exact Or.inr (Or.inl ⟨hp.symm, hi⟩)
    · exact Or.inl ⟨hp.symm, hi⟩
    · exact Or.inr (Or.inr (Or.inr h))

/-- `GetTriangle` after `fetchTriangleMap`, for an id that is not among the rows. -/
theorem GetTriangle_fetchTriangleMap_other (env : Env) (rows : List Triangle) (id : String)
    (hid : ∀ row ∈ rows, FormatInt10 row.ID ≠ id) :
    ∀ pc, (fetchTriangleMap env pc rows).GetTriangle id = pc.GetTriangle id := by
  induction rows with
  | nil => intro pc; rfl
  | cons row rows ih =>
    intro pc
    have h1 : FormatInt10 row.ID ≠ id := hid row (List.mem_cons_self _ _)
    have h2 := ih (fun r hr => hid r (List.mem_cons_of_mem _ hr)) (fetchRow env pc row)
    simp only [fetchTriangleMap, List.foldl_cons] at h2 ⊢
    rw [h2, GetTriangle_fetchRow, if_neg (fun h => h1 h.symm)]

/-- `GetTriangle` after `fetchTriangleMap`, for the id of a row, when the ids are distinct. -/
theorem GetTriangle_fetchTriangleMap_row (env : Env) (rows : List Triangle)
    (hids : (rows.map fun row => FormatInt10 row.ID).Nodup) (row : Triangle) (hrow : row ∈ rows) :
    ∀ pc, (fetchTriangleMap env pc rows).GetTriangle (FormatInt10 row.ID)
      = (normalizeRow env row, true) := by
  induction rows with
  | nil => cases hrow
  | cons r rows ih =>
    intro pc
    simp only [List.map_cons, List.nodup_cons, List.mem_map, not_exists, not_and] at hids
    rcases List.mem_cons.1 hrow with h | h
    · subst h
      have h2 := GetTriangle_fetchTriangleMap_other env rows (FormatInt10 row.ID)
        (fun r hr => hids.1 r hr) (fetchRow env pc row)
      simp only [fetchTriangleMap, List.foldl_cons] at h2 ⊢
      rw [h2, GetTriangle_fetchRow, if_pos rfl]
    · have h2 := ih hids.2 h (fetchRow env pc r)
      simpa only [fetchTriangleMap, List.foldl_cons] using h2

/-- Membership in a reverse-index set after `fetchTriangleMap`: the earlier members, and the
ids of the rows under their pair addresses. -/
theorem Contains_fetchTriangleMap (env : Env) (rows : List Triangle) (pair id : String) :
    ∀ pc, ((fetchTriangleMap env pc rows).GetPairSet pair).Contains id = true
      ↔ (∃ row ∈ rows, id = FormatInt10 row.ID ∧ (normalizeRow env row).hasPair pair)
        ∨ (pc.GetPairSet pair).Contains id = true := by
  induction rows with
  | nil => intro pc; simp [fetchTriangleMap]
  | cons r rows ih =>
    intro pc
    have h2 := ih (fetchRow env pc r)
    simp only [fetchTriangleMap, List.foldl_cons] at h2 ⊢
    rw [h2, Contains_fetchRow]
    constructor
    · rintro (⟨row, hr, hx⟩ | ⟨hi, hp⟩ | h)
      · exact Or.inl ⟨row, List.mem_cons_of_mem _ hr, hx⟩
      · exact Or.inl ⟨r, List.mem_cons_self _ _, hi, hp⟩
      · exact Or.inr h
    · rintro (⟨row, hr, hx⟩ | h)
      · rcases List.mem_cons.1 hr with h | h
        · subst h
          exact Or.inr (Or.inl hx)
        · exact Or.inl ⟨row, h, hx⟩
      · exact Or.inr (Or.inr h)

/-- Several runs of `fetchTriangleMap` one after the other are one run over the rows of all of
them. -/
theorem fetchTriangleMap_builds (env : Env) (builds : List (List Triangle)) :
    ∀ pc, builds.foldl (fetchTriangleMap env) pc = fetchTriangleMap env pc builds.flatten := by
  induction builds with
  | nil => intro pc; rfl
  | cons rows builds ih =>
    intro pc
    simp only [List.foldl_cons, List.flatten_cons, ih]
    simp only [fetchTriangleMap, List.foldl_append]

/-- The empty index has no entries to account for. -/
theorem Provenance_NewPairCache (env : Env) : Provenance env [] NewPairCache := by
  refine ⟨?_, ?_, ?_⟩
  · intro e he; cases he
  · intro id triangle h; cases h
  · intro row hr; cases hr

/-- The update `AddTriangle` of a row keeps the provenance, with the row added. -/
theorem Provenance_AddTriangle (env : Env) (done : List Triangle) (pc : PairCache)
    (row : Triangle) (h : Provenance env done pc) :
    Provenance env (done ++ [row])
      (pc.AddTriangle (FormatInt10 row.ID) (normalizeRow env row)) := by
  obtain ⟨h1, h2, h3⟩ := h
  refine ⟨?_, ?_, ?_⟩
  · intro e he i hi
    obtain ⟨r, hr, hx⟩ := h1 e he i hi
    exact ⟨r, List.mem_append_left _ hr, hx⟩
  · intro id triangle hg
    simp only [PairCache.AddTriangle, ConcurrentMap.Get_Set] at hg
    by_cases hid : id = FormatInt10 row.ID
    · simp only [hid, if_true, Option.some.injEq] at hg
      exact ⟨row, List.mem_append_right _ (List.mem_singleton_self _), hid.symm, hg.symm⟩
    · simp only [hid, if_false] at hg
      obtain ⟨r, hr, hx⟩ := h2 id triangle hg
      exact ⟨r, List.mem_append_left _ hr, hx⟩
  · intro r hr
    simp only [PairCache.AddTriangle, ConcurrentMap.Get_Set]
    by_cases hid : FormatInt10 r.ID = FormatInt10 row.ID
    · simp only [hid, if_true, Option.isSome_some]
    · simp only [hid, if_false]
      rcases List.mem_append.1 hr with hr | hr
      · exact h3 r hr
      · rw [List.mem_singleton] at hr
        exact absurd (by rw [hr]) hid

/-- The update `AddPairTriangle` for a pair address of a row keeps the provenance. -/
theorem Provenance_AddPairTriangle (env : Env) (done : List Triangle) (pc : PairCache)
    (pair id : String) (h : Provenance env done pc)
    (hrow : ∃ row ∈ done, FormatInt10 row.ID = id ∧ (normalizeRow env row).hasPair pair) :
    Provenance env done (pc.AddPairTriangle pair id) := by
  obtain ⟨h1, h2, h3⟩ := h
  refine ⟨?_, ?_, ?_⟩
  · intro e he i hi
    unfold PairCache.AddPairTriangle at he
    cases hget : pc.PairTriangleMap.Get pair with
    | none =>
      simp only [hget, ConcurrentMap.Set] at he
      rcases mem_setEntry _ _ _ _ he with he | he
      · subst he
        simp only [NewSet, IdSet.Add, ConcurrentMap.Set, ConcurrentMap.New, setEntry,
          List.mem_singleton] at hi
        subst hi
        exact hrow
      · exact h1 e he i hi
    | some set =>
      simp only [hget, ConcurrentMap.Set] at he
      rcases mem_setEntry _ _ _ _ he with he | he
      · subst he
        simp only [IdSet.Add, ConcurrentMap.Set] at hi
        rcases mem_setEntry _ _ _ _ hi with hi | hi
        · subst hi
          exact hrow
        · exact h1 (pair, set) (ConcurrentMap.mem_of_Get _ _ _ hget) i hi
      · exact h1 e he i hi
  · intro id' triangle hg
    rw [PairCache.TriangleMap_AddPairTriangle] at hg
    exact h2 id' triangle hg
  · intro r hr
    rw [PairCache.TriangleMap_AddPairTriangle]
    exact h3 r hr

/-- One row of `fetchTriangleMap` keeps the provenance, with the row added. -/
theorem Provenance_fetchRow (env : Env) (done : List Triangle) (pc : PairCache)
    (row : Triangle) (h : Provenance env done pc) :
    Provenance env (done ++ [row]) (fetchRow env pc row) := by
  have hmem : row ∈ done ++ [row] := List.mem_append_right _ (List.mem_singleton_self _)
  unfold fetchRow
  simp only [normalizeRow_ID]
  refine Provenance_AddPairTriangle env _ _ _ _
    (Provenance_AddPairTriangle env _ _ _ _
      (Provenance_AddPairTriangle env _ _ _ _ (Provenance_AddTriangle env done pc row h)
        ⟨row, hmem, rfl, Or.inl rfl⟩)
      ⟨row, hmem, rfl, Or.inr (Or.inl rfl)⟩)
    ⟨row, hmem, rfl, Or.inr (Or.inr rfl)⟩

/-- A run of `fetchTriangleMap` keeps the provenance, with its rows added. -/
theorem Provenance_fetchTriangleMap (env : Env) (rows : List Triangle) :
    ∀ (done : List Triangle) (pc : PairCache), Provenance env done pc →
      Provenance env (done ++ rows) (fetchTriangleMap env pc rows) := by
  induction rows with
  | nil => intro done pc h; simpa [fetchTriangleMap] using h
  | cons row rows ih =>
    intro done pc h
    have h2 := ih (done ++ [row]) (fetchRow env pc row) (Provenance_fetchRow env done pc row h)
    simpa only [fetchTriangleMap, List.foldl_cons, List.append_assoc, List.singleton_append]
      using h2

/-- The index invariant follows from the provenance when rows with the same id have the same
pair addresses. -/
theorem IndexInvariant_of_Provenance (env : Env) (done : List Triangle) (pc : PairCache)
    (h : Provenance env done pc)
    (hsame : ∀ r1 ∈ done, ∀ r2 ∈ done, FormatInt10 r1.ID = FormatInt10 r2.ID →
      ∀ pair, (normalizeRow env r1).hasPair pair → (normalizeRow env r2).hasPair pair) :
    IndexInvariant pc := by
  obtain ⟨h1, h2, h3⟩ := h
  intro e he i hi
  obtain ⟨r1, hr1, hid1, hp1⟩ := h1 e he i hi
  have hsome := h3 r1 hr1
  rw [hid1] at hsome
  obtain ⟨triangle, hget⟩ := Option.isSome_iff_exists.1 hsome
  obtain ⟨r2, hr2, hid2, ht⟩ := h2 i.1 triangle hget
  refine ⟨triangle, hget, ?_⟩
  rw [ht]
  exact hsame r1 hr1 r2 hr2 (hid1.trans hid2.symm) e.1 hp1

/-- C18 (as amended): after any sequence of builds and rebuilds by `fetchTriangleMap` from the
empty index in which rows with the same id (the same key `FormatInt(id, 10)`, which determines
the id) have the same pair addresses, every id contained in a reverse-index set of
`PairTriangleMap` exists in `TriangleMap`, and the candidate stored under that id has the pair
address of the set as `Pair0`, `Pair1` or `Pair2`. -/
theorem fetchTriangleMap_index_invariant (env : Env) (builds : List (List Triangle))
    (hsame : ∀ r1 ∈ builds.flatten, ∀ r2 ∈ builds.flatten,
      FormatInt10 r1.ID = FormatInt10 r2.ID →
      ∀ pair, (normalizeRow env r1).hasPair pair → (normalizeRow env r2).hasPair pair) :
    IndexInvariant (builds.foldl (fetchTriangleMap env) NewPairCache) := by
  rw [fetchTriangleMap_builds]
  have h := Provenance_fetchTriangleMap env builds.flatten [] NewPairCache
    (Provenance_NewPairCache env)
  rw [List.nil_append] at h
  exact IndexInvariant_of_Provenance env builds.flatten _ h hsame

set_option maxRecDepth 100000 in
/-- C18, an instance: a first build of row 1 and a rebuild of the unchanged row 1 together with
a new row 2 leave the index invariant in force. -/
theorem fetchTriangleMap_index_invariant_witness :
    IndexInvariant
      ([[sampleRow 1 "0x11" "0x12" "0x13"], [sampleRow 1 "0x11" "0x12" "0x13", secondRow]].foldl
        (fetchTriangleMap indexEnv) NewPairCache) :=
  fetchTriangleMap_index_invariant indexEnv
    [[sampleRow 1 "0x11" "0x12" "0x13"], [sampleRow 1 "0x11" "0x12" "0x13", secondRow]]
    (by
      intro r1 h1 r2 h2 hid pair hp
      simp only [List.flatten, List.append_nil, List.cons_append, List.nil_append,
        List.mem_cons, List.mem_singleton, List.not_mem_nil, or_false] at h1 h2
      rcases h1 with rfl | rfl | rfl <;> rcases h2 with rfl | rfl | rfl <;>
        first | exact hp | exact absurd hid (by decide))

set_option maxRecDepth 100000 in
/-- C18, as stated, fails: after a first build of row 1 with pairs `0x11`, `0x12`, `0x13` (where
the invariant holds) and a rebuild in which row 1 has the pairs `0x21`, `0x12`, `0x13`, the
reverse-index set of pair `0x…11` still contains the id `1`, the candidate stored under `1` does
not have that pair, and the invariant is broken. -/
theorem fetchTriangleMap_stale_reverse_counterexample :
    IndexInvariant firstBuild
    ∧ ((fetchTriangleMap indexEnv firstBuild [sampleRow 1 "0x21" "0x12" "0x13"]).GetPairSet
        "0x0000000000000000000000000000000000000011").Contains "1" = true
    ∧ ¬ ((fetchTriangleMap indexEnv firstBuild [sampleRow 1 "0x21" "0x12" "0x13"]).GetTriangle
        "1").1.hasPair "0x0000000000000000000000000000000000000011"
    ∧ ¬ IndexInvariant
        (fetchTriangleMap indexEnv firstBuild [sampleRow 1 "0x21" "0x12" "0x13"]) := by
  decide

/-- C19 (as amended): a rebuild by `fetchTriangleMap` from rows with distinct ids adds the rows
to the index it finds. Afterwards the forward map holds, under the id of every row, the
normalised row; under every other id it holds what it held before; and a reverse-index set
contains an id exactly when it contained it before or the id is that of a row with that pair
address. Nothing is removed. -/
theorem fetchTriangleMap_adds_rows (env : Env) (pc : PairCache) (rows : List Triangle)
    (hids : (rows.map fun row => FormatInt10 row.ID).Nodup) :
    (∀ row ∈ rows, (fetchTriangleMap env pc rows).GetTriangle (FormatInt10 row.ID)
        = (normalizeRow env row, true))
    ∧ (∀ id, (∀ row ∈ rows, FormatInt10 row.ID ≠ id) →
        (fetchTriangleMap env pc rows).GetTriangle id = pc.GetTriangle id)
    ∧ (∀ pair id, ((fetchTriangleMap env pc rows).GetPairSet pair).Contains id = true
        ↔ (∃ row ∈ rows, id = FormatInt10 row.ID ∧ (normalizeRow env row).hasPair pair)
          ∨ (pc.GetPairSet pair).Contains id = true) :=
  ⟨fun row hrow => GetTriangle_fetchTriangleMap_row env rows hids row hrow pc,
   fun id hid => GetTriangle_fetchTriangleMap_other env rows id hid pc,
   fun pair id => Contains_fetchTriangleMap env rows pair id pc⟩

set_option maxRecDepth 100000 in
/-- C19, an instance: the rebuild of the first sample build from the single row 2. -/
theorem fetchTriangleMap_adds_rows_witness :
    ([secondRow].map fun row => FormatInt10 row.ID).Nodup
    ∧ (fetchTriangleMap indexEnv firstBuild [secondRow]).GetTriangle "1"
        = firstBuild.GetTriangle "1" :=
  ⟨by decide,
   (fetchTriangleMap_adds_rows indexEnv firstBuild [secondRow] (by decide)).2.1 "1" (by decide)⟩

set_option maxRecDepth 100000 in
/-- C19, as stated, fails: after a first build of row 1 and a rebuild from a backing collection
that holds row 2 only, the forward map still returns the candidate 1 and counts 2 candidates,
the reverse index still has the id `1` under pair `0x…11` and counts 6 pair addresses, and the
index differs from the one built from that collection alone. -/
theorem fetchTriangleMap_keeps_old_counterexample :
    (fetchTriangleMap indexEnv firstBuild [secondRow]).GetTriangle "1"
      = (normalizeRow indexEnv (sampleRow 1 "0x11" "0x12" "0x13"), true)
    ∧ (fetchTriangleMap indexEnv firstBuild [secondRow]).TriangleMapSize = 2
    ∧ ((fetchTriangleMap indexEnv firstBuild [secondRow]).GetPairSet
        "0x0000000000000000000000000000000000000011").Contains "1" = true
    ∧ (fetchTriangleMap indexEnv firstBuild [secondRow]).PairTriangleMapSize = 6
    ∧ fetchTriangleMap indexEnv firstBuild [secondRow]
      ≠ fetchTriangleMap indexEnv NewPairCache [secondRow] := by
  decide

/-! ## The packed encoding -/

theorem GoResult.bind_eq_ok {α β : Type} {x : GoResult α} {f : α → GoResult β} {b : β}
    (h : (x >>= f) = .ok b) : ∃ a, x = .ok a ∧ f a = .ok b := by
  cases x with
  | ok a => exact ⟨a, rfl, h⟩
  | error e => cases h
  | panic => cases h

/-- On an encodable value the loop of `EncodePackedBsc` appends what the value adds. -/
theorem encodeStep_packed (env : Env) (encoded : String) (v : Value) (h : v.Encodable) :
    encodeStep env encoded v = .ok (encoded ++ v.packed env) := by
  cases v with
  | str s => rfl
  | wei w =>
    obtain ⟨h1, h2⟩ := h
    simp only [encodeStep, Value.packed]
    rw [if_neg (by omega)]
    have : ((w.Data.length : Int) - Int.tdiv w.BitSize 4).toNat
        = w.Data.length - (Int.tdiv w.BitSize 4).toNat := by omega
    rw [this]
  | address a => rfl
  | other n => exact absurd h id

theorem foldlM_encodeStep_packed (env : Env) (values : List Value) :
    ∀ encoded, (∀ v ∈ values, v.Encodable) →
      values.foldlM (encodeStep env) encoded = GoResult.ok (encoded ++ packedConcat env values) := by
  induction values with
  | nil => intro encoded _; simp [packedConcat]
  | cons v vs ih =>
    intro encoded h
    rw [List.foldlM_cons]
    show (encodeStep env encoded v).bind _ = _
    rw [encodeStep_packed env encoded v (h v (by simp))]
    show vs.foldlM (encodeStep env) (encoded ++ v.packed env) = _
    rw [ih _ (fun x hx => h x (by simp [hx]))]
    simp only [packedConcat, List.map_cons, List.foldr_cons, String.append_assoc]

theorem packedConcat_append (env : Env) (xs ys : List Value) :
    packedConcat env (xs ++ ys) = packedConcat env xs ++ packedConcat env ys := by
  induction xs with
  | nil => simp [packedConcat]
  | cons x xs ih =>
    simp only [packedConcat, List.map_cons, List.foldr_cons, List.cons_append] at ih ⊢
    rw [ih, String.append_assoc]

/-- The method `Hex()` of an address gives 42 characters: `0x` and 40 digits. -/
theorem Address.Hex_drop_length (env : Env) (a : Address) :
    ((Address.Hex env a).drop 2).length = 40 := by
  simp only [Address.Hex, List.drop_succ_cons, List.drop_zero, List.length_zipWith,
    hexEncode_length, a.property, List.length_flatMap, List.length_cons, List.length_nil]
  have h : ∀ l : Bytes,
      (List.map (List.length ∘ fun b : Fin 256 => [b.val / 16, b.val % 16]) l).sum
        = 2 * l.length := by
    intro l
    induction l with
    | nil => rfl
    | cons x xs ih => simp only [List.map_cons, List.sum_cons, ih, Function.comp,
        List.length_cons, List.length_nil]; omega
  rw [h, env.Keccak256_size]
  decide

/-- The string the loop reaches and the result with both values agree: success with the same
string, an error with the empty string, a panic. -/
theorem encodeLoop_eq (env : Env) (values : List Value) :
    ∀ encoded, encodeLoop env encoded values
      = returnPair (values.foldlM (encodeStep env) encoded) := by
  induction values with
  | nil => intro encoded; rfl
  | cons v vs ih =>
    intro encoded
    rw [List.foldlM_cons]
    show _ = returnPair ((encodeStep env encoded v).bind _)
    cases v with
    | str s => exact ih _
    | wei w =>
      simp only [encodeLoop, encodeStep]
      split
      · rfl
      · exact ih _
    | address a => exact ih _
    | other n => rfl

/-- With every `Wei` in range, the loop ends in the error return exactly at an unsupported
value. -/
theorem encodeLoop_unsupported (env : Env) (values : List Value)
    (hw : ∀ w, Value.wei w ∈ values →
      0 ≤ Int.tdiv w.BitSize 4 ∧ Int.tdiv w.BitSize 4 ≤ w.Data.length)
    (h : ∃ v ∈ values, ¬ v.Supported) :
    ∀ encoded, ∃ e, encodeLoop env encoded values = .ok ("", some e) := by
  induction values with
  | nil => obtain ⟨v, hv, _⟩ := h; cases hv
  | cons v vs ih =>
    intro encoded
    have hrest : (∃ x ∈ vs, ¬ x.Supported) → ∀ enc, ∃ e, encodeLoop env enc vs = .ok ("", some e) :=
      fun hx => ih (fun w hmem => hw w (List.mem_cons_of_mem _ hmem)) hx
    have htail : v.Supported → ∃ x ∈ vs, ¬ x.Supported := by
      intro hv
      obtain ⟨x, hx, hns⟩ := h
      rcases List.mem_cons.1 hx with rfl | hx
      · exact absurd hv hns
      · exact ⟨x, hx, hns⟩
    cases v with
    | str s => exact hrest (htail trivial) _
    | wei w =>
      obtain ⟨h1, h2⟩ := hw w (List.mem_cons_self _ _)
      simp only [encodeLoop]
      rw [if_neg (by omega)]
      exact hrest (htail trivial) _
    | address a => exact hrest (htail trivial) _
    | other n => exact ⟨_, rfl⟩

theorem Value.encodable_of_supported (v : Value) (hs : v.Supported)
    (hw : ∀ w, v = Value.wei w →
      0 ≤ Int.tdiv w.BitSize 4 ∧ Int.tdiv w.BitSize 4 ≤ w.Data.length) : v.Encodable := by
  cases v with
  | str s => trivial
  | wei w => exact hw w rfl
  | address a => trivial
  | other n => exact absurd hs id

/-- C21 (as amended): for every list in which each value is a string, a `Wei` with
`0 ≤ BitSize/4` whose `Data` has at least `BitSize/4` characters, or an address,
`EncodePackedBsc` succeeds and returns the concatenation, in list order, of what each value
adds: a string adds itself, a `Wei` exactly the last `BitSize/4` characters of its `Data`, an
address the 40 digits of its `Hex()` without the leading `0x`; and the encoding of `xs ++ ys` is
the encoding of `xs` followed by the encoding of `ys`. -/
theorem EncodePackedBsc_concat (env : Env) (xs ys : List Value)
    (hx : ∀ v ∈ xs, v.Encodable) (hy : ∀ v ∈ ys, v.Encodable) :
    EncodePackedBsc env xs = .ok (packedConcat env xs)
    ∧ EncodePackedBsc env ys = .ok (packedConcat env ys)
    ∧ EncodePackedBsc env (xs ++ ys) = .ok (packedConcat env xs ++ packedConcat env ys)
    ∧ (∀ v vs, packedConcat env (v :: vs) = v.packed env ++ packedConcat env vs)
    ∧ (∀ s, (Value.str s).packed env = s)
    ∧ (∀ w, (Value.wei w).Encodable →
        (((Value.wei w).packed env).length : Int) = Int.tdiv w.BitSize 4
        ∧ ∃ front, w.Data.data = front ++ ((Value.wei w).packed env).data)
    ∧ (∀ a, ((Value.address a).packed env).length = 40
        ∧ Address.Hex env a = '0' :: 'x' :: ((Value.address a).packed env).data) := by
  have hone : ∀ zs : List Value, (∀ v ∈ zs, v.Encodable) →
      EncodePackedBsc env zs = .ok (packedConcat env zs) := by
    intro zs hz
    unfold EncodePackedBsc
    rw [foldlM_encodeStep_packed env zs "" hz, String.empty_append]
  refine ⟨hone xs hx, hone ys hy, ?_, fun _ _ => rfl, fun _ => rfl, ?_, ?_⟩
  · rw [← packedConcat_append]
    apply hone
    intro v hv
    rcases List.mem_append.1 hv with h | h
    · exact hx v h
    · exact hy v h
  · intro w ⟨h1, h2⟩
    refine ⟨?_, w.Data.data.take (w.Data.length - (Int.tdiv w.BitSize 4).toNat), ?_⟩
    · show (((w.Data.data.drop (w.Data.length - (Int.tdiv w.BitSize 4).toNat)).length : Nat) : Int)
        = _
      rw [List.length_drop]
      have : w.Data.data.length = w.Data.length := rfl
      omega
    · exact (List.take_append_drop _ _).symm
  · intro a
    exact ⟨Address.Hex_drop_length env a, rfl⟩

/-- C21, an instance: a string, a `Wei` of bit size 8 with four characters of `Data`, and the
zero address. -/
theorem EncodePackedBsc_concat_witness :
    EncodePackedBsc sampleEnv
        ([.str "ab", .wei { BitSize := 8, Data := "0123" }]
          ++ [.address (sampleEnv.HexToAddress "0x00")])
      = .ok (packedConcat sampleEnv [.str "ab", .wei { BitSize := 8, Data := "0123" }]
          ++ packedConcat sampleEnv [.address (sampleEnv.HexToAddress "0x00")]) :=
  (EncodePackedBsc_concat sampleEnv [.str "ab", .wei { BitSize := 8, Data := "0123" }]
    [.address (sampleEnv.HexToAddress "0x00")]
    (by
      intro v hv
      simp only [List.mem_cons, List.mem_singleton, List.not_mem_nil, or_false] at hv
      rcases hv with rfl | rfl
      · trivial
      · exact ⟨by decide, by decide⟩)
    (by
      intro v hv
      simp only [List.mem_singleton] at hv
      subst hv
      trivial)).2.2.1

/-- C21, as stated, fails: the `Wei` with bit size -4 and empty `Data` has at least
`BitSize/4 = -1` characters of `Data`, yet `EncodePackedBsc` does not succeed on it: the slice
expression `Data[len(Data)-BitSize/4:]` is `Data[1:]` on the empty string, a run-time panic. -/
theorem EncodePackedBsc_negative_bitsize_counterexample :
    Int.tdiv negativeWei.BitSize 4 ≤ negativeWei.Data.length
    ∧ EncodePackedBsc sampleEnv [.wei negativeWei] = .panic := by
  decide

/-- C28 (as amended): for every list in which each `Wei` has `0 ≤ BitSize/4` and at least
`BitSize/4` characters of `Data`, `EncodePackedBsc` returns (it does not panic); it returns an
error if and only if the list contains a value that is not a string, a `*Wei` or an address;
when it returns an error the returned string is empty, whatever values preceded the unsupported
one; and when it returns no error the returned string is the concatenation of what the values
add. -/
theorem EncodePackedBsc_error_iff (env : Env) (values : List Value)
    (hw : ∀ w, Value.wei w ∈ values →
      0 ≤ Int.tdiv w.BitSize 4 ∧ Int.tdiv w.BitSize 4 ≤ w.Data.length) :
    (∃ r, EncodePackedBscReturn env values = .ok r)
    ∧ ((∃ s e, EncodePackedBscReturn env values = .ok (s, some e))
        ↔ ∃ v ∈ values, ¬ v.Supported)
    ∧ (∀ s e, EncodePackedBscReturn env values = .ok (s, some e) → s = "")
    ∧ ((∀ v ∈ values, v.Supported) →
        EncodePackedBscReturn env values = .ok (packedConcat env values, none)) := by
  have hgood : (∀ v ∈ values, v.Supported) →
      EncodePackedBscReturn env values = .ok (packedConcat env values, none) := by
    intro hs
    unfold EncodePackedBscReturn
    rw [encodeLoop_eq, foldlM_encodeStep_packed env values ""
      (fun v hv => v.encodable_of_supported (hs v hv) (fun w hvw => hw w (hvw ▸ hv))),
      String.empty_append]
    rfl
  have hbad : (∃ v ∈ values, ¬ v.Supported) →
      ∃ e, EncodePackedBscReturn env values = .ok ("", some e) :=
    fun h => encodeLoop_unsupported env values hw h ""
  by_cases hall : ∀ v ∈ values, v.Supported
  · have hg := hgood hall
    refine ⟨⟨_, hg⟩, ⟨?_, ?_⟩, ?_, hgood⟩
    · rintro ⟨s, e, he⟩
      rw [hg] at he
      cases he
    · rintro ⟨v, hv, hns⟩
      exact absurd (hall v hv) hns
    · intro s e he
      rw [hg] at he
      cases he
  · have hex : ∃ v ∈ values, ¬ v.Supported := by
      by_contra hne
      exact hall fun v hv => by_contra fun hns => hne ⟨v, hv, hns⟩
    obtain ⟨e, he⟩ := hbad hex
    refine ⟨⟨_, he⟩, ⟨fun _ => hex, fun _ => ⟨"", e, he⟩⟩, ?_, hgood⟩
    intro s e' hs
    rw [he] at hs
    injection hs with hs
    exact (Prod.mk.inj hs).1.symm

/-- C28, an instance: a value of type `int` after a string and a `Wei`: the error is returned
with the empty string, not with the characters encoded so far. -/
theorem EncodePackedBsc_error_iff_witness :
    EncodePackedBscReturn sampleEnv [.str "ab", .wei { BitSize := 8, Data := "0123" }, .other "int"]
      = .ok ("", some "unsupported type: int")
    ∧ ∀ s e, EncodePackedBscReturn sampleEnv
        [.str "ab", .wei { BitSize := 8, Data := "0123" }, .other "int"] = .ok (s, some e) →
        s = "" :=
  ⟨by decide,
   (EncodePackedBsc_error_iff sampleEnv
      [.str "ab", .wei { BitSize := 8, Data := "0123" }, .other "int"]
      (by
        intro w hw
        simp only [List.mem_cons, List.mem_singleton, List.not_mem_nil, or_false,
          Value.wei.injEq] at hw
        rcases hw with hw | hw | hw
        · cases hw
        · subst hw; exact ⟨by decide, by decide⟩
        · cases hw)).2.2.1⟩

/-- C28, as stated, fails: the list of the `Wei` with bit size -4 and empty `Data` (which has at
least `BitSize/4 = -1` characters) followed by a value of type `int` contains an unsupported
value, yet `EncodePackedBsc` returns no error: it panics at the `Wei` before it reaches the
value. -/
theorem EncodePackedBsc_panic_before_error_counterexample :
    Int.tdiv negativeWei.BitSize 4 ≤ negativeWei.Data.length
    ∧ ¬ (Value.other "int").Supported
    ∧ EncodePackedBscReturn sampleEnv [.wei negativeWei, .other "int"] = .panic := by
  refine ⟨by decide, fun h => h, by decide⟩


/-! ## The payload and its amounts -/

theorem beBytes_add (a b n : Nat) :
    beBytes (a + b) n = beBytes a (n / 256 ^ b) ++ beBytes b n := by
  induction b generalizing n with
  | zero => simp [beBytes]
  | succ b ih =>
    show beBytes (a + b + 1) n = _
    simp only [beBytes, ih, List.append_assoc]
    rw [Nat.div_div_eq_div_mul, pow_succ, Nat.mul_comm 256]

theorem beBytes_mod (w : Nat) : ∀ n, beBytes w (n % 256 ^ w) = beBytes w n := by
  induction w with
  | zero => intro n; rfl
  | succ w ih =>
    intro n
    simp only [beBytes]
    have h1 : n % 256 ^ (w + 1) / 256 = n / 256 % 256 ^ w := by
      rw [pow_succ, Nat.mul_comm, Nat.mod_mul_right_div_self]
    have h2 : n % 256 ^ (w + 1) % 256 = n % 256 :=
      Nat.mod_mod_of_dvd n (Dvd.intro_left (256 ^ w) rfl)
    rw [h1, ih]
    congr 2
    exact Fin.ext h2

theorem foldl_beBytes (w : Nat) : ∀ n acc,
    (beBytes w n).foldl (fun acc x => 256 * acc + x.val) acc = acc * 256 ^ w + n % 256 ^ w := by
  induction w with
  | zero => intro n acc; simp [beBytes, Nat.mod_one]
  | succ w ih =>
    intro n acc
    simp only [beBytes, List.foldl_append, List.foldl_cons, List.foldl_nil, ih]
    have h : n % 256 ^ (w + 1) = 256 * (n / 256 % 256 ^ w) + n % 256 := by
      rw [pow_succ, Nat.mul_comm (256 ^ w) 256, Nat.mod_mul, Nat.add_comm]
    rw [h]
    ring

/-- The bytes `beBytes w n` encode `n` modulo `256 ^ w`. -/
theorem beValue_beBytes (w n : Nat) : beValue (beBytes w n) = n % 256 ^ w := by
  simp [beValue, foldl_beBytes]

theorem parseHexFrom_hexEncode (b : Bytes) : ∀ acc,
    parseHexFrom acc (hexEncode b) = some (b.foldl (fun acc x => 256 * acc + x.val) acc) := by
  induction b with
  | nil => intro acc; rfl
  | cons x xs ih =>
    intro acc
    simp only [hexEncode, parseHexFrom, hexVal_hexDigit (x.val / 16) (by omega),
      hexVal_hexDigit (x.val % 16) (by omega), List.foldl_cons]
    rw [ih]
    congr 2
    omega

/-- What a 96-bit amount adds to the payload: the 24 digits of the low-order 12 bytes. -/
theorem packed_getWei96 (env : Env) (v : Int) :
    (Value.wei (getWei v 96)).packed env
      = String.mk (hexEncode (beBytes 12 (v % 2 ^ 256).toNat)) := by
  have hl := getWei_Data_length v 96
  simp only [Value.packed, hl]
  have h24 : 64 - (Int.tdiv (getWei v 96).BitSize 4).toNat = 40 := by
    show 64 - (Int.tdiv 96 4).toNat = 40
    decide
  rw [h24]
  simp only [getWei, Int256]
  rw [show (32 : Nat) = 20 + 12 from rfl, beBytes_add, hexEncode_append,
    List.drop_left' (by rw [hexEncode_length, beBytes_length])]

theorem getWei96_encodable (v : Int) : (Value.wei (getWei v 96)).Encodable := by
  have hl := getWei_Data_length v 96
  have hb : (getWei v 96).BitSize = 96 := rfl
  have h24 : Int.tdiv 96 4 = 24 := by decide
  simp only [Value.Encodable, hl, hb, h24]
  omega

set_option maxRecDepth 100000 in
/-- C30 (96-bit amount packing): for every integer `v` with `0 ≤ v < 2^256`, the field that
`EncodePackedBsc` produces for `getWei(v, 96)` is the hexadecimal encoding of 12 bytes, 24
digits, that encode `v mod 2^96` most significant byte first (read back as a base-16 number it
is `v mod 2^96`); it equals `v` exactly when `v < 2^96`, and the high bits are dropped without
an error otherwise. -/
theorem getWei96_low_bits (env : Env) (v : Int) (h0 : 0 ≤ v) (h256 : v < 2 ^ 256) :
    EncodePackedBsc env [.wei (getWei v 96)]
      = .ok (String.mk (hexEncode (beBytes 12 (v.toNat % 2 ^ 96))))
    ∧ (hexEncode (beBytes 12 (v.toNat % 2 ^ 96))).length = 24
    ∧ beValue (beBytes 12 (v.toNat % 2 ^ 96)) = v.toNat % 2 ^ 96
    ∧ parseHexFrom 0 (hexEncode (beBytes 12 (v.toNat % 2 ^ 96))) = some (v.toNat % 2 ^ 96)
    ∧ (((v.toNat % 2 ^ 96 : Nat) : Int) = v ↔ v < 2 ^ 96) := by
  have hmod : (v % 2 ^ 256).toNat = v.toNat := by rw [Int.emod_eq_of_lt h0 h256]
  have hpow : (256 : Nat) ^ 12 = 2 ^ 96 := by norm_num
  have hbytes : beBytes 12 (v.toNat % 2 ^ 96) = beBytes 12 v.toNat := by
    rw [← hpow, beBytes_mod]
  have hval : beValue (beBytes 12 (v.toNat % 2 ^ 96)) = v.toNat % 2 ^ 96 := by
    rw [beValue_beBytes, hpow, Nat.mod_mod]
  refine ⟨?_, ?_, hval, ?_, ?_⟩
  · unfold EncodePackedBsc
    rw [foldlM_encodeStep_packed env _ "" (by
      intro x hx
      rw [List.mem_singleton] at hx
      subst hx
      exact getWei96_encodable v)]
    simp only [packedConcat, List.map_cons, List.map_nil, List.foldr_cons, List.foldr_nil,
      String.append_empty, String.empty_append, packed_getWei96, hmod, hbytes]
  · rw [hexEncode_length, beBytes_length]
  · rw [parseHexFrom_hexEncode]
    exact congrArg some hval
  · constructor
    · intro h
      have hlt : v.toNat % 2 ^ 96 < 2 ^ 96 := Nat.mod_lt _ (by positivity)
      omega
    · intro h
      rw [Nat.mod_eq_of_lt (by omega)]
      omega

set_option maxRecDepth 100000 in
/-- C30, an instance: the amount `2^96 + 5` is packed as the 24 digits of 5. -/
theorem getWei96_low_bits_witness :
    EncodePackedBsc sampleEnv [.wei (getWei (2 ^ 96 + 5) 96)]
      = .ok (String.mk (hexEncode (beBytes 12 ((2 ^ 96 + 5 : Int).toNat % 2 ^ 96))))
    ∧ String.mk (hexEncode (beBytes 12 ((2 ^ 96 + 5 : Int).toNat % 2 ^ 96)))
      = "000000000000000000000005" :=
  ⟨(getWei96_low_bits sampleEnv (2 ^ 96 + 5) (by decide) (by decide)).1, by decide⟩

/-- What a 96-bit amount adds to the payload has 24 characters. -/
theorem packed_getWei96_length (env : Env) (v : Int) :
    ((Value.wei (getWei v 96)).packed env).length = 24 := by
  rw [packed_getWei96]
  show (hexEncode _).length = 24
  rw [hexEncode_length, beBytes_length]

theorem packed_address_length (env : Env) (a : Address) :
    ((Value.address a).packed env).length = 40 := Address.Hex_drop_length env a

theorem packedConcat_cons (env : Env) (v : Value) (vs : List Value) :
    packedConcat env (v :: vs) = v.packed env ++ packedConcat env vs := rfl

theorem hexVal_isSome_of_digit (c : Char) (h : ∃ n, n < 16 ∧ c = hexDigit n) :
    (hexVal c).isSome = true := by
  obtain ⟨n, hn, rfl⟩ := h
  rw [hexVal_hexDigit n hn]
  rfl

theorem hexEncode_hex (b : Bytes) : ∀ c ∈ hexEncode b, (hexVal c).isSome = true :=
  fun c hc => hexVal_isSome_of_digit c (hexEncode_digits b c hc)

/-- A digit of `hex.EncodeToString`, as it is or raised to upper case when it is a letter, is a
hexadecimal digit. -/
theorem checksumChar_hex (n : Nat) (hn : n < 16) (hashByte : Nat) :
    (hexVal (if hexDigit n > '9' ∧ hashByte > 7 then Char.ofNat ((hexDigit n).toNat - 32)
      else hexDigit n)).isSome = true := by
  split
  · rename_i h
    interval_cases n <;> first | decide | exact absurd h.1 (by decide)
  · rw [hexVal_hexDigit n hn]
    rfl

theorem zipWith_forall {α β γ : Type} (f : α → β → γ) (P : γ → Prop) :
    ∀ (l1 : List α) (l2 : List β), (∀ a ∈ l1, ∀ b, P (f a b)) →
      ∀ x ∈ List.zipWith f l1 l2, P x := by
  intro l1
  induction l1 with
  | nil => intro l2 _ x hx; simp at hx
  | cons a as ih =>
    intro l2 h x hx
    cases l2 with
    | nil => simp at hx
    | cons b bs =>
      simp only [List.zipWith_cons_cons, List.mem_cons] at hx
      rcases hx with rfl | hx
      · exact h a (List.mem_cons_self _ _) b
      · exact ih bs (fun a' ha' b' => h a' (List.mem_cons_of_mem _ ha') b') x hx

/-- The 40 characters an address adds are hexadecimal digits. -/
theorem packed_address_hex (env : Env) (a : Address) :
    ∀ c ∈ ((Value.address a).packed env).data, (hexVal c).isSome = true := by
  show ∀ c ∈ (Address.Hex env a).drop 2, _
  simp only [Address.Hex, List.drop_succ_cons, List.drop_zero]
  apply zipWith_forall
  intro c hc nb
  obtain ⟨n, hn, rfl⟩ := hexEncode_digits _ c hc
  exact checksumChar_hex n hn nb

theorem packed_getWei96_hex (env : Env) (v : Int) :
    ∀ c ∈ ((Value.wei (getWei v 96)).packed env).data, (hexVal c).isSome = true := by
  rw [packed_getWei96]
  exact hexEncode_hex _

theorem packedConcat_hex (env : Env) (values : List Value)
    (h : ∀ v ∈ values, ∀ c ∈ (v.packed env).data, (hexVal c).isSome = true) :
    ∀ c ∈ (packedConcat env values).data, (hexVal c).isSome = true := by
  induction values with
  | nil => intro c hc; simp [packedConcat] at hc
  | cons v vs ih =>
    intro c hc
    rw [packedConcat_cons, String.data_append, List.mem_append] at hc
    rcases hc with hc | hc
    · exact h v (List.mem_cons_self _ _) c hc
    · exact ih (fun x hx => h x (List.mem_cons_of_mem _ hx)) c hc

/-- The payload `pairWorker` assembles has 514 characters, all of them hexadecimal digits. -/
theorem packCallData_shape (env : Env) (t : ITriangularArbitrageTriangular)
    (rois : List (Option Int)) (calldata : String)
    (h : packCallData env t rois = .ok calldata) :
    calldata.length = 514 ∧ ∀ c ∈ calldata.data, (hexVal c).isSome = true := by
  unfold packCallData at h
  obtain ⟨r3, -, h⟩ := GoResult.bind_eq_ok h
  obtain ⟨r4, -, h⟩ := GoResult.bind_eq_ok h
  obtain ⟨r5, -, h⟩ := GoResult.bind_eq_ok h
  obtain ⟨r0, -, h⟩ := GoResult.bind_eq_ok h
  obtain ⟨r6, -, h⟩ := GoResult.bind_eq_ok h
  obtain ⟨r1, -, h⟩ := GoResult.bind_eq_ok h
  obtain ⟨r7, -, h⟩ := GoResult.bind_eq_ok h
  obtain ⟨r2, -, h⟩ := GoResult.bind_eq_ok h
  obtain ⟨r10, -, h⟩ := GoResult.bind_eq_ok h
  obtain ⟨r11, -, h⟩ := GoResult.bind_eq_ok h
  obtain ⟨r12, -, h⟩ := GoResult.bind_eq_ok h
  obtain ⟨r13, -, h⟩ := GoResult.bind_eq_ok h
  unfold EncodePackedBsc at h
  rw [foldlM_encodeStep_packed env _ "" (by
    intro v hv
    simp only [List.mem_cons, List.mem_singleton, List.not_mem_nil, or_false] at hv
    rcases hv with h | h | h | h | h | h | h | h | h | h | h | h | h | h | h | h | h <;>
      subst h <;> first | exact getWei96_encodable _ | trivial)] at h
  injection h with h
  subst h
  have hsub : ((hexEncode (SoliditySHA3 env [Int256 r3, Int256 r4, Int256 r5])).take 2).length
      = 2 := by
    rw [List.length_take, hexEncode_length]
    unfold SoliditySHA3
    rw [env.Keccak256_size]
    rfl
  have hzero : (hexEncode Uint32Zero).length = 8 := rfl
  constructor
  · simp only [packedConcat_cons, String.length_append, packed_getWei96_length,
      packed_address_length, String.empty_append]
    simp only [Value.packed, packedConcat, List.map_nil, List.foldr_nil, String.length, hsub,
      hzero, List.length_nil]
  · rw [String.empty_append]
    apply packedConcat_hex
    intro v hv
    simp only [List.mem_cons, List.mem_singleton, List.not_mem_nil, or_false] at hv
    rcases hv with h | h | h | h | h | h | h | h | h | h | h | h | h | h | h | h | h
    · subst h; exact hexEncode_hex _
    · subst h; exact fun c hc => hexEncode_hex _ c (List.mem_of_mem_take hc)
    · subst h; exact packed_address_hex env _
    · subst h; exact packed_getWei96_hex env _
    · subst h; exact packed_address_hex env _
    · subst h; exact packed_getWei96_hex env _
    · subst h; exact packed_address_hex env _
    · subst h; exact packed_getWei96_hex env _
    · subst h; exact packed_address_hex env _
    · subst h; exact packed_getWei96_hex env _
    · subst h; exact packed_address_hex env _
    · subst h; exact packed_getWei96_hex env _
    · subst h; exact packed_address_hex env _
    · subst h; exact packed_getWei96_hex env _
    · subst h; exact packed_address_hex env _
    · subst h; exact packed_address_hex env _
    · subst h; exact packed_address_hex env _

/-- C29 (fixed payload length): every opportunity that `pairWorker` sends carries a `CallData`
of exactly 514 characters, all of them hexadecimal digits (8 for the zero `uint32`, 2 for the
selector byte, 9 times 40 for the addresses and 6 times 24 for the 96-bit amounts), for every
candidate and every oracle. -/
theorem pairWorker_callData_length (env : Env) (o : Oracle) (triangle : Triangle) (r : ROI)
    (hr : Outcome.roi r ∈ (pairWorker env o triangle).pushed) :
    r.CallData.length = 514
    ∧ (∀ c ∈ r.CallData.data, (hexVal c).isSome = true)
    ∧ 514 = 8 + 2 + 9 * 40 + 6 * 24 := by
  suffices hs : r.CallData.length = 514 ∧ ∀ c ∈ r.CallData.data, (hexVal c).isSome = true from
    ⟨hs.1, hs.2, rfl⟩
  generalize hst : pairWorkerStages o (toTriangular env triangle) = st at hr
  obtain ⟨calls, res⟩ := st
  rcases GoResult.trichotomy res with ⟨point, rfl⟩ | ⟨e, rfl⟩ | rfl
  · by_cases hp : point = 0
    · subst hp
      rw [pairWorker_of_point_zero env o triangle calls hst] at hr
      simp at hr
    · rcases GoResult.trichotomy (getRois o 4 (toTriangular env triangle) (pointQuery point))
        with ⟨rois, h5⟩ | ⟨e5, h5⟩ | h5
      · rw [pairWorker_of_point_sample env o triangle calls point rois hst hp h5] at hr
        split at hr
        · simp at hr
        · simp at hr
        · split at hr
          · simp at hr
          · split at hr
            · simp at hr
            · simp at hr
            · rename_i calldata hpack
              simp only [List.mem_singleton, Outcome.roi.injEq] at hr
              subst hr
              exact packCallData_shape env _ rois calldata hpack
      · rw [pairWorker_of_point_error env o triangle _ _ e5 hst hp h5] at hr
        simp at hr
      · rw [pairWorker_of_point_panic env o triangle _ _ hst hp h5] at hr
        simp at hr
  · rw [pairWorker_of_stages_error env o triangle calls e hst] at hr
    simp at hr
  · rw [pairWorker_of_stages_panic env o triangle calls hst] at hr
    simp at hr

set_option maxRecDepth 1000000 in
/-- C29, an instance: the opportunity sent for a point sample with profit 5000000. -/
theorem pairWorker_callData_length_witness :
    ∃ r, Outcome.roi r ∈ (pairWorker sampleEnv (thresholdOracle 76 75 64) sampleTriangle).pushed
      ∧ r.CallData.length = 514 := by
  have hl : (pairWorker sampleEnv (thresholdOracle 76 75 64) sampleTriangle).pushed.map
      Outcome.profit = [some 5000000] := by decide!
  have hex : ∃ r, Outcome.roi r
      ∈ (pairWorker sampleEnv (thresholdOracle 76 75 64) sampleTriangle).pushed := by
    generalize (pairWorker sampleEnv (thresholdOracle 76 75 64) sampleTriangle).pushed = l at hl
    cases l with
    | nil => simp at hl
    | cons x xs =>
      cases x with
      | roi r => exact ⟨r, List.mem_cons_self _ _⟩
      | error e => simp [Outcome.profit] at hl
      | nil => simp [Outcome.profit] at hl
  obtain ⟨r, hr⟩ := hex
  exact ⟨r, hr,
    (pairWorker_callData_length sampleEnv (thresholdOracle 76 75 64) sampleTriangle r hr).1⟩

/-! ## The maps of the index -/

theorem keys_setEntry {V : Type} (key : String) (value : V) :
    ∀ l : List (String × V), (setEntry key value l).map Prod.fst
      = if key ∈ l.map Prod.fst then l.map Prod.fst else l.map Prod.fst ++ [key] := by
  intro l
  induction l with
  | nil => simp [setEntry]
  | cons e rest ih =>
    obtain ⟨k, v⟩ := e
    simp only [setEntry]
    by_cases hk : k = key
    · subst hk
      simp
    · have hk' : ¬ key = k := fun h => hk h.symm
      simp only [hk, if_false, List.map_cons, ih, List.mem_cons, hk', false_or]
      split <;> simp

/-- The keys after `Set`: the key is added at the end unless it is there already. -/
theorem ConcurrentMap.keys_Set {V : Type} (m : ConcurrentMap V) (key : String) (value : V) :
    (m.Set key value).keys = if key ∈ m.keys then m.keys else m.keys ++ [key] :=
  keys_setEntry key value m.entries

theorem ConcurrentMap.Count_eq {V : Type} (m : ConcurrentMap V) : m.Count = m.keys.length := by
  simp [ConcurrentMap.Count, ConcurrentMap.keys]

theorem ConcurrentMap.mem_keys_Set {V : Type} (m : ConcurrentMap V) (key : String) (value : V)
    (k : String) : k ∈ (m.Set key value).keys ↔ k = key ∨ k ∈ m.keys := by
  rw [ConcurrentMap.keys_Set]
  split
  · constructor
    · exact Or.inr
    · rintro (rfl | h)
      · assumption
      · exact h
  · simp [or_comm]

theorem ConcurrentMap.nodup_keys_Set {V : Type} (m : ConcurrentMap V) (key : String) (value : V)
    (h : m.keys.Nodup) : (m.Set key value).keys.Nodup := by
  rw [ConcurrentMap.keys_Set]
  split
  · exact h
  · rename_i hk
    rw [List.nodup_append]
    refine ⟨h, List.nodup_singleton _, ?_⟩
    intro a ha hb
    rw [List.mem_singleton] at hb
    exact hk (hb ▸ ha)

/-- `Get` finds a value exactly under the keys. -/
theorem ConcurrentMap.Get_isSome {V : Type} (m : ConcurrentMap V) (key : String) :
    (m.Get key).isSome = true ↔ key ∈ m.keys := by
  simp only [ConcurrentMap.Get, ConcurrentMap.keys, Option.isSome_map', List.find?_isSome,
    decide_eq_true_eq, List.mem_map]

/-- Both branches of `AddPairTriangle` store, under the pair, the set of the pair with the id
added. -/
theorem PairCache.PairTriangleMap_AddPairTriangle (pc : PairCache) (pair id : String) :
    (pc.AddPairTriangle pair id).PairTriangleMap
      = pc.PairTriangleMap.Set pair ((pc.GetPairSet pair).Add id) := by
  unfold PairCache.AddPairTriangle PairCache.GetPairSet
  cases h : pc.PairTriangleMap.Get pair <;> rfl

theorem IdSet.keys_Add (s : IdSet) (value : String) :
    (s.Add value).data.keys = if value ∈ s.data.keys then s.data.keys else s.data.keys ++ [value] :=
  ConcurrentMap.keys_Set s.data value ()

theorem IdSet.Size_eq (s : IdSet) : s.Size = s.data.keys.length := ConcurrentMap.Count_eq _

theorem IdSet.Contains_iff (s : IdSet) (value : String) :
    s.Contains value = true ↔ value ∈ s.data.keys :=
  ConcurrentMap.Get_isSome s.data value

theorem ReverseIndexOf_NewPairCache : ReverseIndexOf [] NewPairCache := by
  refine ⟨List.nodup_nil, fun p => Iff.rfl, fun p => List.nodup_nil, fun p id => ?_⟩
  simp [PairCache.GetPairSet, NewPairCache, ConcurrentMap.New, ConcurrentMap.Get,
    ConcurrentMap.keys, NewSet]

/-- One call `AddPairTriangle(pair, id)` keeps the reverse index as the calls leave it. -/
theorem ReverseIndexOf_AddPairTriangle (adds : List (String × String)) (pc : PairCache)
    (pair id : String) (h : ReverseIndexOf adds pc) :
    ReverseIndexOf (adds ++ [(pair, id)]) (pc.AddPairTriangle pair id) := by
  obtain ⟨h1, h2, h3, h4⟩ := h
  refine ⟨?_, ?_, ?_, ?_⟩
  · rw [PairCache.PairTriangleMap_AddPairTriangle]
    exact ConcurrentMap.nodup_keys_Set _ _ _ h1
  · intro p
    rw [PairCache.PairTriangleMap_AddPairTriangle, ConcurrentMap.mem_keys_Set, h2]
    simp only [List.map_append, List.map_cons, List.map_nil, List.mem_append,
      List.mem_singleton]
    exact or_comm
  · intro p
    rw [PairCache.GetPairSet_AddPairTriangle]
    split
    · exact ConcurrentMap.nodup_keys_Set _ _ _ (h3 pair)
    · exact h3 p
  · intro p i
    rw [PairCache.GetPairSet_AddPairTriangle]
    simp only [List.mem_append, List.mem_singleton, Prod.mk.injEq]
    split
    · rename_i hp
      subst hp
      show i ∈ ((pc.GetPairSet p).data.Set id ()).keys ↔ _
      rw [ConcurrentMap.mem_keys_Set, h4]
      constructor
      · rintro (h | h)
        · exact Or.inr ⟨rfl, h⟩
        · exact Or.inl h
      · rintro (h | ⟨_, h⟩)
        · exact Or.inr h
        · exact Or.inl h
    · rename_i hp
      rw [h4]
      constructor
      · exact Or.inl
      · rintro (h | ⟨h, _⟩)
        · exact h
        · exact absurd h hp

theorem ReverseIndexOf_addPairTriangles (adds : List (String × String)) :
    ∀ (done : List (String × String)) (pc : PairCache), ReverseIndexOf done pc →
      ReverseIndexOf (done ++ adds) (addPairTriangles pc adds) := by
  induction adds with
  | nil => intro done pc h; simpa [addPairTriangles] using h
  | cons a adds ih =>
    intro done pc h
    have h2 := ih (done ++ [a]) (pc.AddPairTriangle a.1 a.2)
      (ReverseIndexOf_AddPairTriangle done pc a.1 a.2 h)
    simpa only [addPairTriangles, List.foldl_cons, List.append_assoc, List.singleton_append]
      using h2

/-- Two lists without repetition and with the same elements have the same length. -/
theorem length_eq_dedup_length (l : List String) (m : List String) (hl : l.Nodup)
    (hmem : ∀ a, a ∈ l ↔ a ∈ m) : l.length = m.dedup.length :=
  ((List.perm_ext_iff_of_nodup hl (List.nodup_dedup m)).2
    (fun a => (hmem a).trans List.mem_dedup.symm)).length_eq

/-- C22 (forward-map round trip): for every `PairCache`, id and triangle `t`, after
`AddTriangle(id, t)` the call `GetTriangle(id)` returns `(t, true)` and the lookup of every
other id is unchanged; and in an index built from `NewPairCache()` by any sequence of
`AddTriangle` and `AddPairTriangle` calls, `GetTriangle` of an id that no `AddTriangle` call
added returns the zero `Triangle` and `false`. -/
theorem GetTriangle_after_AddTriangle (pc : PairCache) (id : String) (t : Triangle) :
    (pc.AddTriangle id t).GetTriangle id = (t, true)
    ∧ (∀ id', id' ≠ id → (pc.AddTriangle id t).GetTriangle id' = pc.GetTriangle id')
    ∧ (∀ updates : List IndexUpdate, (∀ t', IndexUpdate.addTriangle id t' ∉ updates) →
        (updates.foldl IndexUpdate.apply NewPairCache).GetTriangle id = (Triangle.zero, false))
    := by
  refine ⟨?_, ?_, ?_⟩
  · rw [PairCache.GetTriangle_AddTriangle, if_pos rfl]
  · intro id' hne
    rw [PairCache.GetTriangle_AddTriangle, if_neg hne]
  · intro updates
    have hgen : ∀ (us : List IndexUpdate) (start : PairCache),
        (∀ t', IndexUpdate.addTriangle id t' ∉ us) →
        (us.foldl IndexUpdate.apply start).GetTriangle id = start.GetTriangle id := by
      intro us
      induction us with
      | nil => intro start _; rfl
      | cons u us ih =>
        intro start hn
        rw [List.foldl_cons, ih _ (fun t' hm => hn t' (List.mem_cons_of_mem _ hm))]
        cases u with
        | addTriangle id' t' =>
          show (start.AddTriangle id' t').GetTriangle id = _
          rw [PairCache.GetTriangle_AddTriangle, if_neg]
          intro he
          subst he
          exact hn t' (List.mem_cons_self _ _)
        | addPairTriangle pair id' =>
          exact PairCache.GetTriangle_AddPairTriangle start pair id' id
    intro hn
    rw [hgen updates NewPairCache hn]
    rfl

/-- C22, an instance: the lookups after the first sample build and one further
`AddTriangle`. -/
theorem GetTriangle_after_AddTriangle_witness :
    (firstBuild.AddTriangle "2" (normalizeRow indexEnv secondRow)).GetTriangle "1"
      = firstBuild.GetTriangle "1"
    ∧ ([IndexUpdate.addTriangle "1" Triangle.zero, IndexUpdate.addPairTriangle "p" "2"].foldl
        IndexUpdate.apply NewPairCache).GetTriangle "2" = (Triangle.zero, false) :=
  ⟨(GetTriangle_after_AddTriangle firstBuild "2" (normalizeRow indexEnv secondRow)).2.1 "1"
      (by decide),
   (GetTriangle_after_AddTriangle NewPairCache "2" Triangle.zero).2.2
      [IndexUpdate.addTriangle "1" Triangle.zero, IndexUpdate.addPairTriangle "p" "2"]
      (by
        intro t' h
        simp only [List.mem_cons, List.mem_singleton, List.not_mem_nil, or_false,
          IndexUpdate.addTriangle.injEq] at h
        rcases h with h | h
        · exact absurd h.1 (by decide)
        · cases h)⟩

/-- C23 (reverse-index accumulation): starting from `NewPairCache()`, after any sequence of
`AddPairTriangle(pair, id)` calls, `GetPairSet(p)` contains exactly the ids that were added
under `p`, its `Size` is the number of distinct ids added under `p`, and `PairTriangleMapSize`
is the number of distinct pairs added; for a pair never added `GetPairSet` returns a new empty
set, of `Size` 0; and adding a `(p, id)` that was added before leaves both sizes unchanged. -/
theorem addPairTriangles_accumulates (adds : List (String × String)) :
    (∀ p id, ((addPairTriangles NewPairCache adds).GetPairSet p).Contains id = true
        ↔ (p, id) ∈ adds)
    ∧ (∀ p, ((addPairTriangles NewPairCache adds).GetPairSet p).Size
        = ((adds.filter fun a => a.1 = p).map Prod.snd).dedup.length)
    ∧ (addPairTriangles NewPairCache adds).PairTriangleMapSize
        = (adds.map Prod.fst).dedup.length
    ∧ (∀ p, p ∉ adds.map Prod.fst →
        (addPairTriangles NewPairCache adds).GetPairSet p = NewSet
        ∧ ((addPairTriangles NewPairCache adds).GetPairSet p).Size = 0)
    ∧ (∀ p id, (p, id) ∈ adds →
        (((addPairTriangles NewPairCache adds).AddPairTriangle p id).GetPairSet p).Size
          = ((addPairTriangles NewPairCache adds).GetPairSet p).Size
        ∧ ((addPairTriangles NewPairCache adds).AddPairTriangle p id).PairTriangleMapSize
          = (addPairTriangles NewPairCache adds).PairTriangleMapSize) := by
  have hinv := ReverseIndexOf_addPairTriangles adds [] NewPairCache ReverseIndexOf_NewPairCache
  rw [List.nil_append] at hinv
  obtain ⟨h1, h2, h3, h4⟩ := hinv
  refine ⟨?_, ?_, ?_, ?_, ?_⟩
  · intro p id
    rw [IdSet.Contains_iff, h4]
  · intro p
    rw [IdSet.Size_eq]
    apply length_eq_dedup_length _ _ (h3 p)
    intro id
    rw [h4]
    simp only [List.mem_map, List.mem_filter, decide_eq_true_eq, Prod.exists, exists_and_right,
      exists_eq_right]
  · show (addPairTriangles NewPairCache adds).PairTriangleMap.Count = _
    rw [ConcurrentMap.Count_eq]
    exact length_eq_dedup_length _ _ h1 h2
  · intro p hp
    have hnone : (addPairTriangles NewPairCache adds).PairTriangleMap.Get p = none := by
      have := mt (ConcurrentMap.Get_isSome _ p).1 (fun hk => hp ((h2 p).1 hk))
      simpa using this
    have hset : (addPairTriangles NewPairCache adds).GetPairSet p = NewSet := by
      unfold PairCache.GetPairSet
      rw [hnone]
    exact ⟨hset, by rw [hset]; rfl⟩
  · intro p id hmem
    have hid : id ∈ ((addPairTriangles NewPairCache adds).GetPairSet p).data.keys :=
      (h4 p id).2 hmem
    have hp : p ∈ (addPairTriangles NewPairCache adds).PairTriangleMap.keys :=
      (h2 p).2 (List.mem_map.2 ⟨(p, id), hmem, rfl⟩)
    constructor
    · rw [PairCache.GetPairSet_AddPairTriangle, if_pos rfl, IdSet.Size_eq, IdSet.Size_eq,
        IdSet.keys_Add, if_pos hid]
    · show ((addPairTriangles NewPairCache adds).AddPairTriangle p id).PairTriangleMap.Count
        = (addPairTriangles NewPairCache adds).PairTriangleMap.Count
      rw [PairCache.PairTriangleMap_AddPairTriangle, ConcurrentMap.Count_eq,
        ConcurrentMap.Count_eq, ConcurrentMap.keys_Set, if_pos hp]

set_option maxRecDepth 100000 in
/-- C23, an instance: the calls `(a, 1)`, `(b, 2)`, `(a, 1)`, `(a, 3)`. -/
theorem addPairTriangles_accumulates_witness :
    ((addPairTriangles NewPairCache [("a", "1"), ("b", "2"), ("a", "1"), ("a", "3")]).GetPairSet
        "a").Size = 2
    ∧ (addPairTriangles NewPairCache
        [("a", "1"), ("b", "2"), ("a", "1"), ("a", "3")]).PairTriangleMapSize = 2
    ∧ ((addPairTriangles NewPairCache [("a", "1"), ("b", "2"), ("a", "1"), ("a", "3")]).GetPairSet
        "c").Size = 0 :=
  ⟨((addPairTriangles_accumulates [("a", "1"), ("b", "2"), ("a", "1"), ("a", "3")]).2.1
      "a").trans (by decide),
   (addPairTriangles_accumulates
      [("a", "1"), ("b", "2"), ("a", "1"), ("a", "3")]).2.2.1.trans (by decide),
   ((addPairTriangles_accumulates [("a", "1"), ("b", "2"), ("a", "1"), ("a", "3")]).2.2.2.1
      "c" (by decide)).2⟩

/-! ## Decimal keys -/

theorem digitChar_value (d : Nat) (h : d < 10) : (Nat.digitChar d).toNat - 48 = d := by
  interval_cases d <;> rfl

theorem foldl_decimal (l : List Char) : ∀ a : Nat,
    l.foldl (fun a c => 10 * a + (c.toNat - 48)) a
      = a * 10 ^ l.length + l.foldl (fun a c => 10 * a + (c.toNat - 48)) 0 := by
  induction l with
  | nil => intro a; simp
  | cons c cs ih =>
    intro a
    simp only [List.foldl_cons, List.length_cons]
    rw [ih (10 * a + (c.toNat - 48)), ih (10 * 0 + (c.toNat - 48))]
    ring

/-- The digits `toDigitsCore` produces, read as a decimal number, give the number back. -/
theorem toDigitsCore_value : ∀ (fuel n : Nat) (ds : List Char), n < fuel →
    (Nat.toDigitsCore 10 fuel n ds).foldl (fun a c => 10 * a + (c.toNat - 48)) 0
      = n * 10 ^ ds.length + ds.foldl (fun a c => 10 * a + (c.toNat - 48)) 0 := by
  intro fuel
  induction fuel with
  | zero => intro n ds h; omega
  | succ fuel ih =>
    intro n ds h
    simp only [Nat.toDigitsCore]
    split
    · rename_i h0
      simp only [List.foldl_cons]
      rw [foldl_decimal, digitChar_value _ (Nat.mod_lt _ (by decide))]
      have : n % 10 = n := by omega
      rw [this]
      ring
    · rename_i h0
      rw [ih (n / 10) _ (by omega)]
      simp only [List.foldl_cons, List.length_cons]
      rw [foldl_decimal ds, digitChar_value _ (Nat.mod_lt _ (by decide))]
      have hn : n = 10 * (n / 10) + n % 10 := by omega
      generalize n / 10 = q at hn ⊢
      generalize n % 10 = r at hn ⊢
      subst hn
      ring

/-- Different counters have different keys. -/
theorem Itoa_injective (a b : Nat) (h : Itoa a = Itoa b) : a = b := by
  have hd : Nat.toDigits 10 a = Nat.toDigits 10 b := by
    have := congrArg String.data h
    simpa [Itoa, toString, Nat.repr, List.asString] using this
  have ha := toDigitsCore_value (a + 1) a [] (Nat.lt_succ_self a)
  have hb := toDigitsCore_value (b + 1) b [] (Nat.lt_succ_self b)
  simp only [Nat.toDigits] at hd
  rw [hd, hb] at ha
  simpa using ha.symm

/-! ## The report -/

theorem setEntry_of_not_mem {V : Type} (key : String) (value : V) :
    ∀ l : List (String × V), key ∉ l.map Prod.fst → setEntry key value l = l ++ [(key, value)] := by
  intro l
  induction l with
  | nil => intro _; rfl
  | cons e rest ih =>
    obtain ⟨k, v⟩ := e
    intro h
    simp only [List.map_cons, List.mem_cons, not_or] at h
    simp only [setEntry]
    rw [if_neg (fun hk => h.1 hk.symm), ih h.2]
    rfl

/-- The three cases of the type switch store the value of the outcome under the key of the
counter. -/
theorem collectStep_resultMap (st : Collected) (result : Outcome) :
    (collectStep st result).resultMap = setEntry (Itoa st.i) result.reportValue st.resultMap
    ∧ (collectStep st result).i = st.i + 1 := by
  cases result <;> exact ⟨rfl, rfl⟩

/-- The map and the counter after the result loop. -/
theorem collectCallBatch_resultMap (results : List Outcome) :
    (collectCallBatch results).resultMap
        = List.zipWith (fun k r => (Itoa (k + 1), Outcome.reportValue r))
            (List.range results.length) results
    ∧ (collectCallBatch results).i = results.length + 1 := by
  induction results using List.reverseRecOn with
  | nil => exact ⟨rfl, rfl⟩
  | append_singleton pre x ih =>
    obtain ⟨hmap, hi⟩ := ih
    have hstep : collectCallBatch (pre ++ [x]) = collectStep (collectCallBatch pre) x := by
      simp [collectCallBatch, List.foldl_append]
    rw [hstep]
    obtain ⟨h1, h2⟩ := collectStep_resultMap (collectCallBatch pre) x
    refine ⟨?_, by rw [h2, hi, List.length_append]; rfl⟩
    rw [h1, hi, hmap]
    have hnot : Itoa (pre.length + 1) ∉
        (List.zipWith (fun k r => (Itoa (k + 1), Outcome.reportValue r))
          (List.range pre.length) pre).map Prod.fst := by
      intro hmem
      rw [List.mem_map] at hmem
      obtain ⟨e, he, hk⟩ := hmem
      obtain ⟨k, hk1, hk2⟩ := List.getElem_of_mem he
      simp only [List.getElem_zipWith, List.getElem_range] at hk2
      rw [← hk2] at hk
      have := Itoa_injective _ _ hk
      simp only [List.length_zipWith, List.length_range, min_self] at hk1
      omega
    rw [setEntry_of_not_mem _ _ _ hnot, List.length_append, List.length_singleton,
      List.range_succ, List.zipWith_append _ _ _ _ _ (by simp)]
    rfl

/-- C24 (as amended): the report `CallBatch` builds from a results sequence of N outcomes has
exactly N entries, keyed by the decimal strings `1` to `N` in arrival order (no key twice), and
the entry under key `k` is the value of the `k`-th outcome: an opportunity (candidate, payload
and profit), the string of an error, or `nil` for an outcome without opportunity. -/
theorem collectCallBatch_report (results : List Outcome) :
    (collectCallBatch results).resultMap.length = results.length
    ∧ (collectCallBatch results).resultMap.map Prod.fst
        = (List.range results.length).map (fun k => Itoa (k + 1))
    ∧ ((collectCallBatch results).resultMap.map Prod.fst).Nodup
    ∧ (collectCallBatch results).resultMap.map Prod.snd = results.map Outcome.reportValue
    ∧ (∀ e ∈ (collectCallBatch results).resultMap,
        (∃ r, Outcome.roi r ∈ results ∧ e.2 = ReportValue.roi r)
        ∨ (∃ msg, Outcome.error msg ∈ results ∧ e.2 = ReportValue.errorString msg)
        ∨ (Outcome.nil ∈ results ∧ e.2 = ReportValue.nilValue)) := by
  have hmap := (collectCallBatch_resultMap results).1
  have hfst : (collectCallBatch results).resultMap.map Prod.fst
      = (List.range results.length).map (fun k => Itoa (k + 1)) := by
    rw [hmap]
    apply List.ext_getElem
    · simp
    · intro k h1 h2
      simp
  have hsnd : (collectCallBatch results).resultMap.map Prod.snd
      = results.map Outcome.reportValue := by
    rw [hmap]
    apply List.ext_getElem
    · simp
    · intro k h1 h2
      simp
  refine ⟨?_, hfst, ?_, hsnd, ?_⟩
  · rw [hmap]; simp
  · rw [hfst]
    refine (List.nodup_range _).map ?_
    intro a b hab
    have := Itoa_injective _ _ hab
    omega
  · intro e he
    have h2 : e.2 ∈ results.map Outcome.reportValue := by
      rw [← hsnd]
      exact List.mem_map_of_mem _ he
    rw [List.mem_map] at h2
    obtain ⟨x, hx, hxe⟩ := h2
    cases x with
    | roi r => exact Or.inl ⟨r, hx, hxe.symm⟩
    | error msg => exact Or.inr (Or.inl ⟨msg, hx, hxe.symm⟩)
    | nil => exact Or.inr (Or.inr ⟨hx, hxe.symm⟩)

/-- C24, as stated, fails: for the results sequence of one error and one outcome without
opportunity (`nil`), the entry under key `2` is `nil`, neither an opportunity nor an error
string. -/
theorem collectCallBatch_nil_entry_counterexample :
    (collectCallBatch [.error "execution reverted", .nil]).resultMap
      = [("1", .errorString "execution reverted"), ("2", .nilValue)]
    ∧ ¬ ∀ e ∈ (collectCallBatch [.error "execution reverted", .nil]).resultMap,
        (∃ r, e.2 = ReportValue.roi r) ∨ (∃ msg, e.2 = ReportValue.errorString msg) := by
  refine ⟨by decide, ?_⟩
  intro h
  have h2 := h ("2", .nilValue) (by decide)
  rcases h2 with ⟨r, hr⟩ | ⟨msg, hm⟩
  · cases hr
  · cases hm

/-! ## Windows, the offset and the best opportunity -/

theorem resolveROILoop_total (rois : List (Option Int))
    (hsome : ∀ x ∈ rois, ∃ v : Int, x = some v) :
    ∀ (remaining i : Nat), (remaining = 0 ∨ (i + remaining) * 8 + 6 ≤ rois.length) →
      ∃ r : Nat, resolveROILoop rois remaining i = .ok (r : Int) ∧ i ≤ r ∧ r ≤ i + remaining := by
  intro remaining
  induction remaining with
  | zero => intro i _; exact ⟨i, rfl, Nat.le_refl _, Nat.le_refl _⟩
  | succ rem ih =>
    intro i h
    have hlen : (i + (rem + 1)) * 8 + 6 ≤ rois.length := by
      rcases h with h | h
      · omega
      · exact h
    have hi : i * 8 + 6 < rois.length := by omega
    obtain ⟨v, hv⟩ := hsome rois[i * 8 + 6] (List.getElem_mem _)
    unfold resolveROILoop
    rw [List.getElem?_eq_getElem hi, hv]
    simp only
    split
    · exact ⟨i, rfl, Nat.le_refl _, by omega⟩
    · obtain ⟨r, hr, h1, h2⟩ := ih (i + 1) (Or.inr (by omega))
      exact ⟨r, hr, by omega, by omega⟩

/-- An offset that `resolveROI` returns is not negative. -/
theorem resolveROILoop_nonneg (rois : List (Option Int)) :
    ∀ (remaining i : Nat) (r : Int), resolveROILoop rois remaining i = .ok r → 0 ≤ r := by
  intro remaining
  induction remaining with
  | zero =>
    intro i r h
    simp only [resolveROILoop, GoResult.ok.injEq] at h
    omega
  | succ rem ih =>
    intro i r h
    unfold resolveROILoop at h
    split at h
    · cases h
    · cases h
    · split at h
      · simp only [GoResult.ok.injEq] at h
        omega
      · exact ih _ _ h

theorem sampleIndex_nonneg (o : Oracle) (n : Nat) (t : ITriangularArbitrageTriangular)
    (q : ArbitrageQueryParam) (i : Int) (h : sampleIndex o n t q = .ok i) : 0 ≤ i := by
  unfold sampleIndex at h
  split at h
  · cases h
  · cases h
  · exact resolveROILoop_nonneg _ _ _ _ h

/-- The four stage windows lie inside `[0, 10000]` when the offsets are not negative. -/
theorem windows_inside (i1 i2 i3 : Int) (h1 : 0 ≤ i1) (h2 : 0 ≤ i2) (h3 : 0 ≤ i3) :
    (0 ≤ window1.Start ∧ window1.Start ≤ window1.End ∧ window1.End ≤ 10000)
    ∧ (0 ≤ (window2 i1).Start ∧ (window2 i1).Start ≤ (window2 i1).End
        ∧ (window2 i1).End ≤ 10000)
    ∧ (0 ≤ (window3 i1 i2).Start ∧ (window3 i1 i2).Start ≤ (window3 i1 i2).End
        ∧ (window3 i1 i2).End ≤ 10000)
    ∧ (0 ≤ (window4 i1 i2 i3).Start ∧ (window4 i1 i2 i3).Start ≤ (window4 i1 i2 i3).End
        ∧ (window4 i1 i2 i3).End ≤ 10000) := by
  simp only [window1, window2, window3, window4, getArbitrageQueryParam_clamped]
  refine ⟨⟨?_, ?_, ?_⟩, ⟨?_, ?_, ?_⟩, ⟨?_, ?_, ?_⟩, ⟨?_, ?_, ?_⟩⟩ <;> omega

/-- C26 (`resolveROI` is total and bounded): for every sample vector of any length whose
elements are all present (not nil), `resolveROI` returns a value `r` (it does not read outside
the vector or dereference nil, which would be a panic), and `0 ≤ r ≤ max(0, (len - 6) / 8)`,
with Go's truncating division. -/
theorem resolveROI_total (rois : List (Option Int))
    (hsome : ∀ x ∈ rois, ∃ v : Int, x = some v) :
    ∃ r : Int, resolveROI rois = .ok r ∧ 0 ≤ r
      ∧ r ≤ max 0 (Int.tdiv ((rois.length : Int) - 6) 8) := by
  have hb := resolveROI_bound rois
  obtain ⟨r, hr, _, h2⟩ := resolveROILoop_total rois hsome
    (Int.tdiv ((rois.length : Int) - 6) 8).toNat 0 (by
      rw [hb]
      by_cases h : (rois.length - 6) / 8 = 0
      · exact Or.inl h
      · right
        omega)
  refine ⟨r, hr, by omega, ?_⟩
  have : (r : Int) ≤ ((Int.tdiv ((rois.length : Int) - 6) 8).toNat : Int) := by
    exact_mod_cast (by omega : r ≤ (Int.tdiv ((rois.length : Int) - 6) 8).toNat)
  rw [Int.toNat_eq_max] at this
  rw [max_comm]
  exact this

/-- C26, instances: a vector of five values, shorter than the six skipped ones, and a vector of
fifteen values, whose ninth value after the six is not a whole tuple. -/
theorem resolveROI_total_witness :
    (∃ r : Int, resolveROI (List.replicate 5 (some 1)) = .ok r ∧ 0 ≤ r
      ∧ r ≤ max 0 (Int.tdiv (((List.replicate 5 (some (1 : Int))).length : Int) - 6) 8))
    ∧ resolveROI (List.replicate 5 (some 1)) = .ok 0
    ∧ resolveROI (List.replicate 15 (some 1)) = .ok 1 :=
  ⟨resolveROI_total (List.replicate 5 (some 1)) (by
      intro x hx
      exact ⟨1, (List.eq_of_mem_replicate hx)⟩),
   by decide, by decide⟩

/-- C25 (window containment): for every `start`, every offset `i ≥ 0` and every stage width `w`
of 10000, 1000 or 100, the next window `getArbitrageQueryParam(start, i, w/10)` lies inside the
current window `[start, start + w]` and has one tenth of its width; and the window queries of
every run of `pairWorker` (its first four oracle calls) stay inside `[0, 10000]`. -/
theorem getArbitrageQueryParam_inside (start i w : Int) (hi : 0 ≤ i)
    (hw : w = 10000 ∨ w = 1000 ∨ w = 100) (env : Env) (o : Oracle) (triangle : Triangle) :
    start ≤ (getArbitrageQueryParam start i (Int.tdiv w 10)).Start
    ∧ (getArbitrageQueryParam start i (Int.tdiv w 10)).End ≤ start + w
    ∧ 10 * ((getArbitrageQueryParam start i (Int.tdiv w 10)).End
        - (getArbitrageQueryParam start i (Int.tdiv w 10)).Start) = w
    ∧ (∀ q ∈ (pairWorker env o triangle).calls.take 4,
        0 ≤ q.Start ∧ q.Start ≤ q.End ∧ q.End ≤ 10000) := by
  refine ⟨?_, ?_, ?_, ?_⟩
  · rw [getArbitrageQueryParam_clamped]
    rcases hw with rfl | rfl | rfl <;> simp only [show Int.tdiv 10000 10 = 1000 by decide,
      show Int.tdiv 1000 10 = 100 by decide, show Int.tdiv 100 10 = 10 by decide] <;> omega
  · rw [getArbitrageQueryParam_clamped]
    rcases hw with rfl | rfl | rfl <;> simp only [show Int.tdiv 10000 10 = 1000 by decide,
      show Int.tdiv 1000 10 = 100 by decide, show Int.tdiv 100 10 = 10 by decide] <;> omega
  · rw [getArbitrageQueryParam_clamped]
    rcases hw with rfl | rfl | rfl <;> simp only [show Int.tdiv 10000 10 = 1000 by decide,
      show Int.tdiv 1000 10 = 100 by decide, show Int.tdiv 100 10 = 10 by decide] <;> omega
  · intro q hq
    rcases pairWorker_calls_cases env o triangle with
      ⟨hc, _⟩ | ⟨i1, h1, hc, _⟩ | ⟨i1, i2, h1, h2, hc, _⟩ | ⟨i1, i2, i3, h1, h2, h3, hc, _⟩
      | ⟨i1, i2, i3, i4, h1, h2, h3, h4, _, hc⟩
    · rw [hc] at hq
      simp only [List.take, List.mem_cons, List.mem_singleton, List.not_mem_nil, or_false] at hq
      subst hq
      exact (windows_inside 0 0 0 (le_refl _) (le_refl _) (le_refl _)).1
    · have n1 := sampleIndex_nonneg _ _ _ _ _ h1
      have hin := windows_inside i1 0 0 n1 (le_refl _) (le_refl _)
      rw [hc] at hq
      simp only [List.take, List.mem_cons, List.mem_singleton, List.not_mem_nil, or_false] at hq
      rcases hq with rfl | rfl
      · exact hin.1
      · exact hin.2.1
    · have n1 := sampleIndex_nonneg _ _ _ _ _ h1
      have n2 := sampleIndex_nonneg _ _ _ _ _ h2
      have hin := windows_inside i1 i2 0 n1 n2 (le_refl _)
      rw [hc] at hq
      simp only [List.take, List.mem_cons, List.mem_singleton, List.not_mem_nil, or_false] at hq
      rcases hq with rfl | rfl | rfl
      · exact hin.1
      · exact hin.2.1
      · exact hin.2.2.1
    · have n1 := sampleIndex_nonneg _ _ _ _ _ h1
      have n2 := sampleIndex_nonneg _ _ _ _ _ h2
      have n3 := sampleIndex_nonneg _ _ _ _ _ h3
      have hin := windows_inside i1 i2 i3 n1 n2 n3
      rw [hc] at hq
      simp only [List.take, List.mem_cons, List.mem_singleton, List.not_mem_nil, or_false] at hq
      rcases hq with rfl | rfl | rfl | rfl
      · exact hin.1
      · exact hin.2.1
      · exact hin.2.2.1
      · exact hin.2.2.2
    · have n1 := sampleIndex_nonneg _ _ _ _ _ h1
      have n2 := sampleIndex_nonneg _ _ _ _ _ h2
      have n3 := sampleIndex_nonneg _ _ _ _ _ h3
      have hin := windows_inside i1 i2 i3 n1 n2 n3
      rw [hc] at hq
      simp only [List.take, List.mem_cons, List.mem_singleton, List.not_mem_nil, or_false] at hq
      rcases hq with rfl | rfl | rfl | rfl
      · exact hin.1
      · exact hin.2.1
      · exact hin.2.2.1
      · exact hin.2.2.2

set_option maxRecDepth 1000000 in
/-- C25, an instance: offset 10, which is clamped to 9, at width 1000 from start 9000 gives the
window `[9900, 10000]`; and the window queries against the all-nonzero oracle. -/
theorem getArbitrageQueryParam_inside_witness :
    getArbitrageQueryParam 9000 10 (Int.tdiv 1000 10) = ⟨9900, 10000, 10⟩
    ∧ (9000 : Int) ≤ (getArbitrageQueryParam 9000 10 (Int.tdiv 1000 10)).Start
    ∧ (getArbitrageQueryParam 9000 10 (Int.tdiv 1000 10)).End ≤ 9000 + 1000
    ∧ (pairWorker sampleEnv allNonzeroOracle sampleTriangle).calls.take 4
        = [⟨0, 10000, 10⟩, ⟨9000, 10000, 10⟩, ⟨9900, 10000, 10⟩, ⟨9990, 10000, 10⟩] :=
  have h := getArbitrageQueryParam_inside 9000 10 1000 (by decide) (by decide) sampleEnv
    allNonzeroOracle sampleTriangle
  ⟨by decide, h.1, h.2.1, by decide!⟩

theorem uniquePairsFilter_cons (x : ROI) (xs : List ROI) :
    ∃ rest, uniquePairsFilter (x :: xs) = x :: rest := by
  have h := uniquePairsFilter_extends [x] xs
  have h1 : uniquePairsFilter [x] = [x] := by
    simp [uniquePairsFilter, filterStep]
  rw [h1] at h
  obtain ⟨t, ht⟩ := h
  exact ⟨t, ht.symm⟩

/-- C27 (best opportunity always selected): for every non-empty batch of opportunities and
every sorter that keeps the promise of `sort.Slice`, the selected list is not empty and its
first element is the first element of the sorted batch, an opportunity of the batch whose profit
is the maximum of the batch, whatever its own three pair addresses are. -/
theorem selectROIs_head_is_best (s : SliceSorter) (rois : List ROI) (hne : rois ≠ []) :
    ∃ best sortedRest rest,
      s.sort rois = best :: sortedRest
      ∧ selectROIs s rois = best :: rest
      ∧ best ∈ rois
      ∧ ∀ r ∈ rois, r.Profit ≤ best.Profit := by
  have hperm := s.perm rois
  have hsorted := s.sorted rois
  have hpos : rois.length > 0 := List.length_pos.2 hne
  cases hs : s.sort rois with
  | nil =>
    rw [hs] at hperm
    exact absurd hperm.symm.eq_nil hne
  | cons x xs =>
    obtain ⟨rest, hrest⟩ := uniquePairsFilter_cons x xs
    rw [hs] at hperm hsorted
    refine ⟨x, xs, rest, rfl, ?_, hperm.subset (List.mem_cons_self _ _), ?_⟩
    · unfold selectROIs
      rw [if_pos hpos, hs, hrest]
    · intro r hr
      rcases List.mem_cons.1 (hperm.symm.subset hr) with rfl | hmem
      · exact le_refl _
      · have := (List.pairwise_cons.1 hsorted).1 r hmem
        simpa [profitLess] using this

set_option maxRecDepth 100000 in
/-- C27, an instance: in the batch `A`, `L` the opportunity `L` has the highest profit and the
pair `q` twice among its own pairs; it is the first selected. -/
theorem selectROIs_head_is_best_witness :
    (∃ best sortedRest rest,
      insertionSorter.sort [exampleA, exampleL] = best :: sortedRest
      ∧ selectROIs insertionSorter [exampleA, exampleL] = best :: rest
      ∧ best ∈ [exampleA, exampleL]
      ∧ ∀ r ∈ [exampleA, exampleL], r.Profit ≤ best.Profit)
    ∧ selectROIs insertionSorter [exampleA, exampleL] = [exampleL, exampleA] :=
  ⟨selectROIs_head_is_best insertionSorter [exampleA, exampleL] (by decide), by decide⟩

/-! ## The all-nonzero run -/

/-- On a sample of ten tuples without a zero representative profit the scan returns 10. -/
theorem sampleIndex_of_tenNonzero (o : Oracle) (n : Nat) (t : ITriangularArbitrageTriangular)
    (q : ArbitrageQueryParam) (h : TenNonzeroTuples (getRois o n t q)) :
    sampleIndex o n t q = .ok 10 := by
  obtain ⟨rois, hr, hlen, hnz⟩ := h
  unfold sampleIndex
  rw [hr]
  show resolveROI rois = _
  unfold resolveROI
  rw [resolveROI_bound, hlen]
  have := resolveROILoop_none rois 10 0 (fun j hj => by
    obtain ⟨v, hv, hg⟩ := hnz j hj
    exact ⟨v, hv, by rw [Nat.zero_add]; exact hg⟩)
  rw [this]
  rfl

/-- C8 (as amended): if at every one of the four stages the oracle returns ten sub-step tuples
none of which has a zero representative profit, the scan returns 10 at every stage; the offset
that narrows the window is clamped to the last sub-step (index 9) at the first three stages, so
the windows start at 0, 9000, 9900 and 9990; the offset of the final width-10 stage is added as
it is, so the resolved point is `9990 + 10 = 10000`, the end of the window, and the exact-point
query is issued there. -/
theorem pairWorker_all_nonzero (env : Env) (o : Oracle) (triangle : Triangle)
    (h1 : TenNonzeroTuples (getRois o 0 (toTriangular env triangle) ⟨0, 10000, 10⟩))
    (h2 : TenNonzeroTuples (getRois o 1 (toTriangular env triangle) ⟨9000, 10000, 10⟩))
    (h3 : TenNonzeroTuples (getRois o 2 (toTriangular env triangle) ⟨9900, 10000, 10⟩))
    (h4 : TenNonzeroTuples (getRois o 3 (toTriangular env triangle) ⟨9990, 10000, 10⟩)) :
    sampleIndex o 0 (toTriangular env triangle) ⟨0, 10000, 10⟩ = .ok 10
    ∧ sampleIndex o 1 (toTriangular env triangle) ⟨9000, 10000, 10⟩ = .ok 10
    ∧ sampleIndex o 2 (toTriangular env triangle) ⟨9900, 10000, 10⟩ = .ok 10
    ∧ sampleIndex o 3 (toTriangular env triangle) ⟨9990, 10000, 10⟩ = .ok 10
    ∧ pairWorkerStages o (toTriangular env triangle)
        = ([⟨0, 10000, 10⟩, ⟨9000, 10000, 10⟩, ⟨9900, 10000, 10⟩, ⟨9990, 10000, 10⟩],
            .ok 10000)
    ∧ (pairWorker env o triangle).calls
        = [⟨0, 10000, 10⟩, ⟨9000, 10000, 10⟩, ⟨9900, 10000, 10⟩, ⟨9990, 10000, 10⟩,
            ⟨10000, 10000, 1⟩] := by
  have s1 := sampleIndex_of_tenNonzero o 0 _ _ h1
  have s2 := sampleIndex_of_tenNonzero o 1 _ _ h2
  have s3 := sampleIndex_of_tenNonzero o 2 _ _ h3
  have s4 := sampleIndex_of_tenNonzero o 3 _ _ h4
  have e1 : window1 = ⟨0, 10000, 10⟩ := by decide
  have e2 : window2 10 = ⟨9000, 10000, 10⟩ := by decide
  have e3 : window3 10 10 = ⟨9900, 10000, 10⟩ := by decide
  have e4 : window4 10 10 10 = ⟨9990, 10000, 10⟩ := by decide
  have hst := pairWorkerStages_ok o (toTriangular env triangle) 10 10 10 10
    (by rw [e1]; exact s1) (by rw [e2]; exact s2) (by rw [e3]; exact s3) (by rw [e4]; exact s4)
  rw [e1, e2, e3, e4] at hst
  have hst2 : pairWorkerStages o (toTriangular env triangle)
      = ([⟨0, 10000, 10⟩, ⟨9000, 10000, 10⟩, ⟨9900, 10000, 10⟩, ⟨9990, 10000, 10⟩],
          .ok 10000) := hst
  refine ⟨s1, s2, s3, s4, hst2, ?_⟩
  rw [pairWorker_calls_of_point env o triangle _ 10000 hst2 (by decide)]
  rfl

set_option maxRecDepth 1000000 in
/-- C8, an instance: the oracle whose every reply holds ten tuples of words of value 1. -/
theorem pairWorker_all_nonzero_witness :
    pairWorkerStages allNonzeroOracle (toTriangular sampleEnv sampleTriangle)
        = ([⟨0, 10000, 10⟩, ⟨9000, 10000, 10⟩, ⟨9900, 10000, 10⟩, ⟨9990, 10000, 10⟩],
            .ok 10000)
    ∧ (pairWorker sampleEnv allNonzeroOracle sampleTriangle).calls
        = [⟨0, 10000, 10⟩, ⟨9000, 10000, 10⟩, ⟨9900, 10000, 10⟩, ⟨9990, 10000, 10⟩,
            ⟨10000, 10000, 1⟩] :=
  have hall : ∀ (n : Nat) (q : ArbitrageQueryParam),
      TenNonzeroTuples (getRois allNonzeroOracle n (toTriangular sampleEnv sampleTriangle) q) :=
    fun n q => ⟨List.replicate 86 (some 1),
      (show getRois allNonzeroOracle n (toTriangular sampleEnv sampleTriangle) q
          = decodeRois (List.replicate 88 oneWord).flatten from rfl).trans (by decide!),
      by decide, fun i hi => ⟨1, by decide, by interval_cases i <;> decide⟩⟩
  (pairWorker_all_nonzero sampleEnv allNonzeroOracle sampleTriangle (hall 0 _) (hall 1 _)
    (hall 2 _) (hall 3 _)).2.2.2.2

end PairScan
